import Mathlib

/-!
# go-textile: the thread files engine, the mobile file pipeline and the helpers

A shallow embedding of `core/thread_files.go` (`AddFiles`, `handleFilesBlock`),
of `mobile/files.go` (`getMill`, `getFileConfig`, `buildDirectory`, `addData`,
`addFiles`, `writeFiles`, `ImageFileDataForMinWidth`) and of `util/main.go`
(`ProtoTs`, `ProtoNanos`, `SplitString`, `TrimQuotes`, `UnmarshalString`).

The functions of the thread engine and of the mobile layer are sequential Go
code that talks to collaborators which live outside the embedded source (the
object store, the schema processor, the cafe outbox, the key store, the block
committer, the block index, the head pointer, the peer network, the file
store, the transformers).  Every collaborator call is embedded the same way:

* whether the call fails, and what it returns, is decided by an oracle of the
  environment (`Env`, `MobileEnv`), which may inspect the whole current state;
* the call is appended to the `trace` of the thread state (for the mobile
  layer: the calls the claims speak about, to the `calls` of the node),
  whether it fails or not, so "no key was persisted" is a statement about the
  trace;
* a successful call has the effect the specification gives it (a row in the
  index, a new head, a queued request, a stored key); a failing call has no
  effect besides its trace entry.

The functions return their Go result together with the final state, also on an
error return, so that what an aborted call leaves behind can be stated.  A
run-time panic is a third kind of result (`Result.panic`).  `AddFiles` is the
body of `Thread.AddFiles`; the mutex `t.mux` around it is embedded in
`AddFilesLocked`.  Machine integers are integers with explicit wrap-around.
`strings.Split` and `strings.TrimSpace` of the Go standard library are embedded
on the characters of a text.
-/

namespace Textile

/-! ## Data model -/

/-- Errors returned by the engine: the package-level error values
(`ErrDAGSchemaRequired`, `core.ErrStopped`, `core.ErrThreadNotFound`,
`core.ErrThreadSchemaRequired`, `schema.ErrEmptySchema`,
`core.ErrFileNotFound`, `ipld.ErrNotFound`) and any other error value, kept as
its text. -/
inductive Err where
  | dagSchemaRequired : Err
  | other : String → Err
  | stopped : Err
  | threadNotFound : Err
  | threadSchemaRequired : Err
  | emptySchema : Err
  | fileNotFound : Err
  | ipldNotFound : Err
deriving DecidableEq, Repr

/-- A multihash (`mh.Multihash`), identified with its base58 rendering. -/
structure Multihash where
  B58String : String
deriving DecidableEq, Repr

/-- A content identifier (`cid.Cid`); only the multihash is observed. -/
structure Cid where
  Hash : Multihash
deriving DecidableEq, Repr

/-- An IPLD link (`ipld.Link`). -/
structure Link where
  Name : String
  Size : Nat
  Cid : Cid
deriving DecidableEq, Repr

/-- An IPLD node (`ipld.Node`), observed through `Cid()` and `Links()`. -/
structure IpldNode where
  Cid : Cid
  Links : List Link
deriving DecidableEq, Repr

/-- A step declaration of a schema (`pb.Link`): the input it uses, its mill
and the mill's options.  `Opts` is a Go map, kept as its list of entries. -/
structure SchemaLink where
  Use : String
  Plaintext : Bool
  Mill : String
  Opts : List (String × String)
deriving DecidableEq, Repr

/-- The thread schema (`pb.Node`).  `thread_files.go` only tests it against nil
and hands it to `Process`; `mobile/files.go` reads its mill, options,
plaintext flag and links.  `Opts` and `Links` are Go maps, kept as their lists
of entries. -/
structure Schema where
  Name : String
  Plaintext : Bool := false
  Mill : String := ""
  Opts : List (String × String) := []
  Links : List (String × SchemaLink) := []
deriving DecidableEq, Repr

/-- A protobuf timestamp (`timestamp.Timestamp`). -/
structure PbTimestamp where
  Seconds : Int
  Nanos : Int
deriving DecidableEq, Repr

/-- An instant (`time.Time`), in nanoseconds since the Unix epoch. -/
abbrev Time := Int

/-- A block header (`pb.ThreadBlockHeader`); `Date` is a pointer and may be
nil. -/
structure ThreadBlockHeader where
  Date : Option PbTimestamp
  Author : String
deriving DecidableEq, Repr

/-- The files payload (`pb.ThreadFiles`).  `Keys` is a Go map; it is kept as
the list of its entries in the order in which `range` visits them. -/
structure ThreadFiles where
  Target : String
  Body : String
  Keys : List (String × String)
deriving DecidableEq, Repr

/-- An incoming block (`pb.ThreadBlock`): header and still-encoded payload.
The header pointer is taken to be non-nil. -/
structure ThreadBlock where
  Header : ThreadBlockHeader
  Payload : String
deriving DecidableEq, Repr

/-- Block types of the wire format (`pb.ThreadBlock_Type`). -/
inductive ThreadBlockType where
  | FILES : ThreadBlockType
  | IGNORE : ThreadBlockType
  | OTHER : ThreadBlockType
deriving DecidableEq, Repr

/-- Block types of the local index (`repo.BlockType`). -/
inductive BlockType where
  | FilesBlock : BlockType
  | IgnoreBlock : BlockType
  | OtherBlock : BlockType
deriving DecidableEq, Repr

/-- Request kinds of the cafe outbox (`repo.CafeRequestType`). -/
inductive CafeRequestType where
  | CafeStoreRequest : CafeRequestType
  | CafeOtherRequest : CafeRequestType
deriving DecidableEq, Repr

/-- What `commitBlock` returns and `indexBlock` consumes (`commitResult`). -/
structure CommitResult where
  hash : Multihash
  header : ThreadBlockHeader
deriving DecidableEq, Repr

/-- A row of the local block index (`repo.Block`). -/
structure Block where
  Id : String
  Typ : BlockType
  Date : Time
  Target : String
  Body : String
deriving DecidableEq, Repr

/-- A stored file key (`repo.ThreadFileKey`). -/
structure ThreadFileKey where
  Hash : String
  Key : String
deriving DecidableEq, Repr

/-- A queued outbox request: target and kind. -/
structure CafeRequest where
  Target : String
  Typ : CafeRequestType
deriving DecidableEq, Repr

/-- One call made to a collaborator, with its arguments. -/
inductive Call where
  | cidParse : Multihash → Call
  | cidNode : Cid → Call
  | linkNode : Link → Call
  | process : Schema → IpldNode → Call
  | outboxAdd : String → CafeRequestType → Call
  | keyAdd : ThreadFileKey → Call
  | commitBlock : ThreadFiles → ThreadBlockType → Call
  | indexBlock : CommitResult → BlockType → String → String → Call
  | updateHead : Multihash → Call
  | post : CommitResult → List String → Call
deriving DecidableEq, Repr

/-- A thread together with the stores it reads and writes. -/
structure Thread where
  schema : Option Schema
  head : Multihash
  peers : List String
  blocks : List Block
  fileKeys : List ThreadFileKey
  outbox : List CafeRequest
  trace : List Call
deriving DecidableEq, Repr

/-- The collaborators, as oracles.  `none` stands for a nil error. -/
structure Env where
  unmarshalAny : String → Except Err ThreadFiles
  timestamp : Option PbTimestamp → Except Err Time
  cidParse : Multihash → Except Err Cid
  cidNode : Thread → Cid → Except Err IpldNode
  linkNode : Thread → Link → Except Err IpldNode
  process : Thread → Schema → IpldNode → Option Err
  outboxAdd : Thread → String → CafeRequestType → Option Err
  keyAdd : Thread → ThreadFileKey → Option Err
  commitBlock : Thread → ThreadFiles → ThreadBlockType → Except Err CommitResult
  indexBlock : Thread → CommitResult → BlockType → String → String → Except Err Time
  updateHead : Thread → Multihash → Option Err
  post : Thread → CommitResult → List String → Option Err

/-! ## Collaborator calls -/

/-- Append a call to the trace. -/
def Thread.log (t : Thread) (c : Call) : Thread :=
  { t with trace := t.trace ++ [c] }

/-- Modelled from the spec: `Blocks().GetByTarget`, the lookup of an index row
by its target ("reads through the local index"); the first matching row. -/
def GetByTarget (t : Thread) (target : String) : Option Block :=
  t.blocks.find? (fun b => b.Target == target)

/-- Modelled from the spec: `cafeOutbox.Add`, the enqueue of a request for a
target; a successful enqueue leaves the request in the outbox.  The error
value is returned next to the state. -/
def outboxAdd (env : Env) (t : Thread) (target : String) (rtype : CafeRequestType) :
    Option Err × Thread :=
  match env.outboxAdd t target rtype with
  | some e => (some e, t.log (Call.outboxAdd target rtype))
  | none =>
    (none, { t with outbox := t.outbox ++ [{ Target := target, Typ := rtype }],
                    trace := t.trace ++ [Call.outboxAdd target rtype] })

/-- Modelled from the spec: `ThreadFileKeys().Add`, which stores one
(hash, key) pair in the key store. -/
def keyAdd (env : Env) (t : Thread) (k : ThreadFileKey) : Option Err × Thread :=
  match env.keyAdd t k with
  | some e => (some e, t.log (Call.keyAdd k))
  | none =>
    (none, { t with fileKeys := t.fileKeys ++ [k], trace := t.trace ++ [Call.keyAdd k] })

/-- Modelled from the spec: `commitBlock`, which commits a payload as a new
block of the given type and returns its hash and header. -/
def commitBlock (env : Env) (t : Thread) (msg : ThreadFiles) (ty : ThreadBlockType) :
    Except Err CommitResult × Thread :=
  (env.commitBlock t msg ty, t.log (Call.commitBlock msg ty))

/-- Modelled from the spec: `indexBlock`, which adds a row for the commit
result to the local index, keyed by the hash and carrying type, target and
body; the row's date is the one the index derives from the header. -/
def indexBlock (env : Env) (t : Thread) (commit : CommitResult) (blockType : BlockType)
    (target body : String) : Option Err × Thread :=
  match env.indexBlock t commit blockType target body with
  | .error e => (some e, t.log (Call.indexBlock commit blockType target body))
  | .ok date =>
    (none, { t with
      blocks := t.blocks ++ [{ Id := commit.hash.B58String, Typ := blockType, Date := date,
                               Target := target, Body := body }],
      trace := t.trace ++ [Call.indexBlock commit blockType target body] })

/-- Modelled from the spec: `updateHead`, which makes the given hash the
thread's head. -/
def updateHead (env : Env) (t : Thread) (head : Multihash) : Option Err × Thread :=
  match env.updateHead t head with
  | some e => (some e, t.log (Call.updateHead head))
  | none => (none, { t with head := head, trace := t.trace ++ [Call.updateHead head] })

/-- Modelled from the spec: `post`, which sends the block to the given
peers. -/
def post (env : Env) (t : Thread) (res : CommitResult) (peers : List String) :
    Option Err × Thread :=
  (env.post t res peers, t.log (Call.post res peers))

/-! ## `core/thread_files.go` -/

/-- The loop over `node.Links()` shared by both functions: each link is
resolved with `ipfs.LinkNode` and the resolved node is validated against the
schema with `t.Process`; the first error ends the loop. -/
def processLinks (env : Env) (schema : Schema) : Thread → List Link → Option Err × Thread
  | t, [] => (none, t)
  | t, link :: rest =>
    match env.linkNode t link with
    | .error e => (some e, t.log (Call.linkNode link))
    | .ok nd =>
      match env.process (t.log (Call.linkNode link)) schema nd with
      | some e => (some e, (t.log (Call.linkNode link)).log (Call.process schema nd))
      | none => processLinks env schema ((t.log (Call.linkNode link)).log (Call.process schema nd)) rest

/-- The loop over the key map shared by both functions: each entry is handed
to `ThreadFileKeys().Add`; the first error ends the loop. -/
def saveKeys (env : Env) : Thread → List (String × String) → Option Err × Thread
  | t, [] => (none, t)
  | t, (hash, key) :: rest =>
    match keyAdd env t { Hash := hash, Key := key } with
    | (some e, t1) => (some e, t1)
    | (none, t1) => saveKeys env t1 rest

/-- `Thread.AddFiles`: adds an outgoing files block. -/
def AddFiles (env : Env) (t : Thread) (node : IpldNode) (caption : String)
    (keys : List (String × String)) : Except Err Multihash × Thread :=
  -- schema is required to add files
  match t.schema with
  | none => (.error Err.dagSchemaRequired, t)
  | some schema =>
    -- target is the top dir containing one or more files
    let target := node.Cid.Hash.B58String
    -- each link should point to a dag described by the thread schema
    match processLinks env schema t node.Links with
    | (some e, t1) => (.error e, t1)
    | (none, t1) =>
      -- outbox the dir (the result of Add is not inspected)
      let t2 := (outboxAdd env t1 target CafeRequestType.CafeStoreRequest).2
      -- save keys
      match saveKeys env t2 keys with
      | (some e, t3) => (.error e, t3)
      | (none, t3) =>
        -- build block
        let msg : ThreadFiles :=
          { Target := node.Cid.Hash.B58String, Body := caption, Keys := keys }
        -- commit to ipfs
        match commitBlock env t3 msg ThreadBlockType.FILES with
        | (.error e, t4) => (.error e, t4)
        | (.ok res, t4) =>
          -- index it locally
          match indexBlock env t4 res BlockType.FilesBlock msg.Target msg.Body with
          | (some e, t5) => (.error e, t5)
          | (none, t5) =>
            -- update head
            match updateHead env t5 res.hash with
            | (some e, t6) => (.error e, t6)
            | (none, t6) =>
              -- post it
              match post env t6 res t6.peers with
              | (some e, t7) => (.error e, t7)
              | (none, t7) => (.ok res.hash, t7)

/-- Lines 97 to 109 of `handleFilesBlock`: whether the block has been ignored.
A row with target `ignore-<hash>` is looked up; when there is one the header
date is converted with `ptypes.Timestamp` (an error aborts the call) and the
block is ignored when the row's date is after it. -/
def checkIgnored (env : Env) (t : Thread) (hash : Multihash) (block : ThreadBlock) :
    Except Err Bool :=
  match GetByTarget t ("ignore-" ++ hash.B58String) with
  | none => .ok false
  | some ignored =>
    match env.timestamp block.Header.Date with
    | .error e => .error e
    | .ok date => .ok (decide (ignored.Date > date))

/-- Lines 110 to 144 of `handleFilesBlock`, the body of `if !ignore`: the node
at the block hash is fetched, its links are processed, the hash is put in the
outbox and the payload's keys are saved. -/
def applyFilesBlock (env : Env) (schema : Schema) (t : Thread) (hash : Multihash)
    (msg : ThreadFiles) : Option Err × Thread :=
  -- get the node at target
  match env.cidParse hash with
  | .error e => (some e, t.log (Call.cidParse hash))
  | .ok id =>
    match env.cidNode (t.log (Call.cidParse hash)) id with
    | .error e => (some e, (t.log (Call.cidParse hash)).log (Call.cidNode id))
    | .ok node =>
      -- each link should point to a dag described by the thread schema
      match processLinks env schema ((t.log (Call.cidParse hash)).log (Call.cidNode id))
          node.Links with
      | (some e, t1) => (some e, t1)
      | (none, t1) =>
        -- outbox the dir (the result of Add is not inspected)
        let t2 := (outboxAdd env t1 hash.B58String CafeRequestType.CafeStoreRequest).2
        -- save keys
        saveKeys env t2 msg.Keys

/-- `Thread.handleFilesBlock`: handles an incoming files block. -/
def handleFilesBlock (env : Env) (t : Thread) (hash : Multihash) (block : ThreadBlock) :
    Except Err ThreadFiles × Thread :=
  match env.unmarshalAny block.Payload with
  | .error e => (.error e, t)
  | .ok msg =>
    -- schema is required to add files
    match t.schema with
    | none => (.error Err.dagSchemaRequired, t)
    | some schema =>
      -- check if this block has been ignored
      match checkIgnored env t hash block with
      | .error e => (.error e, t)
      | .ok ignore =>
        match (if ignore then (none, t) else applyFilesBlock env schema t hash msg) with
        | (some e, t1) => (.error e, t1)
        | (none, t1) =>
          -- index locally
          match indexBlock env t1 { hash := hash, header := block.Header }
              BlockType.FilesBlock msg.Target msg.Body with
          | (some e, t2) => (.error e, t2)
          | (none, t2) => (.ok msg, t2)

/-! ## Observations on a run -/

/-- The calls made between state `t` and a later state `t'`. -/
def callsSince (t t' : Thread) : List Call :=
  t'.trace.drop t.trace.length

/-- Link resolution (`ipfs.LinkNode`) and schema validation (`t.Process`). -/
def Call.isLinkCall : Call → Bool
  | Call.linkNode _ => true
  | Call.process _ _ => true
  | _ => false

/-- The lookup of the node behind a hash (`cid.Parse`, `ipfs.CidNode`). -/
def Call.isNodeLookup : Call → Bool
  | Call.cidParse _ => true
  | Call.cidNode _ => true
  | _ => false

/-- An enqueue in the cafe outbox. -/
def Call.isOutboxAdd : Call → Bool
  | Call.outboxAdd _ _ => true
  | _ => false

/-- An `Add` on the key store. -/
def Call.isKeyAdd : Call → Bool
  | Call.keyAdd _ => true
  | _ => false

/-- A block commit. -/
def Call.isCommit : Call → Bool
  | Call.commitBlock _ _ => true
  | _ => false

/-- A write to the local index. -/
def Call.isIndex : Call → Bool
  | Call.indexBlock _ _ _ _ => true
  | _ => false

/-- A head update. -/
def Call.isUpdateHead : Call → Bool
  | Call.updateHead _ => true
  | _ => false

/-- A propagation to peers. -/
def Call.isPost : Call → Bool
  | Call.post _ _ => true
  | _ => false

/-- The side effects of a received files block: node lookup, link resolution
and validation, the outbox enqueue and key persistence. -/
def Call.isBlockEffect (c : Call) : Bool :=
  c.isNodeLookup || c.isLinkCall || c.isOutboxAdd || c.isKeyAdd

/-- The key-store calls for a key map, in iteration order. -/
def keyCalls (keys : List (String × String)) : List Call :=
  keys.map (fun p => Call.keyAdd { Hash := p.1, Key := p.2 })

/-- The key-store rows for a key map, in iteration order. -/
def keyRows (keys : List (String × String)) : List ThreadFileKey :=
  keys.map (fun p => { Hash := p.1, Key := p.2 })

/-- The error, if any, that the loop body of `processLinks` meets on a link
when it starts in state `s`. -/
def linkError (env : Env) (schema : Schema) (s : Thread) (link : Link) : Option Err :=
  match env.linkNode s link with
  | .error e => some e
  | .ok nd => env.process (s.log (Call.linkNode link)) schema nd

/-! ## Vocabulary of the statements -/

/-- The index row of a files block. -/
def filesRow (hash : Multihash) (date : Time) (target body : String) : Block :=
  { Id := hash.B58String, Typ := BlockType.FilesBlock, Date := date, Target := target,
    Body := body }

/-- The payload `AddFiles` builds for a node, a caption and a key map. -/
def filesMsg (node : IpldNode) (caption : String) (keys : List (String × String)) :
    ThreadFiles :=
  { Target := node.Cid.Hash.B58String, Body := caption, Keys := keys }

/-- The last call made between two states, if any. -/
def lastCall (t t' : Thread) : Option Call :=
  (callsSince t t').getLast?

/-- The state with the last trace entry removed. -/
def Thread.beforeLastCall (t : Thread) : Thread :=
  { t with trace := t.trace.dropLast }

/-- The calls `AddFiles` makes up to and including the key loop: the link
calls `cs`, the enqueue of the target, and the key-store calls for `tried`. -/
def addFilesPrefix (cs : List Call) (target : String) (tried : List (String × String)) :
    List Call :=
  cs ++ Call.outboxAdd target CafeRequestType.CafeStoreRequest :: keyCalls tried

/-- A tombstone for the block exists and is strictly newer than the block: a
row with target `ignore-<hash>` is in the index, the header date converts, and
the row's date is after it. -/
def tombstoneNewer (env : Env) (t : Thread) (hash : Multihash) (block : ThreadBlock) : Bool :=
  match GetByTarget t ("ignore-" ++ hash.B58String) with
  | none => false
  | some tomb =>
    match env.timestamp block.Header.Date with
    | .error _ => false
    | .ok d => decide (tomb.Date > d)

/-- No tombstone for the block exists, or the one found is not newer than the
block: its date is equal to or earlier than the converted header date. -/
def tombstoneAbsentOrOlder (env : Env) (t : Thread) (hash : Multihash) (block : ThreadBlock) :
    Bool :=
  match GetByTarget t ("ignore-" ++ hash.B58String) with
  | none => true
  | some tomb =>
    match env.timestamp block.Header.Date with
    | .error _ => false
    | .ok d => decide (tomb.Date ≤ d)

/-- The side effects of a received block were skipped between `t` and `t'`: no
node lookup, link resolution, validation, enqueue or key-store call was made,
and the outbox and the key store are as before. -/
def effectsSkipped (t t' : Thread) : Prop :=
  (∀ c ∈ callsSince t t', Call.isBlockEffect c = false) ∧
  t'.outbox = t.outbox ∧ t'.fileKeys = t.fileKeys

/-- The side effects of a received block were applied between `t` and `t'`:
the side-effect block was entered at the node lookup, every call it makes is
in the trace of `t'`, and the outbox and key store of `t'` are the ones it
leaves. -/
def effectsApplied (env : Env) (schema : Schema) (t : Thread) (hash : Multihash)
    (msg : ThreadFiles) (t' : Thread) : Prop :=
  Call.cidParse hash ∈ callsSince t t' ∧
  (applyFilesBlock env schema t hash msg).2.trace <+: t'.trace ∧
  t'.outbox = (applyFilesBlock env schema t hash msg).2.outbox ∧
  t'.fileKeys = (applyFilesBlock env schema t hash msg).2.fileKeys

instance (t t' : Thread) : Decidable (effectsSkipped t t') := by
  unfold effectsSkipped
  infer_instance

instance (env : Env) (schema : Schema) (t : Thread) (hash : Multihash) (msg : ThreadFiles)
    (t' : Thread) : Decidable (effectsApplied env schema t hash msg t') := by
  unfold effectsApplied
  infer_instance

/-! ## Example environment -/

/-- The conversion `ptypes.Timestamp` of the protobuf library: a nil
timestamp, seconds outside years 1 to 9999 and nanos outside `[0, 1e9)` are
errors; otherwise the instant is `time.Unix(Seconds, Nanos)`. -/
def ptypesTimestamp : Option PbTimestamp → Except Err Time
  | none => .error (Err.other "timestamp: nil Timestamp")
  | some ts =>
    if ts.Seconds < -62135596800 then .error (Err.other "timestamp: before 0001-01-01")
    else if ts.Seconds ≥ 253402300800 then .error (Err.other "timestamp: after 10000-01-01")
    else if ts.Nanos < 0 ∨ ts.Nanos ≥ 1000000000 then
      .error (Err.other "timestamp: nanos not in range [0, 1e9)")
    else .ok (ts.Seconds * 1000000000 + ts.Nanos)

/-- The instant `time.Unix(Seconds, Nanos)` of a protobuf timestamp, defined
for every pair of fields. -/
def unixTime (ts : PbTimestamp) : Time :=
  ts.Seconds * 1000000000 + ts.Nanos

/-- An environment in which every collaborator succeeds.  A payload decodes to
a files message whose target is the payload text, with caption `"caption"`
and one key; the payload `"garbage"` does not decode.  Every node behind a
hash has one link; every commit yields block `QmBlock` dated 100 s. -/
def demoEnv : Env where
  unmarshalAny := fun p =>
    if p = "garbage" then .error (Err.other "proto: cannot parse")
    else .ok { Target := p, Body := "caption", Keys := [("QmFile", "key1")] }
  timestamp := ptypesTimestamp
  cidParse := fun h => .ok { Hash := h }
  cidNode := fun _ id =>
    .ok { Cid := id, Links := [{ Name := "0", Size := 10, Cid := { Hash := { B58String := "QmFile" } } }] }
  linkNode := fun _ l => .ok { Cid := l.Cid, Links := [] }
  process := fun _ _ _ => none
  outboxAdd := fun _ _ _ => none
  keyAdd := fun _ _ => none
  commitBlock := fun _ _ _ =>
    .ok { hash := { B58String := "QmBlock" },
          header := { Date := some { Seconds := 100, Nanos := 0 }, Author := "me" } }
  indexBlock := fun _ res _ _ _ => ptypesTimestamp res.header.Date
  updateHead := fun _ _ => none
  post := fun _ _ _ => none

/-- A thread with a schema, head `QmHead`, one peer and empty stores. -/
def demoThread : Thread where
  schema := some { Name := "media" }
  head := { B58String := "QmHead" }
  peers := ["peer1"]
  blocks := []
  fileKeys := []
  outbox := []
  trace := []

/-- The directory node `QmDir` with two file links. -/
def demoNode : IpldNode where
  Cid := { Hash := { B58String := "QmDir" } }
  Links := [{ Name := "0", Size := 10, Cid := { Hash := { B58String := "QmFile0" } } },
            { Name := "1", Size := 20, Cid := { Hash := { B58String := "QmFile1" } } }]

/-- An incoming block dated 50 s whose payload decodes with target `QmDir`. -/
def demoBlock : ThreadBlock where
  Header := { Date := some { Seconds := 50, Nanos := 0 }, Author := "peer1" }
  Payload := "QmDir"

/-- The example thread holding a tombstone for block `QmIn`, dated 5 ns. -/
def tombThread : Thread :=
  { demoThread with
    blocks := [{ Id := "QmIgnore", Typ := BlockType.IgnoreBlock, Date := 5,
                 Target := "ignore-QmIn", Body := "" }] }

/-- A block whose header date has nanos out of range: `ptypes.Timestamp`
rejects it, while `time.Unix(10, -1)` is the instant 9999999999 ns. -/
def badDateBlock : ThreadBlock where
  Header := { Date := some { Seconds := 10, Nanos := -1 }, Author := "peer1" }
  Payload := "QmDir"

/-- A block dated 50 s whose payload does not decode. -/
def garbageBlock : ThreadBlock where
  Header := { Date := some { Seconds := 50, Nanos := 0 }, Author := "peer1" }
  Payload := "garbage"

/-- The example environment with a schema processor that rejects every node. -/
def rejectingEnv : Env :=
  { demoEnv with process := fun _ _ _ => some (Err.other "schema mismatch") }

/-- The example thread without a schema. -/
def noSchemaThread : Thread :=
  { demoThread with schema := none }

/-- The example environment with a head update that always fails. -/
def headFailEnv : Env :=
  { demoEnv with updateHead := fun _ _ => some (Err.other "database is locked") }

/-- The example environment with a post that always fails. -/
def postFailEnv : Env :=
  { demoEnv with post := fun _ _ _ => some (Err.other "no route to peer") }

/-- The example environment with a link resolver that cannot find `QmFile1`. -/
def missingLinkEnv : Env :=
  { demoEnv with
    linkNode := fun _ l =>
      if l.Cid.Hash.B58String = "QmFile1" then .error (Err.other "merkledag: not found")
      else .ok { Cid := l.Cid, Links := [] } }

/-- The example environment with an outbox whose enqueue always fails. -/
def outboxFailEnv : Env :=
  { demoEnv with outboxAdd := fun _ _ _ => some (Err.other "disk I/O error") }

/-- The hash of the incoming example block, which differs from the target
`QmDir` carried in its payload. -/
def incomingHash : Multihash :=
  { B58String := "QmIn" }

/-! ## `util/main.go` -/

/-- The value an `int64` holds after Go's wrapping arithmetic produced `x`. -/
def wrap64 (x : Int) : Int :=
  (x + 9223372036854775808) % 18446744073709551616 - 9223372036854775808

/-- The value an `int32` holds after the conversion `int32(x)`. -/
def wrap32 (x : Int) : Int :=
  (x + 2147483648) % 4294967296 - 2147483648

/-- `ProtoNanos`: the nanosecond count of a timestamp.  A nil timestamp is
replaced by `ptypes.TimestampNow()`, passed in as `now`. -/
def ProtoNanos (now : PbTimestamp) (ts : Option PbTimestamp) : Int :=
  match ts with
  | none => wrap64 (now.Nanos + wrap64 (now.Seconds * 1000000000))
  | some ts => wrap64 (ts.Nanos + wrap64 (ts.Seconds * 1000000000))

/-- `ProtoTs`: the timestamp of an `int64` nanosecond count.  `/` on `int64`
truncates toward zero. -/
def ProtoTs (nsec : Int) : PbTimestamp :=
  let n := wrap64 (Int.tdiv nsec 1000000000)
  let sec := n
  let nsec1 := wrap64 (nsec - wrap64 (n * 1000000000))
  if nsec1 < 0 then
    { Seconds := wrap64 (sec - 1), Nanos := wrap32 (wrap64 (nsec1 + 1000000000)) }
  else
    { Seconds := sec, Nanos := wrap32 nsec1 }

/-! ## `mobile/files.go`: data model -/

/-- How a Go call ends: with a value, with an error value, or in a run-time
panic. -/
inductive Result (α : Type) where
  | ok : α → Result α
  | err : Err → Result α
  | panic : String → Result α
deriving Repr

/-- Options of the resize transformer (`mill.ImageResizeOpts`). -/
structure ImageResizeOpts where
  Width : String
  Quality : String
deriving DecidableEq, Repr

/-- A transformer (`mill.Mill`): one of the four values `getMill` builds.  A
nil `mill.Mill` is `none` of `Option Mill`. -/
inductive Mill where
  | Blob : Mill
  | ImageResize : ImageResizeOpts → Mill
  | ImageExif : Mill
  | Json : Mill
deriving DecidableEq, Repr

/-- Modelled from the spec: the method `ID` of a transformer, the identifier
under which the mill registry dispatches to it. -/
def Mill.ID : Mill → String
  | Mill.Blob => "/blob"
  | Mill.ImageResize _ => "/image/resize"
  | Mill.ImageExif => "/image/exif"
  | Mill.Json => "/json"

/-- A byte string (`[]byte`). -/
abbrev Bytes := List Nat

/-- A processed file (`pb.FileIndex`).  `Meta` is the pointer to the metadata
struct and may be nil; its fields are kept with their number value converted
to `int`. -/
structure FileIndex where
  Mill : String
  Checksum : String
  Hash : String
  Media : String
  Name : String
  Meta : Option (List (String × Int))
deriving DecidableEq, Repr

/-- The input of a transformer run (`core.AddFileConfig`). -/
structure AddFileConfig where
  Input : Bytes
  Use : String
  Media : String
  Name : String
  Plaintext : Bool
deriving DecidableEq, Repr

/-- The settings collected from the options of `getFileConfig`
(`fileConfigSettings`).  `Data` is a slice and may be nil. -/
structure fileConfigSettings where
  Use : String
  Data : Option Bytes
  Path : String
  Plaintext : Bool
deriving DecidableEq, Repr

/-- A directory of processed files (`pb.Directory`).  `Files` is a Go map,
kept as a list of entries with distinct keys. -/
structure Directory where
  Files : List (String × FileIndex)
deriving DecidableEq, Repr

/-- A resolved schema step (`schema.Step`). -/
structure Step where
  Name : String
  Link : SchemaLink
deriving DecidableEq, Repr

/-- A source of bytes (`io.ReadSeeker`): reading it to the end yields `data`,
or fails with `fails`. -/
structure Reader where
  data : Bytes
  fails : Option Err
deriving DecidableEq, Repr

/-- A candidate image of `ImageFileDataForMinWidth` (`img`). -/
structure img where
  hash : String
  width : Int
deriving DecidableEq, Repr

/-- One call made by the mobile layer that the claims speak about: a file
configuration requested for a transformer, a transformer run, and a commit
through `Thread.AddFiles`. -/
inductive MCall where
  | getFileConfig : Option Mill → fileConfigSettings → MCall
  | addFileIndex : Option Mill → AddFileConfig → MCall
  | threadAddFiles : String → IpldNode → String → List (String × String) → MCall
deriving DecidableEq, Repr

/-- The mobile node (`Mobile` with its `m.node`): whether it is started, its
threads by id, and the calls made so far. -/
structure Mobile where
  started : Bool
  threads : List (String × Thread)
  calls : List MCall
deriving DecidableEq, Repr

/-- The collaborators of the mobile layer, as oracles: the constants of the
schema package, `fmt`'s rendering of a format text without operands, the path
parser, step resolution, the file system, the file store, media detection, the
transformer run, the node builders, the object store and the base64 encoder.
`core` holds the collaborators of the thread engine. -/
structure MobileEnv where
  core : Env
  FileTag : String
  SingleFileTag : String
  Sprintf : String → String
  ParsePath : String → Except Err String
  Steps : List (String × SchemaLink) → Except Err (List Step)
  Open : Mobile → String → Except Err Reader
  FileData : Mobile → String → Except Err (Reader × FileIndex)
  GetMedia : Mobile → Reader → Mill → Except Err String
  AddFileIndex : Mobile → Option Mill → AddFileConfig → Except Err FileIndex
  AddNodeFromFiles : Mobile → List FileIndex →
    Except Err (Option IpldNode × Option (List (String × String)))
  AddNodeFromDirs : Mobile → List Directory →
    Except Err (Option IpldNode × Option (List (String × String)))
  NodeAtPath : Mobile → String → Except Err IpldNode
  NodeAtLink : Mobile → Link → Except Err IpldNode
  LinkByName : List Link → Option Link
  FileIndex : Mobile → String → Except Err FileIndex
  Base64 : Bytes → String

/-! ## `mobile/files.go` -/

/-- Append a call to the log of the mobile node. -/
def Mobile.log (m : Mobile) (c : MCall) : Mobile :=
  { m with calls := m.calls ++ [c] }

/-- A Go map read `opts[key]` on a `map[string]string`: the value, or the
empty string when the key is absent. -/
def optsGet (opts : List (String × String)) (key : String) : String :=
  (opts.lookup key).getD ""

/-- `getMill`: the transformer for a mill identifier and its options; `none`
is the nil transformer. -/
def getMill (id : String) (opts : List (String × String)) : Except Err (Option Mill) :=
  if id = "/blob" then .ok (some Mill.Blob)
  else if id = "/image/resize" then
    let width := optsGet opts "width"
    if width = "" then .error (Err.other "missing width")
    else
      let quality := optsGet opts "quality"
      let quality := if quality = "" then "75" else quality
      .ok (some (Mill.ImageResize { Width := width, Quality := quality }))
  else if id = "/image/exif" then .ok (some Mill.ImageExif)
  else if id = "/json" then .ok (some Mill.Json)
  else .ok none

/-- The last element of `strings.Split(s, "/")`, which is also the file part
of `filepath.Split(s)`: the text after the last slash. -/
def lastPart (s : String) : String :=
  String.mk (s.data.foldl (fun acc c => if c = '/' then [] else acc ++ [c]) [])

/-- `ioutil.ReadAll` on a reader. -/
def ReadAll (r : Reader) : Except Err Bytes :=
  match r.fails with
  | some e => .error e
  | none => .ok r.data

/-- Lines 380 to 405 of `getFileConfig`: the reader, name and `Use` of the
configuration.  Without a `Use` the reader is over the given data or, when
there is none, over the file opened at the path, whose file name becomes the
name; with a `Use` the file stored under it is fetched, and its name and
checksum become the name and `Use`. -/
def configSource (env : MobileEnv) (m : Mobile) (settings : fileConfigSettings) :
    Except Err (Reader × String × String) :=
  if settings.Use = "" then
    match settings.Data with
    | some data => .ok ({ data := data, fails := none }, "", "")
    | none =>
      match env.Open m settings.Path with
      | .error e => .error e
      | .ok f => .ok (f, lastPart settings.Path, "")
  else
    match env.FileData m settings.Use with
    | .error e => .error e
    | .ok (reader, file) => .ok (reader, file.Name, file.Checksum)

/-- `Mobile.getFileConfig`: the configuration for a transformer run.  The
method call `mil.ID()` on a nil transformer is a run-time panic. -/
def getFileConfig (env : MobileEnv) (m : Mobile) (mil : Option Mill)
    (settings : fileConfigSettings) : Result AddFileConfig :=
  match configSource env m settings with
  | .error e => .err e
  | .ok (reader, name, use) =>
    match mil with
    | none => .panic "invalid memory address or nil pointer dereference"
    | some ml =>
      match (if ml.ID = "/json" then Except.ok "application/json"
             else env.GetMedia m reader ml) with
      | .error e => .err e
      | .ok media =>
        match ReadAll reader with
        | .error e => .err e
        | .ok input =>
          .ok { Input := input, Use := use, Media := media, Name := name,
                Plaintext := settings.Plaintext }

/-- A Go map read `dir.Files[key]`: the entry, or nil. -/
def Directory.get (dir : Directory) (key : String) : Option FileIndex :=
  dir.Files.lookup key

/-- A Go map write `dir.Files[key] = file`. -/
def Directory.set (dir : Directory) (key : String) (file : FileIndex) : Directory :=
  { Files := (key, file) :: dir.Files.filter (fun p => p.1 ≠ key) }

/-- Lines 287 to 293 of `buildDirectory`: the `use` of the caller's input,
the last part of the path when there is no data and the path parses as an
object path, and empty otherwise. -/
def inputUse (env : MobileEnv) (data : Option Bytes) (path : String) : String :=
  match data with
  | some _ => ""
  | none =>
    match env.ParsePath path with
    | .error _ => ""
    | .ok ref => lastPart ref

/-- Lines 336 to 361 of `buildDirectory`: the settings of a step's
configuration.  A step that uses the file tag takes the caller's input; any
other step takes the hash of the file stored in the directory under the name
it uses, and fails when there is none. -/
def stepSettings (env : MobileEnv) (dir : Directory) (data : Option Bytes) (path use : String)
    (step : Step) : Except Err fileConfigSettings :=
  if step.Link.Use = env.FileTag then
    .ok { Use := use, Data := data, Path := path, Plaintext := step.Link.Plaintext }
  else
    match dir.get step.Link.Use with
    | none => .error (Err.other (env.Sprintf (step.Link.Use ++ " not found")))
    | some file =>
      .ok { Use := file.Hash, Data := data, Path := path, Plaintext := step.Link.Plaintext }

/-- Lines 329 to 368 of `buildDirectory`: the loop over the resolved steps. -/
def buildSteps (env : MobileEnv) (data : Option Bytes) (path use : String) :
    Mobile → Directory → List Step → Result Directory × Mobile
  | m, dir, [] => (.ok dir, m)
  | m, dir, step :: rest =>
    match getMill step.Link.Mill step.Link.Opts with
    | .error e => (.err e, m)
    | .ok mil =>
      match stepSettings env dir data path use step with
      | .error e => (.err e, m)
      | .ok settings =>
        match getFileConfig env m mil settings with
        | .err e => (.err e, m.log (MCall.getFileConfig mil settings))
        | .panic s => (.panic s, m.log (MCall.getFileConfig mil settings))
        | .ok conf =>
          match env.AddFileIndex (m.log (MCall.getFileConfig mil settings)) mil conf with
          | .error e =>
            (.err e, (m.log (MCall.getFileConfig mil settings)).log
              (MCall.addFileIndex mil conf))
          | .ok added =>
            buildSteps env data path use
              ((m.log (MCall.getFileConfig mil settings)).log (MCall.addFileIndex mil conf))
              (dir.set step.Name added) rest

/-- `Mobile.buildDirectory`: the directory of processed files for one input,
under the schema of the thread. -/
def buildDirectory (env : MobileEnv) (m : Mobile) (data : Option Bytes)
    (path threadId : String) : Result Directory × Mobile :=
  if m.started = false then (.err Err.stopped, m)
  else
    match m.threads.lookup threadId with
    | none => (.err Err.threadNotFound, m)
    | some thrd =>
      match thrd.schema with
      | none => (.err Err.threadSchemaRequired, m)
      | some schema =>
        let use := inputUse env data path
        match getMill schema.Mill schema.Opts with
        | .error e => (.err e, m)
        | .ok (some mil) =>
          let settings : fileConfigSettings :=
            { Use := use, Data := data, Path := path, Plaintext := schema.Plaintext }
          match getFileConfig env m (some mil) settings with
          | .err e => (.err e, m.log (MCall.getFileConfig (some mil) settings))
          | .panic s => (.panic s, m.log (MCall.getFileConfig (some mil) settings))
          | .ok conf =>
            match env.AddFileIndex (m.log (MCall.getFileConfig (some mil) settings))
                (some mil) conf with
            | .error e =>
              (.err e, (m.log (MCall.getFileConfig (some mil) settings)).log
                (MCall.addFileIndex (some mil) conf))
            | .ok added =>
              (.ok (Directory.set { Files := [] } env.SingleFileTag added),
                (m.log (MCall.getFileConfig (some mil) settings)).log
                  (MCall.addFileIndex (some mil) conf))
        | .ok none =>
          if schema.Links.length > 0 then
            -- determine order
            match env.Steps schema.Links with
            | .error e => (.err e, m)
            | .ok steps =>
              -- send each link
              buildSteps env data path use m { Files := [] } steps
          else (.err Err.emptySchema, m)

/-- Replace the state of the thread with the given id. -/
def Mobile.setThread (m : Mobile) (threadId : String) (thrd : Thread) : Mobile :=
  { m with
    threads := m.threads.map (fun p => if p.1 = threadId then (p.1, thrd) else p) }

/-- The result of the thread engine as a result of the mobile layer. -/
def Result.ofExcept {α : Type} : Except Err α → Result α
  | .ok a => .ok a
  | .error e => .err e

/-- `Mobile.writeFiles`: builds the node of the directories and commits it
through `Thread.AddFiles`.  Reading `keys.Files` through a nil `keys` is a
run-time panic. -/
def writeFiles (env : MobileEnv) (m : Mobile) (dirs : List Directory)
    (threadId caption : String) : Result Multihash × Mobile :=
  if m.started = false then (.err Err.stopped, m)
  else
    match dirs with
    | [] => (.err (Err.other "no files found"), m)
    | first :: _ =>
      if first.Files.length = 0 then (.err (Err.other "no files found"), m)
      else
        match m.threads.lookup threadId with
        | none => (.err Err.threadNotFound, m)
        | some thrd =>
          match (match first.get env.SingleFileTag with
                 | some file => env.AddNodeFromFiles m [file]
                 | none => env.AddNodeFromDirs m dirs) with
          | .error e => (.err e, m)
          | .ok (none, _) => (.err (Err.other "no files found"), m)
          | .ok (some _, none) =>
            (.panic "invalid memory address or nil pointer dereference", m)
          | .ok (some node, some keys) =>
            (Result.ofExcept (AddFiles env.core thrd node caption keys).1,
              (m.setThread threadId (AddFiles env.core thrd node caption keys).2).log
                (MCall.threadAddFiles threadId node caption keys))

/-- `Mobile.addData`: one directory from the data, then `writeFiles`. -/
def addData (env : MobileEnv) (m : Mobile) (data : Option Bytes) (threadId caption : String) :
    Result Multihash × Mobile :=
  match buildDirectory env m data "" threadId with
  | (.err e, m1) => (.err e, m1)
  | (.panic s, m1) => (.panic s, m1)
  | (.ok dir, m1) => writeFiles env m1 [dir] threadId caption

/-- The loop of `addFiles`: one directory per path, appended to `dirs`; the
first failure ends the loop. -/
def buildDirectories (env : MobileEnv) (threadId : String) :
    Mobile → List Directory → List String → Result (List Directory) × Mobile
  | m, dirs, [] => (.ok dirs, m)
  | m, dirs, pth :: rest =>
    match buildDirectory env m none pth threadId with
    | (.err e, m1) => (.err e, m1)
    | (.panic s, m1) => (.panic s, m1)
    | (.ok dir, m1) => buildDirectories env threadId m1 (dirs ++ [dir]) rest

/-- `Mobile.addFiles`: one directory per path, then `writeFiles`. -/
def addFiles (env : MobileEnv) (m : Mobile) (paths : List String) (threadId caption : String) :
    Result Multihash × Mobile :=
  match buildDirectories env threadId m [] paths with
  | (.err e, m1) => (.err e, m1)
  | (.panic s, m1) => (.panic s, m1)
  | (.ok dirs, m1) => writeFiles env m1 dirs threadId caption

/-- `Mobile.FileData`: the data url of the file stored under a hash; a file
that is not found gives the empty string without error. -/
def Mobile.FileData (env : MobileEnv) (m : Mobile) (hash : String) : Result String :=
  if m.started = false then .err Err.stopped
  else
    match env.FileData m hash with
    | .error e =>
      if e = Err.fileNotFound ∨ e = Err.ipldNotFound then .ok "" else .err e
    | .ok (reader, file) =>
      match ReadAll reader with
      | .error e => .err e
      | .ok data => .ok ("data:" ++ file.Media ++ ";base64," ++ env.Base64 data)

/-- Lines 173 to 204 of `ImageFileDataForMinWidth`: the loop that collects the
resize images behind the links of the node.  `Except.error r` is an early
return with result `r`; reading `file.Meta.Fields` through a nil `Meta` is a
run-time panic. -/
def collectImages (env : MobileEnv) (m : Mobile) :
    List img → List Link → Except (Result String) (List img)
  | imgs, [] => .ok imgs
  | imgs, link :: rest =>
    match env.NodeAtLink m link with
    | .error e => if e = Err.ipldNotFound then .error (.ok "") else .error (.err e)
    | .ok nd =>
      match env.LinkByName nd.Links with
      | none => collectImages env m imgs rest
      | some dlink =>
        match env.FileIndex m dlink.Cid.Hash.B58String with
        | .error e => if e = Err.fileNotFound then .error (.ok "") else .error (.err e)
        | .ok file =>
          if file.Mill = "/image/resize" then
            match file.Meta with
            | none => .error (.panic "invalid memory address or nil pointer dereference")
            | some fields =>
              match fields.lookup "width" with
              | none => collectImages env m imgs rest
              | some width =>
                collectImages env m (imgs ++ [{ hash := file.Hash, width := width }]) rest
          else collectImages env m imgs rest

/-- Lines 210 to 223 of `ImageFileDataForMinWidth`: the images are sorted by
width with a stable sort, the hash of the first one at least `minWidth` wide
is taken, and when that leaves the hash empty the hash of the last one is
taken. -/
def selectHash (imgs : List img) (minWidth : Int) : String :=
  let sorted := imgs.insertionSort (fun a b => a.width ≤ b.width)
  let hash :=
    match sorted.find? (fun i => decide (i.width ≥ minWidth)) with
    | some i => i.hash
    | none => ""
  if hash = "" then (sorted.getLast?.map (fun i => i.hash)).getD "" else hash

/-- `Mobile.ImageFileDataForMinWidth`: the data url of an image at or above the
requested width, or the next best option. -/
def ImageFileDataForMinWidth (env : MobileEnv) (m : Mobile) (pth : String) (minWidth : Int) :
    Result String :=
  if m.started = false then .err Err.stopped
  else
    match env.NodeAtPath m pth with
    | .error e => if e = Err.ipldNotFound then .ok "" else .err e
    | .ok node =>
      match collectImages env m [] node.Links with
      | .error r => r
      | .ok imgs =>
        if imgs.length = 0 then .ok ""
        else Mobile.FileData env m (selectHash imgs minWidth)

/-! ## The guard `t.mux` -/

/-- An operation on the mutex of a thread. -/
inductive MuxOp where
  | Lock : MuxOp
  | Unlock : MuxOp
deriving DecidableEq, Repr

/-- A thread with its mutex: whether the mutex is held, and each operation
made on it so far together with the number of collaborator calls in the trace
at that moment. -/
structure Guarded where
  thread : Thread
  held : Bool
  muxLog : List (MuxOp × Nat)
deriving DecidableEq, Repr

/-- `Thread.AddFiles` with its first two lines, `t.mux.Lock()` and
`defer t.mux.Unlock()`, around the body `AddFiles`.  `Lock` on a held mutex
does not return in a sequential run, which is `none`. -/
def AddFilesLocked (env : Env) (g : Guarded) (node : IpldNode) (caption : String)
    (keys : List (String × String)) : Option (Except Err Multihash × Guarded) :=
  if g.held then none
  else
    some ((AddFiles env g.thread node caption keys).1,
      { thread := (AddFiles env g.thread node caption keys).2,
        held := false,
        muxLog := g.muxLog ++
          [(MuxOp.Lock, g.thread.trace.length),
           (MuxOp.Unlock, (AddFiles env g.thread node caption keys).2.trace.length)] })

/-- `Thread.handleFilesBlock` on a thread with its mutex: the function makes no
operation on the mutex. -/
def handleFilesBlockGuarded (env : Env) (g : Guarded) (hash : Multihash)
    (block : ThreadBlock) : Except Err ThreadFiles × Guarded :=
  ((handleFilesBlock env g.thread hash block).1,
    { g with thread := (handleFilesBlock env g.thread hash block).2 })

/-! ## Example mobile node -/

/-- An example environment of the mobile layer.  The file tag is `:file` and
the single-file tag `:single`; steps are resolved in declaration order; the
local file `/tmp/cat.png` holds three bytes; the file store holds the file
`QmOriginal`; the blob transformer produces the file `QmOriginal` and every
other transformer the file `QmThumb`. -/
def demoMobileEnv : MobileEnv where
  core := demoEnv
  FileTag := ":file"
  SingleFileTag := ":single"
  Sprintf := fun s => s
  ParsePath := fun p => .error (Err.other ("invalid path: " ++ p))
  Steps := fun links => .ok (links.map (fun l => { Name := l.1, Link := l.2 }))
  Open := fun _ p =>
    if p = "/tmp/cat.png" then .ok { data := [1, 2, 3], fails := none }
    else .error (Err.other "open: no such file or directory")
  FileData := fun _ h =>
    if h = "QmOriginal" then
      .ok ({ data := [7, 8, 9], fails := none },
        { Mill := "/blob", Checksum := "sum-original", Hash := "QmOriginal",
          Media := "image/png", Name := "cat.png", Meta := none })
    else .error Err.fileNotFound
  GetMedia := fun _ _ _ => .ok "image/png"
  AddFileIndex := fun _ mil conf =>
    if mil = some Mill.Blob then
      .ok { Mill := "/blob", Checksum := "sum-original", Hash := "QmOriginal",
            Media := conf.Media, Name := "cat.png", Meta := none }
    else
      .ok { Mill := (mil.map Mill.ID).getD "", Checksum := "sum-thumb", Hash := "QmThumb",
            Media := conf.Media, Name := conf.Name, Meta := some [("width", 50)] }
  AddNodeFromFiles := fun _ _ => .ok (some demoNode, some [("QmFile0", "k0")])
  AddNodeFromDirs := fun _ _ => .ok (some demoNode, some [("QmFile0", "k0")])
  NodeAtPath := fun _ _ => .ok demoNode
  NodeAtLink := fun _ l => .ok { Cid := l.Cid, Links := [l] }
  LinkByName := fun links => links.head?
  FileIndex := fun _ h =>
    if h = "QmFile0" then
      .ok { Mill := "/image/resize", Checksum := "c0", Hash := "QmSmall", Media := "image/png",
            Name := "cat.png", Meta := some [("width", 100)] }
    else
      .ok { Mill := "/image/resize", Checksum := "c1", Hash := "QmLarge", Media := "image/png",
            Name := "cat.png", Meta := some [("width", 800)] }
  Base64 := fun _ => "AAAA"

/-- A schema with the given top-level mill and links. -/
def schemaOf (mill : String) (opts : List (String × String))
    (links : List (String × SchemaLink)) : Schema :=
  { Name := "media", Mill := mill, Opts := opts, Links := links }

/-- A started mobile node whose thread `thread1` is the example thread with
the given schema. -/
def mobileWith (schema : Schema) : Mobile where
  started := true
  threads := [("thread1", { demoThread with schema := some schema })]
  calls := []

/-- The two-step schema of the specification: `original` takes the caller's
input through the blob transformer, `thumb` resizes the output of `original`
to width 50. -/
def twoStepSchema : Schema :=
  schemaOf "" [] [
    ("original", { Use := ":file", Plaintext := false, Mill := "/blob", Opts := [] }),
    ("thumb", { Use := "original", Plaintext := false, Mill := "/image/resize",
                Opts := [("width", "50")] })]

/-- A schema whose only step resizes the output of a step `original` that
does not exist, and carries no width. -/
def orphanStepSchema : Schema :=
  schemaOf "" [] [
    ("thumb", { Use := "original", Plaintext := false, Mill := "/image/resize", Opts := [] })]

/-- A schema whose only step takes the caller's input through the mill
`/video`, which is outside the dispatch table. -/
def unknownMillSchema : Schema :=
  schemaOf "" [] [
    ("clip", { Use := ":file", Plaintext := false, Mill := "/video", Opts := [] })]

/-- A schema whose only step resizes, to width 50, the output of a step
`original` that does not exist. -/
def orphanResizeSchema : Schema :=
  schemaOf "" [] [
    ("thumb", { Use := "original", Plaintext := false, Mill := "/image/resize",
                Opts := [("width", "50")] })]

/-- The resize image behind a link, if any: the link resolves, its node has a
content link, the file of that link is indexed, its mill is `/image/resize`
and its metadata carries a width. -/
def linkImage (env : MobileEnv) (m : Mobile) (link : Link) : Option img :=
  match env.NodeAtLink m link with
  | .error _ => none
  | .ok nd =>
    match env.LinkByName nd.Links with
    | none => none
    | some dlink =>
      match env.FileIndex m dlink.Cid.Hash.B58String with
      | .error _ => none
      | .ok file =>
        if file.Mill = "/image/resize" then
          match file.Meta with
          | none => none
          | some fields => (fields.lookup "width").map (fun w => { hash := file.Hash, width := w })
        else none

/-- The example thread with its mutex held by another operation. -/
def heldThread : Guarded where
  thread := demoThread
  held := true
  muxLog := []

/-- The example thread with its mutex free. -/
def freeThread : Guarded where
  thread := demoThread
  held := false
  muxLog := []

/-! ## `util/main.go`: strings

Go strings are embedded as `String`: the functions below are used on text, and
on text the byte-wise operations of the source (`s[0]`, `s[1:]`,
`strings.Split`) agree with the same operations on characters, because the
double quote is a one-byte character and an occurrence of one well-formed
text inside another starts and ends on character boundaries. -/

/-- The double quote character (code 34). -/
def quote : Char := Char.ofNat 34

/-- `TrimQuotes`: drop one leading double quote if there is one, then one
trailing double quote if there is one.  Both index expressions are guarded by
`len(s) > 0`. -/
def TrimQuotes (s : String) : String :=
  let s1 : String :=
    if s.data.length > 0 ∧ s.data.head? = some quote then String.mk s.data.tail else s
  if s1.data.length > 0 ∧ s1.data.getLast? = some quote then String.mk s1.data.dropLast
  else s1

/-- `UnmarshalString`: the body read to its end, without enclosing quotes; a
read error is returned as it is. -/
def UnmarshalString (body : Except Err String) : Except Err String :=
  match body with
  | .error e => .error e
  | .ok data => .ok (TrimQuotes data)

/-- `unicode.IsSpace`: the characters with the Unicode White_Space property,
by code point. -/
def isSpace (c : Char) : Bool :=
  let n := c.toNat
  n = 9 || n = 10 || n = 11 || n = 12 || n = 13 || n = 32 || n = 133 || n = 160 ||
  n = 5760 || (8192 ≤ n && n ≤ 8202) || n = 8232 || n = 8233 || n = 8239 ||
  n = 8287 || n = 12288

/-- The characters of `strings.TrimSpace`: leading and trailing white space
removed. -/
def trimSpaceChars (l : List Char) : List Char :=
  ((l.dropWhile isSpace).reverse.dropWhile isSpace).reverse

/-- `strings.TrimSpace`. -/
def TrimSpace (s : String) : String := String.mk (trimSpaceChars s.data)

/-- The loop of `strings.Split` for a non-empty separator, one character at a
time: `skip` counts the characters of a separator just found that are still
to be passed over, `piece` is the piece collected since the last separator.
An occurrence of the separator is taken at the first position where it
starts, and the search goes on behind it. -/
def splitChars (sep : List Char) : List Char → Nat → List Char → List (List Char)
  | [], _, piece => [piece]
  | _ :: cs, skip + 1, piece => splitChars sep cs skip piece
  | c :: cs, 0, piece =>
    if sep.isPrefixOf (c :: cs) then piece :: splitChars sep cs (sep.length - 1) []
    else splitChars sep cs 0 (piece ++ [c])

/-- `strings.Split`: the pieces of `s` between the occurrences of `sep`; with
an empty separator, the characters of `s` one by one. -/
def Split (s sep : String) : List String :=
  if sep.data = [] then s.data.map (fun c => String.mk [c])
  else (splitChars sep.data s.data 0 []).map String.mk

/-- `SplitString`: the loop over the pieces of `strings.Split`, appending each
piece that is not empty after `strings.TrimSpace`. -/
def SplitString (input sep : String) : List String :=
  (Split input sep).foldl
    (fun list s => let t := TrimSpace s; if t ≠ "" then list ++ [t] else list) []

/-- The result of `SplitString` in the words of its description: the pieces
of the input, each trimmed, the empty ones removed, in their order. -/
def trimmedPieces (input sep : String) : List String :=
  ((Split input sep).map TrimSpace).filter (fun t => t ≠ "")

/-- A text that holds only white space and occurrences of the separator. -/
inductive OnlySpaceAndSep (sep : List Char) : List Char → Prop
  | done : OnlySpaceAndSep sep []
  | space (c : Char) (rest : List Char) :
      isSpace c = true → OnlySpaceAndSep sep rest → OnlySpaceAndSep sep (c :: rest)
  | sep (rest : List Char) : OnlySpaceAndSep sep rest → OnlySpaceAndSep sep (sep ++ rest)

/-- The example node with the single-mill schema `/blob`, stopped. -/
def stoppedNode : Mobile :=
  { mobileWith (schemaOf "/blob" [] []) with started := false }

/-- A directory as `buildDirectory` leaves it under a single-mill schema: one
file under the single-file tag of the example environment. -/
def singleDir (hash : String) : Directory :=
  { Files := [(":single", { Mill := "/blob", Checksum := "sum", Hash := hash,
                            Media := "image/png", Name := "cat.png", Meta := none })] }

/-! ## Frame lemmas -/

theorem callsSince_of_trace {t t' : Thread} {cs : List Call}
    (h : t'.trace = t.trace ++ cs) : callsSince t t' = cs := by
  simp [callsSince, h]

theorem callsSince_self (t : Thread) : callsSince t t = [] := by
  simp [callsSince]

theorem processLinks_frame (env : Env) (schema : Schema) (links : List Link) :
    ∀ (t t1 : Thread) (r : Option Err), processLinks env schema t links = (r, t1) →
      ∃ cs, t1 = { t with trace := t.trace ++ cs } ∧ ∀ c ∈ cs, c.isLinkCall = true := by
  induction links with
  | nil =>
    intro t t1 r h
    simp only [processLinks, Prod.mk.injEq] at h
    exact ⟨[], by simp [← h.2], by simp⟩
  | cons link rest ih =>
    intro t t1 r h
    simp only [processLinks] at h
    split at h
    · simp only [Prod.mk.injEq] at h
      exact ⟨[Call.linkNode link], by simp [← h.2, Thread.log], by simp [Call.isLinkCall]⟩
    · rename_i nd _
      split at h
      · simp only [Prod.mk.injEq] at h
        exact ⟨[Call.linkNode link, Call.process schema nd], by simp [← h.2, Thread.log],
          by simp [Call.isLinkCall]⟩
      · obtain ⟨cs, hcs, hall⟩ := ih _ _ _ h
        refine ⟨Call.linkNode link :: Call.process schema nd :: cs, ?_, ?_⟩
        · simp [hcs, Thread.log]
        · intro c hc
          simp only [List.mem_cons] at hc
          rcases hc with rfl | rfl | hc
          · rfl
          · rfl
          · exact hall c hc

theorem processLinks_error_source (env : Env) (schema : Schema) (links : List Link) :
    ∀ (t t1 : Thread) (e : Err), processLinks env schema t links = (some e, t1) →
      ∃ link ∈ links, ∃ s, linkError env schema s link = some e := by
  induction links with
  | nil =>
    intro t t1 e h
    simp [processLinks] at h
  | cons link rest ih =>
    intro t t1 e h
    simp only [processLinks] at h
    split at h
    · rename_i e1 hl
      simp only [Prod.mk.injEq, Option.some.injEq] at h
      exact ⟨link, by simp, t, by simp [linkError, hl, h.1]⟩
    · rename_i nd hl
      split at h
      · rename_i e1 hp
        simp only [Prod.mk.injEq, Option.some.injEq] at h
        exact ⟨link, by simp, t, by simp [linkError, hl, hp, h.1]⟩
      · obtain ⟨l, hl1, s, hs⟩ := ih _ _ _ h
        exact ⟨l, by simp [hl1], s, hs⟩

theorem processLinks_fails (env : Env) (schema : Schema) (links : List Link)
    (hbad : ∃ link ∈ links, ∀ s, linkError env schema s link ≠ none) :
    ∀ (t : Thread), (processLinks env schema t links).1 ≠ none := by
  induction links with
  | nil => simp at hbad
  | cons link rest ih =>
    intro t
    simp only [processLinks]
    split
    · simp
    · rename_i nd hl
      split
      · simp
      · rename_i hp
        obtain ⟨l, hl1, hl2⟩ := hbad
        simp only [List.mem_cons] at hl1
        rcases hl1 with rfl | hl1
        · exact absurd (by simp [linkError, hl, hp]) (hl2 t)
        · exact ih ⟨l, hl1, hl2⟩ _

theorem saveKeys_frame (env : Env) (keys : List (String × String)) :
    ∀ (t t1 : Thread) (r : Option Err), saveKeys env t keys = (r, t1) →
      ∃ stored tried : List (String × String),
        t1 = { t with fileKeys := t.fileKeys ++ keyRows stored,
                      trace := t.trace ++ keyCalls tried } ∧
        tried <+: keys ∧
        (r = none → stored = keys ∧ tried = keys) ∧
        (r ≠ none → ∃ p, tried = stored ++ [p]) := by
  induction keys with
  | nil =>
    intro t t1 r h
    simp only [saveKeys, Prod.mk.injEq] at h
    exact ⟨[], [], by simp [← h.2, keyRows, keyCalls], by simp, by simp, by simp [← h.1]⟩
  | cons p rest ih =>
    intro t t1 r h
    obtain ⟨hash, key⟩ := p
    simp only [saveKeys, keyAdd] at h
    cases hk : env.keyAdd t { Hash := hash, Key := key } with
    | some e =>
      simp only [hk, Prod.mk.injEq] at h
      refine ⟨[], [(hash, key)], ?_, ?_, ?_, ?_⟩
      · simp [← h.2, keyRows, keyCalls, Thread.log]
      · simp
      · simp [← h.1]
      · intro _
        exact ⟨(hash, key), by simp⟩
    | none =>
      simp only [hk] at h
      obtain ⟨stored, tried, ht1, hpre, hnone, hsome⟩ := ih _ _ _ h
      refine ⟨(hash, key) :: stored, (hash, key) :: tried, ?_, ?_, ?_, ?_⟩
      · simp [ht1, keyRows, keyCalls]
      · simpa using hpre
      · intro hr
        obtain ⟨h1, h2⟩ := hnone hr
        simp [h1, h2]
      · intro hr
        obtain ⟨q, hq⟩ := hsome hr
        exact ⟨q, by simp [hq]⟩

theorem outboxAdd_snd (env : Env) (t : Thread) (target : String) (rtype : CafeRequestType) :
    (outboxAdd env t target rtype).2 =
      { t with
        outbox := t.outbox ++
          (if (env.outboxAdd t target rtype).isSome then []
           else [{ Target := target, Typ := rtype }]),
        trace := t.trace ++ [Call.outboxAdd target rtype] } := by
  unfold outboxAdd
  cases env.outboxAdd t target rtype <;> simp [Thread.log]

theorem indexBlock_none {env : Env} {t t1 : Thread} {commit : CommitResult}
    {blockType : BlockType} {target body : String}
    (h : indexBlock env t commit blockType target body = (none, t1)) :
    ∃ date, env.indexBlock t commit blockType target body = .ok date ∧
      t1 = { t with
        blocks := t.blocks ++ [{ Id := commit.hash.B58String, Typ := blockType, Date := date,
                                 Target := target, Body := body }],
        trace := t.trace ++ [Call.indexBlock commit blockType target body] } := by
  unfold indexBlock at h
  split at h
  · simp at h
  · rename_i date hd
    simp only [Prod.mk.injEq, true_and] at h
    exact ⟨date, hd, h.symm⟩

theorem indexBlock_some {env : Env} {t t1 : Thread} {commit : CommitResult}
    {blockType : BlockType} {target body : String} {e : Err}
    (h : indexBlock env t commit blockType target body = (some e, t1)) :
    env.indexBlock t commit blockType target body = .error e ∧
      t1 = t.log (Call.indexBlock commit blockType target body) := by
  unfold indexBlock at h
  split at h
  · rename_i e1 hd
    simp only [Prod.mk.injEq, Option.some.injEq] at h
    exact ⟨by rw [hd, h.1], h.2.symm⟩
  · simp at h

theorem updateHead_none {env : Env} {t t1 : Thread} {head : Multihash}
    (h : updateHead env t head = (none, t1)) :
    env.updateHead t head = none ∧
      t1 = { t with head := head, trace := t.trace ++ [Call.updateHead head] } := by
  unfold updateHead at h
  split at h
  · simp at h
  · rename_i hd
    simp only [Prod.mk.injEq, true_and] at h
    exact ⟨hd, h.symm⟩

theorem updateHead_some {env : Env} {t t1 : Thread} {head : Multihash} {e : Err}
    (h : updateHead env t head = (some e, t1)) :
    env.updateHead t head = some e ∧ t1 = t.log (Call.updateHead head) := by
  unfold updateHead at h
  split at h
  · rename_i e1 hd
    simp only [Prod.mk.injEq, Option.some.injEq] at h
    exact ⟨by rw [hd, h.1], h.2.symm⟩
  · simp at h

/-! ## Case analysis of a run of `AddFiles` -/

/-- From the commit onwards, `AddFiles` ends in one of five ways: the commit
fails, the indexing fails, the head update fails, the post fails, or all
succeed.  `t3` is the state in which the commit is attempted. -/
theorem AddFiles_commit_cases {env : Env} {t3 t' : Thread} {msg : ThreadFiles}
    {r : Except Err Multihash}
    (hr : (match commitBlock env t3 msg ThreadBlockType.FILES with
        | (.error e, t4) => (.error e, t4)
        | (.ok res, t4) =>
          match indexBlock env t4 res BlockType.FilesBlock msg.Target msg.Body with
          | (some e, t5) => (.error e, t5)
          | (none, t5) =>
            match updateHead env t5 res.hash with
            | (some e, t6) => (.error e, t6)
            | (none, t6) =>
              match post env t6 res t6.peers with
              | (some e, t7) => (.error e, t7)
              | (none, t7) => (.ok res.hash, t7)) = (r, t')) :
    (∃ e, r = .error e ∧ env.commitBlock t3 msg ThreadBlockType.FILES = .error e ∧
      t' = t3.log (Call.commitBlock msg ThreadBlockType.FILES)) ∨
    (∃ res, env.commitBlock t3 msg ThreadBlockType.FILES = .ok res ∧
      ((∃ e, r = .error e ∧
          env.indexBlock (t3.log (Call.commitBlock msg ThreadBlockType.FILES)) res
            BlockType.FilesBlock msg.Target msg.Body = .error e ∧
          t' = { t3 with trace := t3.trace ++ [Call.commitBlock msg ThreadBlockType.FILES,
                    Call.indexBlock res BlockType.FilesBlock msg.Target msg.Body] }) ∨
       (∃ date t5,
          env.indexBlock (t3.log (Call.commitBlock msg ThreadBlockType.FILES)) res
            BlockType.FilesBlock msg.Target msg.Body = .ok date ∧
          t5 = { t3 with
            blocks := t3.blocks ++ [{ Id := res.hash.B58String, Typ := BlockType.FilesBlock,
                                      Date := date, Target := msg.Target, Body := msg.Body }],
            trace := t3.trace ++ [Call.commitBlock msg ThreadBlockType.FILES,
                      Call.indexBlock res BlockType.FilesBlock msg.Target msg.Body] } ∧
          ((∃ e, r = .error e ∧ env.updateHead t5 res.hash = some e ∧
              t' = t5.log (Call.updateHead res.hash)) ∨
           (env.updateHead t5 res.hash = none ∧
            ∃ t6, t6 = { t5 with head := res.hash,
                                 trace := t5.trace ++ [Call.updateHead res.hash] } ∧
              t' = t6.log (Call.post res t6.peers) ∧
              ((∃ e, r = .error e ∧ env.post t6 res t6.peers = some e) ∨
               (r = .ok res.hash ∧ env.post t6 res t6.peers = none))))))) := by
  simp only [commitBlock] at hr
  cases hc : env.commitBlock t3 msg ThreadBlockType.FILES with
  | error e =>
    simp only [hc, Prod.mk.injEq] at hr
    exact Or.inl ⟨e, hr.1.symm, rfl, hr.2.symm⟩
  | ok res =>
    simp only [hc] at hr
    refine Or.inr ⟨res, rfl, ?_⟩
    split at hr
    · rename_i e t5 hi
      obtain ⟨hi1, hi2⟩ := indexBlock_some hi
      simp only [Prod.mk.injEq] at hr
      exact Or.inl ⟨e, hr.1.symm, hi1, by simp [← hr.2, hi2, Thread.log]⟩
    · rename_i t5 hi
      obtain ⟨date, hi1, hi2⟩ := indexBlock_none hi
      refine Or.inr ⟨date, t5, hi1, by simp [hi2, Thread.log], ?_⟩
      split at hr
      · rename_i e t6 hu
        obtain ⟨hu1, hu2⟩ := updateHead_some hu
        simp only [Prod.mk.injEq] at hr
        exact Or.inl ⟨e, hr.1.symm, hu1, by rw [← hr.2, hu2]⟩
      · rename_i t6 hu
        obtain ⟨hu1, hu2⟩ := updateHead_none hu
        refine Or.inr ⟨hu1, t6, hu2, ?_⟩
        simp only [post] at hr
        cases hp : env.post t6 res t6.peers with
        | some e =>
          simp only [hp, Prod.mk.injEq] at hr
          exact ⟨hr.2.symm, Or.inl ⟨e, hr.1.symm, rfl⟩⟩
        | none =>
          simp only [hp, Prod.mk.injEq] at hr
          exact ⟨hr.2.symm, Or.inr ⟨hr.1.symm, rfl⟩⟩

/-- A run of `AddFiles` on a thread with a schema ends in the link loop, in
the key loop, or reaches the commit with all keys stored. -/
theorem AddFiles_cases {env : Env} {t t' : Thread} {node : IpldNode} {caption : String}
    {keys : List (String × String)} {schema : Schema} {r : Except Err Multihash}
    (hs : t.schema = some schema) (hr : AddFiles env t node caption keys = (r, t')) :
    ∃ cs, (∀ c ∈ cs, Call.isLinkCall c = true) ∧
      ((∃ e, r = .error e ∧ processLinks env schema t node.Links = (some e, t') ∧
          t' = { t with trace := t.trace ++ cs }) ∨
       (processLinks env schema t node.Links = (none, { t with trace := t.trace ++ cs }) ∧
        ∃ stored tried t3,
          t3 = { t with
            outbox := t.outbox ++
              (if (env.outboxAdd { t with trace := t.trace ++ cs } node.Cid.Hash.B58String
                    CafeRequestType.CafeStoreRequest).isSome then []
               else [{ Target := node.Cid.Hash.B58String,
                       Typ := CafeRequestType.CafeStoreRequest }]),
            fileKeys := t.fileKeys ++ keyRows stored,
            trace := t.trace ++ cs ++
              Call.outboxAdd node.Cid.Hash.B58String CafeRequestType.CafeStoreRequest ::
                keyCalls tried } ∧
          tried <+: keys ∧
          ((∃ e p, r = .error e ∧ tried = stored ++ [p] ∧ t' = t3) ∨
           (stored = keys ∧ tried = keys ∧
            ((∃ e, r = .error e ∧
                env.commitBlock t3 (filesMsg node caption keys) ThreadBlockType.FILES = .error e ∧
                t' = t3.log (Call.commitBlock (filesMsg node caption keys) ThreadBlockType.FILES)) ∨
             (∃ res,
                env.commitBlock t3 (filesMsg node caption keys) ThreadBlockType.FILES = .ok res ∧
                ((∃ e, r = .error e ∧
                    t' = { t3 with trace := t3.trace ++
                      [Call.commitBlock (filesMsg node caption keys) ThreadBlockType.FILES,
                       Call.indexBlock res BlockType.FilesBlock node.Cid.Hash.B58String
                          caption] }) ∨
                 (∃ date t5,
                    t5 = { t3 with
                      blocks := t3.blocks ++ [filesRow res.hash date node.Cid.Hash.B58String caption],
                      trace := t3.trace ++
                        [Call.commitBlock (filesMsg node caption keys) ThreadBlockType.FILES,
                         Call.indexBlock res BlockType.FilesBlock node.Cid.Hash.B58String
                            caption] } ∧
                    ((∃ e, r = .error e ∧ env.updateHead t5 res.hash = some e ∧
                        t' = t5.log (Call.updateHead res.hash)) ∨
                     (env.updateHead t5 res.hash = none ∧
                      ∃ t6, t6 = { t5 with head := res.hash,
                                           trace := t5.trace ++ [Call.updateHead res.hash] } ∧
                        t' = t6.log (Call.post res t6.peers) ∧
                        ((∃ e, r = .error e ∧ env.post t6 res t6.peers = some e) ∨
                         (r = .ok res.hash ∧ env.post t6 res t6.peers = none)))))))))))) := by
  unfold AddFiles at hr
  simp only [hs] at hr
  split at hr
  · rename_i e t1 hpl
    obtain ⟨cs, hcs, hall⟩ := processLinks_frame env schema _ _ _ _ hpl
    simp only [Prod.mk.injEq] at hr
    refine ⟨cs, hall, Or.inl ⟨e, hr.1.symm, ?_, ?_⟩⟩
    · rw [← hr.2]; exact hpl
    · rw [← hr.2]; exact hcs
  · rename_i t1 hpl
    obtain ⟨cs, hcs, hall⟩ := processLinks_frame env schema _ _ _ _ hpl
    refine ⟨cs, hall, Or.inr ⟨by rw [← hcs]; exact hpl, ?_⟩⟩
    split at hr
    · rename_i e t3 hsk
      obtain ⟨stored, tried, ht3, hpre, _, hsome⟩ := saveKeys_frame env _ _ _ _ hsk
      obtain ⟨p, hp⟩ := hsome (by simp)
      simp only [Prod.mk.injEq] at hr
      refine ⟨stored, tried, t3, ?_, hpre, Or.inl ⟨e, p, hr.1.symm, hp, hr.2.symm⟩⟩
      rw [ht3, outboxAdd_snd, hcs]
      simp
    · rename_i t3 hsk
      obtain ⟨stored, tried, ht3, hpre, hnone, _⟩ := saveKeys_frame env _ _ _ _ hsk
      obtain ⟨h1, h2⟩ := hnone rfl
      refine ⟨stored, tried, t3, ?_, hpre, Or.inr ⟨h1, h2, ?_⟩⟩
      · rw [ht3, outboxAdd_snd, hcs]
        simp
      · rcases AddFiles_commit_cases hr with ⟨e, h1, h2, h3⟩ | ⟨res, h1, h2⟩
        · exact Or.inl ⟨e, h1, h2, h3⟩
        · refine Or.inr ⟨res, h1, ?_⟩
          rcases h2 with ⟨e, h3, _, h5⟩ | ⟨date, t5, _, h4, h5⟩
          · exact Or.inl ⟨e, h3, h5⟩
          · exact Or.inr ⟨date, t5, h4, h5⟩

/-! ## Case analysis of a run of `handleFilesBlock` -/

/-- The side-effect block of `handleFilesBlock` ends at the node lookup, in
the link loop, or in the key loop (possibly after all keys). -/
theorem applyFilesBlock_cases {env : Env} {schema : Schema} {t t1 : Thread}
    {hash : Multihash} {msg : ThreadFiles} {r : Option Err}
    (h : applyFilesBlock env schema t hash msg = (r, t1)) :
    (∃ e, env.cidParse hash = .error e ∧ r = some e ∧ t1 = t.log (Call.cidParse hash)) ∨
    (∃ id, env.cidParse hash = .ok id ∧
      ((∃ e, env.cidNode (t.log (Call.cidParse hash)) id = .error e ∧ r = some e ∧
          t1 = { t with trace := t.trace ++ [Call.cidParse hash, Call.cidNode id] }) ∨
       (∃ node cs, env.cidNode (t.log (Call.cidParse hash)) id = .ok node ∧
          (∀ c ∈ cs, Call.isLinkCall c = true) ∧
          ((∃ e, r = some e ∧
              processLinks env schema
                { t with trace := t.trace ++ [Call.cidParse hash, Call.cidNode id] }
                node.Links = (some e, t1) ∧
              t1 = { t with
                trace := t.trace ++ Call.cidParse hash :: Call.cidNode id :: cs }) ∨
           (processLinks env schema
                { t with trace := t.trace ++ [Call.cidParse hash, Call.cidNode id] }
                node.Links =
              (none, { t with
                trace := t.trace ++ Call.cidParse hash :: Call.cidNode id :: cs }) ∧
            ∃ stored tried,
              t1 = { t with
                outbox := t.outbox ++
                  (if (env.outboxAdd
                        { t with
                          trace := t.trace ++ Call.cidParse hash :: Call.cidNode id :: cs }
                        hash.B58String CafeRequestType.CafeStoreRequest).isSome then []
                   else [{ Target := hash.B58String,
                           Typ := CafeRequestType.CafeStoreRequest }]),
                fileKeys := t.fileKeys ++ keyRows stored,
                trace := t.trace ++ Call.cidParse hash :: Call.cidNode id :: cs ++
                  Call.outboxAdd hash.B58String CafeRequestType.CafeStoreRequest ::
                    keyCalls tried } ∧
              tried <+: msg.Keys ∧
              (r = none → stored = msg.Keys ∧ tried = msg.Keys) ∧
              (r ≠ none → ∃ p, tried = stored ++ [p])))))) := by
  unfold applyFilesBlock at h
  cases hp : env.cidParse hash with
  | error e =>
    simp only [hp, Prod.mk.injEq] at h
    exact Or.inl ⟨e, rfl, h.1.symm, h.2.symm⟩
  | ok id =>
    simp only [hp] at h
    refine Or.inr ⟨id, rfl, ?_⟩
    cases hn : env.cidNode (t.log (Call.cidParse hash)) id with
    | error e =>
      simp only [hn, Prod.mk.injEq] at h
      exact Or.inl ⟨e, rfl, h.1.symm, by simp [← h.2, Thread.log]⟩
    | ok node =>
      simp only [hn] at h
      have hlog : (t.log (Call.cidParse hash)).log (Call.cidNode id) =
          { t with trace := t.trace ++ [Call.cidParse hash, Call.cidNode id] } := by
        simp [Thread.log]
      rw [hlog] at h
      split at h
      · rename_i e t2 hpl
        obtain ⟨cs, hcs, hall⟩ := processLinks_frame env schema _ _ _ _ hpl
        simp only [Prod.mk.injEq] at h
        refine Or.inr ⟨node, cs, rfl, hall, Or.inl ⟨e, h.1.symm, ?_, ?_⟩⟩
        · rw [← h.2]; exact hpl
        · rw [← h.2, hcs]; simp
      · rename_i t2 hpl
        obtain ⟨cs, hcs, hall⟩ := processLinks_frame env schema _ _ _ _ hpl
        have hcs2 : t2 = { t with
            trace := t.trace ++ Call.cidParse hash :: Call.cidNode id :: cs } := by
          rw [hcs]; simp
        refine Or.inr ⟨node, cs, rfl, hall, Or.inr ⟨by rw [← hcs2]; exact hpl, ?_⟩⟩
        obtain ⟨stored, tried, ht1, hpre, hnone, hsome⟩ := saveKeys_frame env _ _ _ _ h
        refine ⟨stored, tried, ?_, hpre, hnone, hsome⟩
        rw [ht1, outboxAdd_snd, hcs2]
        simp

/-- A run of `handleFilesBlock` on a decodable block and a thread with a schema
ends at the date conversion, in the side-effect block, or at the indexing. -/
theorem handleFilesBlock_cases {env : Env} {t t' : Thread} {hash : Multihash}
    {block : ThreadBlock} {msg : ThreadFiles} {schema : Schema}
    {r : Except Err ThreadFiles}
    (hm : env.unmarshalAny block.Payload = .ok msg) (hs : t.schema = some schema)
    (hr : handleFilesBlock env t hash block = (r, t')) :
    (∃ e, checkIgnored env t hash block = .error e ∧ r = .error e ∧ t' = t) ∨
    (∃ e, checkIgnored env t hash block = .ok false ∧
      applyFilesBlock env schema t hash msg = (some e, t') ∧ r = .error e) ∨
    (∃ ignore t1, checkIgnored env t hash block = .ok ignore ∧
      ((ignore = true ∧ t1 = t) ∨
       (ignore = false ∧ applyFilesBlock env schema t hash msg = (none, t1))) ∧
      ((∃ e, r = .error e ∧
          env.indexBlock t1 { hash := hash, header := block.Header } BlockType.FilesBlock
            msg.Target msg.Body = .error e ∧
          t' = t1.log (Call.indexBlock { hash := hash, header := block.Header }
            BlockType.FilesBlock msg.Target msg.Body)) ∨
       (∃ date, r = .ok msg ∧
          env.indexBlock t1 { hash := hash, header := block.Header } BlockType.FilesBlock
            msg.Target msg.Body = .ok date ∧
          t' = { t1 with
            blocks := t1.blocks ++ [filesRow hash date msg.Target msg.Body],
            trace := t1.trace ++ [Call.indexBlock { hash := hash, header := block.Header }
              BlockType.FilesBlock msg.Target msg.Body] }))) := by
  unfold handleFilesBlock at hr
  simp only [hm, hs] at hr
  cases hc : checkIgnored env t hash block with
  | error e =>
    simp only [hc, Prod.mk.injEq] at hr
    exact Or.inl ⟨e, rfl, hr.1.symm, hr.2.symm⟩
  | ok ignore =>
    simp only [hc] at hr
    refine Or.inr ?_
    split at hr
    · rename_i e t1 ha
      simp only [Prod.mk.injEq] at hr
      cases ignore with
      | true => simp at ha
      | false =>
        simp only [Bool.false_eq_true, if_false] at ha
        exact Or.inl ⟨e, rfl, by rw [← hr.2]; exact ha, hr.1.symm⟩
    · rename_i t1 ha
      refine Or.inr ⟨ignore, t1, rfl, ?_, ?_⟩
      · cases ignore with
        | true =>
          simp only [if_true, Prod.mk.injEq, true_and] at ha
          exact Or.inl ⟨rfl, ha.symm⟩
        | false =>
          simp only [Bool.false_eq_true, if_false] at ha
          exact Or.inr ⟨rfl, ha⟩
      · split at hr
        · rename_i e t2 hi
          obtain ⟨hi1, hi2⟩ := indexBlock_some hi
          simp only [Prod.mk.injEq] at hr
          exact Or.inl ⟨e, hr.1.symm, hi1, by rw [← hr.2, hi2]⟩
        · rename_i t2 hi
          obtain ⟨date, hi1, hi2⟩ := indexBlock_none hi
          simp only [Prod.mk.injEq] at hr
          exact Or.inr ⟨date, hr.1.symm, hi1, by rw [← hr.2, hi2]; rfl⟩

/-! ## Summary of a run of `AddFiles` -/

/-- The seven ways a run of `AddFiles` on a thread with a schema can end, each
with the calls made and the resulting stores. -/
theorem AddFiles_summary {env : Env} {t t' : Thread} {node : IpldNode} {caption : String}
    {keys : List (String × String)} {schema : Schema} {r : Except Err Multihash}
    (hs : t.schema = some schema) (hr : AddFiles env t node caption keys = (r, t')) :
    ∃ cs, (∀ c ∈ cs, Call.isLinkCall c = true) ∧ t'.peers = t.peers ∧
      ((∃ e, r = .error e ∧ processLinks env schema t node.Links = (some e, t') ∧
          callsSince t t' = cs ∧ t'.head = t.head ∧ t'.blocks = t.blocks ∧
          t'.fileKeys = t.fileKeys ∧ t'.outbox = t.outbox) ∨
       (processLinks env schema t node.Links = (none, { t with trace := t.trace ++ cs }) ∧
        (t'.outbox = t.outbox ∨
          (env.outboxAdd { t with trace := t.trace ++ cs } node.Cid.Hash.B58String
              CafeRequestType.CafeStoreRequest = none ∧
           t'.outbox = t.outbox ++ [{ Target := node.Cid.Hash.B58String,
                                      Typ := CafeRequestType.CafeStoreRequest }])) ∧
        (env.outboxAdd { t with trace := t.trace ++ cs } node.Cid.Hash.B58String
              CafeRequestType.CafeStoreRequest ≠ none → t'.outbox = t.outbox) ∧
        ((∃ e stored p, r = .error e ∧ (stored ++ [p]) <+: keys ∧
            callsSince t t' = addFilesPrefix cs node.Cid.Hash.B58String (stored ++ [p]) ∧
            t'.head = t.head ∧ t'.blocks = t.blocks ∧
            t'.fileKeys = t.fileKeys ++ keyRows stored) ∨
         (t'.fileKeys = t.fileKeys ++ keyRows keys ∧
          ((∃ e, r = .error e ∧
              callsSince t t' = addFilesPrefix cs node.Cid.Hash.B58String keys ++
                [Call.commitBlock (filesMsg node caption keys) ThreadBlockType.FILES] ∧
              t'.head = t.head ∧ t'.blocks = t.blocks) ∨
           (∃ res, (∃ s, env.commitBlock s (filesMsg node caption keys)
                      ThreadBlockType.FILES = .ok res) ∧
              ((∃ e, r = .error e ∧
                  callsSince t t' = addFilesPrefix cs node.Cid.Hash.B58String keys ++
                    [Call.commitBlock (filesMsg node caption keys) ThreadBlockType.FILES,
                     Call.indexBlock res BlockType.FilesBlock node.Cid.Hash.B58String
                       caption] ∧
                  t'.head = t.head ∧ t'.blocks = t.blocks) ∨
               (∃ date,
                  t'.blocks = t.blocks ++
                    [filesRow res.hash date node.Cid.Hash.B58String caption] ∧
                  ((∃ e, r = .error e ∧
                      callsSince t t' = addFilesPrefix cs node.Cid.Hash.B58String keys ++
                        [Call.commitBlock (filesMsg node caption keys) ThreadBlockType.FILES,
                         Call.indexBlock res BlockType.FilesBlock node.Cid.Hash.B58String
                           caption,
                         Call.updateHead res.hash] ∧
                      t'.head = t.head) ∨
                   (callsSince t t' = addFilesPrefix cs node.Cid.Hash.B58String keys ++
                        [Call.commitBlock (filesMsg node caption keys) ThreadBlockType.FILES,
                         Call.indexBlock res BlockType.FilesBlock node.Cid.Hash.B58String
                           caption,
                         Call.updateHead res.hash,
                         Call.post res t.peers] ∧
                    t'.head = res.hash ∧
                    ((∃ e, r = .error e ∧
                        env.post t'.beforeLastCall res t.peers = some e) ∨
                     (r = .ok res.hash ∧
                        env.post t'.beforeLastCall res t.peers = none)))))))))))) := by
  obtain ⟨cs, hall, hcases⟩ := AddFiles_cases hs hr
  refine ⟨cs, hall, ?_⟩
  rcases hcases with ⟨e, h1, h2, h3⟩ | ⟨hpl, stored, tried, t3, ht3, hpre, hrest⟩
  · refine ⟨by rw [h3], Or.inl ⟨e, h1, h2, ?_⟩⟩
    rw [h3]
    simp [callsSince]
  · have hob : t3.outbox = t.outbox ∨
        (env.outboxAdd { t with trace := t.trace ++ cs } node.Cid.Hash.B58String
            CafeRequestType.CafeStoreRequest = none ∧
          t3.outbox = t.outbox ++ [{ Target := node.Cid.Hash.B58String,
                                     Typ := CafeRequestType.CafeStoreRequest }]) := by
      rw [ht3]
      cases env.outboxAdd { t with trace := t.trace ++ cs } node.Cid.Hash.B58String
          CafeRequestType.CafeStoreRequest <;> simp
    have hob2 : env.outboxAdd { t with trace := t.trace ++ cs } node.Cid.Hash.B58String
          CafeRequestType.CafeStoreRequest ≠ none → t3.outbox = t.outbox := by
      rw [ht3]
      cases env.outboxAdd { t with trace := t.trace ++ cs } node.Cid.Hash.B58String
          CafeRequestType.CafeStoreRequest <;> simp
    rcases hrest with ⟨e, p, h1, h2, h3⟩ | ⟨hst, htr, hrest⟩
    · subst h3
      refine ⟨by rw [ht3], Or.inr ⟨hpl, hob, hob2, Or.inl ⟨e, stored, p, h1, ?_, ?_⟩⟩⟩
      · rw [← h2]; exact hpre
      · rw [ht3, h2]
        simp [callsSince, addFilesPrefix]
    · subst hst htr
      rcases hrest with ⟨e, h1, _, h3⟩ | ⟨res, hc, hrest⟩
      · subst h3
        refine ⟨by rw [ht3]; rfl, Or.inr ⟨hpl, ?_, ?_, Or.inr ⟨?_, Or.inl ⟨e, h1, ?_⟩⟩⟩⟩
        · simpa [Thread.log] using hob
        · simpa [Thread.log] using hob2
        · rw [ht3]; rfl
        · rw [ht3]
          simp [callsSince, addFilesPrefix, Thread.log]
      · rcases hrest with ⟨e, h1, h3⟩ | ⟨date, t5, ht5, hrest⟩
        · subst h3
          refine ⟨by rw [ht3], Or.inr ⟨hpl, hob, hob2, Or.inr ⟨by rw [ht3], Or.inr
            ⟨res, ⟨_, hc⟩, Or.inl ⟨e, h1, ?_⟩⟩⟩⟩⟩
          rw [ht3]
          simp [callsSince, addFilesPrefix]
        · have hb5 : t5.blocks = t.blocks ++
              [filesRow res.hash date node.Cid.Hash.B58String caption] := by
            rw [ht5, ht3]
          have hk5 : t5.fileKeys = t.fileKeys ++ keyRows tried := by rw [ht5, ht3]
          have ho5 : t5.outbox = t3.outbox := by rw [ht5]
          have hp5 : t5.peers = t.peers := by rw [ht5, ht3]
          have hh5 : t5.head = t.head := by rw [ht5, ht3]
          have htr5 : t5.trace = t.trace ++ (addFilesPrefix cs node.Cid.Hash.B58String tried ++
              [Call.commitBlock (filesMsg node caption tried) ThreadBlockType.FILES,
               Call.indexBlock res BlockType.FilesBlock node.Cid.Hash.B58String caption]) := by
            rw [ht5, ht3]
            simp [addFilesPrefix]
          rcases hrest with ⟨e, h1, _, h3⟩ | ⟨_, t6, ht6, h3, hpost⟩
          · subst h3
            refine ⟨by simpa [Thread.log] using hp5, Or.inr ⟨hpl, ?_, ?_, Or.inr ⟨?_, Or.inr
              ⟨res, ⟨_, hc⟩, Or.inr ⟨date, ?_, Or.inl ⟨e, h1, ?_, ?_⟩⟩⟩⟩⟩⟩
            · simpa [Thread.log, ho5] using hob
            · simpa [Thread.log, ho5] using hob2
            · simpa [Thread.log] using hk5
            · simpa [Thread.log] using hb5
            · simp [callsSince, Thread.log, htr5]
            · simpa [Thread.log] using hh5
          · have hp6 : t6.peers = t.peers := by rw [ht6]; exact hp5
            have hbl : t'.beforeLastCall = t6 := by
              rw [h3]
              simp [Thread.beforeLastCall, Thread.log]
            subst h3
            refine ⟨by simpa [Thread.log] using hp6, Or.inr ⟨hpl, ?_, ?_, Or.inr ⟨?_, Or.inr
              ⟨res, ⟨_, hc⟩, Or.inr ⟨date, ?_, Or.inr ⟨?_, ?_, ?_⟩⟩⟩⟩⟩⟩
            · rw [ht6]; simpa [Thread.log, ho5] using hob
            · rw [ht6]; simpa [Thread.log, ho5] using hob2
            · rw [ht6]; simpa [Thread.log] using hk5
            · rw [ht6]; simpa [Thread.log] using hb5
            · rw [ht6]
              simp [callsSince, Thread.log, htr5, hp5]
            · rw [ht6]; rfl
            · rw [hbl, ← hp6]
              exact hpost

theorem lastCall_of_calls {t t' : Thread} (pre : List Call) {c : Call}
    (h : callsSince t t' = pre ++ [c]) : lastCall t t' = some c := by
  simp [lastCall, h]

/-- How a run of `AddFiles` on a thread with a schema ends, told by the last
call it made, with the head and the index it leaves. -/
theorem AddFiles_last_call {env : Env} {t t' : Thread} {node : IpldNode} {caption : String}
    {keys : List (String × String)} {schema : Schema} {r : Except Err Multihash}
    (hs : t.schema = some schema) (hr : AddFiles env t node caption keys = (r, t')) :
    ((∀ c, lastCall t t' = some c → Call.isLinkCall c = true) ∧ (∃ e, r = .error e) ∧
      t'.head = t.head ∧ t'.blocks = t.blocks) ∨
    ((∃ k, lastCall t t' = some (Call.keyAdd k)) ∧ (∃ e, r = .error e) ∧
      t'.head = t.head ∧ t'.blocks = t.blocks) ∨
    (lastCall t t' = some (Call.commitBlock (filesMsg node caption keys)
        ThreadBlockType.FILES) ∧ (∃ e, r = .error e) ∧
      t'.head = t.head ∧ t'.blocks = t.blocks) ∨
    (∃ res, lastCall t t' = some (Call.indexBlock res BlockType.FilesBlock
        node.Cid.Hash.B58String caption) ∧ (∃ e, r = .error e) ∧
      t'.head = t.head ∧ t'.blocks = t.blocks) ∨
    (∃ (res : CommitResult) (date : Time),
      lastCall t t' = some (Call.updateHead res.hash) ∧ (∃ e, r = .error e) ∧
      t'.head = t.head ∧
      t'.blocks = t.blocks ++ [filesRow res.hash date node.Cid.Hash.B58String caption]) ∨
    (∃ res date, lastCall t t' = some (Call.post res t.peers) ∧
      t'.head = res.hash ∧
      t'.blocks = t.blocks ++ [filesRow res.hash date node.Cid.Hash.B58String caption] ∧
      ((∃ e, r = .error e ∧ env.post t'.beforeLastCall res t.peers = some e) ∨
       (r = .ok res.hash ∧ env.post t'.beforeLastCall res t.peers = none))) := by
  obtain ⟨cs, hall, _, hcases⟩ := AddFiles_summary hs hr
  rcases hcases with ⟨e, h1, _, h3, h4, h5, _⟩ | ⟨_, _, _, hrest⟩
  · refine Or.inl ⟨?_, ⟨e, h1⟩, h4, h5⟩
    intro c hc
    rw [lastCall, h3] at hc
    exact hall c (List.mem_of_getLast?_eq_some hc)
  · rcases hrest with ⟨e, stored, p, h1, _, h3, h4, h5, _⟩ | ⟨_, hrest⟩
    · refine Or.inr (Or.inl ⟨⟨{ Hash := p.1, Key := p.2 }, ?_⟩, ⟨e, h1⟩, h4, h5⟩)
      apply lastCall_of_calls (cs ++
        Call.outboxAdd node.Cid.Hash.B58String CafeRequestType.CafeStoreRequest ::
          keyCalls stored)
      rw [h3]
      simp [addFilesPrefix, keyCalls]
    · rcases hrest with ⟨e, h1, h3, h4, h5⟩ | ⟨res, _, hrest⟩
      · exact Or.inr (Or.inr (Or.inl ⟨lastCall_of_calls _ h3, ⟨e, h1⟩, h4, h5⟩))
      · rcases hrest with ⟨e, h1, h3, h4, h5⟩ | ⟨date, hb, hrest⟩
        · refine Or.inr (Or.inr (Or.inr (Or.inl ⟨res, ?_, ⟨e, h1⟩, h4, h5⟩)))
          apply lastCall_of_calls (addFilesPrefix cs node.Cid.Hash.B58String keys ++
            [Call.commitBlock (filesMsg node caption keys) ThreadBlockType.FILES])
          rw [h3]
          simp
        · rcases hrest with ⟨e, h1, h3, h4⟩ | ⟨h3, h4, h5⟩
          · refine Or.inr (Or.inr (Or.inr (Or.inr (Or.inl
              ⟨res, date, ?_, ⟨e, h1⟩, h4, hb⟩))))
            apply lastCall_of_calls (addFilesPrefix cs node.Cid.Hash.B58String keys ++
              [Call.commitBlock (filesMsg node caption keys) ThreadBlockType.FILES,
               Call.indexBlock res BlockType.FilesBlock node.Cid.Hash.B58String caption])
            rw [h3]
            simp
          · refine Or.inr (Or.inr (Or.inr (Or.inr (Or.inr ⟨res, date, ?_, h4, hb, h5⟩))))
            apply lastCall_of_calls (addFilesPrefix cs node.Cid.Hash.B58String keys ++
              [Call.commitBlock (filesMsg node caption keys) ThreadBlockType.FILES,
               Call.indexBlock res BlockType.FilesBlock node.Cid.Hash.B58String caption,
               Call.updateHead res.hash])
            rw [h3]
            simp

/-! ## Summary of a run of `handleFilesBlock` -/

theorem checkIgnored_true_iff (env : Env) (t : Thread) (hash : Multihash) (block : ThreadBlock) :
    checkIgnored env t hash block = .ok true ↔ tombstoneNewer env t hash block = true := by
  unfold checkIgnored tombstoneNewer
  cases hg : GetByTarget t ("ignore-" ++ hash.B58String) with
  | none => simp
  | some tomb =>
    cases hd : env.timestamp block.Header.Date with
    | error e => simp
    | ok d => simp

theorem checkIgnored_false_iff (env : Env) (t : Thread) (hash : Multihash)
    (block : ThreadBlock) :
    checkIgnored env t hash block = .ok false ↔
      tombstoneAbsentOrOlder env t hash block = true := by
  unfold checkIgnored tombstoneAbsentOrOlder
  cases hg : GetByTarget t ("ignore-" ++ hash.B58String) with
  | none => simp
  | some tomb =>
    cases hd : env.timestamp block.Header.Date with
    | error e => simp
    | ok d => simp

theorem checkIgnored_error_iff (env : Env) (t : Thread) (hash : Multihash)
    (block : ThreadBlock) (e : Err) :
    checkIgnored env t hash block = .error e ↔
      ∃ tomb, GetByTarget t ("ignore-" ++ hash.B58String) = some tomb ∧
        env.timestamp block.Header.Date = .error e := by
  unfold checkIgnored
  cases hg : GetByTarget t ("ignore-" ++ hash.B58String) with
  | none => simp
  | some tomb =>
    cases hd : env.timestamp block.Header.Date with
    | error e1 => simp
    | ok d => simp

/-- What the side-effect block leaves untouched, and the shape of its trace. -/
theorem applyFilesBlock_frame {env : Env} {schema : Schema} {t t1 : Thread}
    {hash : Multihash} {msg : ThreadFiles} {r : Option Err}
    (h : applyFilesBlock env schema t hash msg = (r, t1)) :
    ∃ cs, t1.trace = t.trace ++ Call.cidParse hash :: cs ∧
      (∀ c ∈ cs, Call.isBlockEffect c = true) ∧
      t1.schema = t.schema ∧ t1.head = t.head ∧ t1.peers = t.peers ∧ t1.blocks = t.blocks := by
  rcases applyFilesBlock_cases h with ⟨e, _, _, h3⟩ | ⟨id, _, hrest⟩
  · subst h3
    exact ⟨[], by simp [Thread.log], by simp, rfl, rfl, rfl, rfl⟩
  · rcases hrest with ⟨e, _, _, h3⟩ | ⟨node, cs, _, hall, hrest⟩
    · subst h3
      exact ⟨[Call.cidNode id], by simp, by simp [Call.isBlockEffect, Call.isNodeLookup],
        rfl, rfl, rfl, rfl⟩
    · have hall2 : ∀ c ∈ cs, Call.isBlockEffect c = true := by
        intro c hc
        simp [Call.isBlockEffect, hall c hc]
      rcases hrest with ⟨e, _, _, h3⟩ | ⟨_, stored, tried, h3, _, _, _⟩
      · subst h3
        refine ⟨Call.cidNode id :: cs, by simp, ?_, rfl, rfl, rfl, rfl⟩
        intro c hc
        simp only [List.mem_cons] at hc
        rcases hc with rfl | hc
        · simp [Call.isBlockEffect, Call.isNodeLookup]
        · exact hall2 c hc
      · subst h3
        refine ⟨Call.cidNode id :: cs ++
          Call.outboxAdd hash.B58String CafeRequestType.CafeStoreRequest :: keyCalls tried,
          by simp, ?_, rfl, rfl, rfl, rfl⟩
        intro c hc
        simp only [List.mem_append, List.mem_cons, keyCalls, List.mem_map] at hc
        rcases hc with (rfl | hc) | rfl | ⟨p, _, rfl⟩
        · simp [Call.isBlockEffect, Call.isNodeLookup]
        · exact hall2 c hc
        · simp [Call.isBlockEffect, Call.isOutboxAdd]
        · simp [Call.isBlockEffect, Call.isKeyAdd]

/-- The side-effect block ends without error only after the node lookup, the
link loop, the enqueue and the whole key loop. -/
theorem applyFilesBlock_none {env : Env} {schema : Schema} {t t1 : Thread}
    {hash : Multihash} {msg : ThreadFiles}
    (h : applyFilesBlock env schema t hash msg = (none, t1)) :
    ∃ id cs s, (∀ c ∈ cs, Call.isLinkCall c = true) ∧
      t1 = { t with
        outbox := t.outbox ++
          (if (env.outboxAdd s hash.B58String CafeRequestType.CafeStoreRequest).isSome then []
           else [{ Target := hash.B58String, Typ := CafeRequestType.CafeStoreRequest }]),
        fileKeys := t.fileKeys ++ keyRows msg.Keys,
        trace := t.trace ++ Call.cidParse hash :: Call.cidNode id :: cs ++
          Call.outboxAdd hash.B58String CafeRequestType.CafeStoreRequest ::
            keyCalls msg.Keys } := by
  rcases applyFilesBlock_cases h with ⟨e, _, h2, _⟩ | ⟨id, _, hrest⟩
  · simp at h2
  · rcases hrest with ⟨e, _, h2, _⟩ | ⟨node, cs, _, hall, hrest⟩
    · simp at h2
    · rcases hrest with ⟨e, h2, _⟩ | ⟨_, stored, tried, h3, _, hnone, _⟩
      · simp at h2
      · obtain ⟨h4, h5⟩ := hnone rfl
        subst h4 h5
        exact ⟨id, cs, _, hall, h3⟩

/-- The side-effect block ends with an error after the enqueue only in the key
loop, at the key that follows the stored ones. -/
theorem applyFilesBlock_some_after_enqueue {env : Env} {schema : Schema} {t t1 : Thread}
    {hash : Multihash} {msg : ThreadFiles} {e : Err}
    (h : applyFilesBlock env schema t hash msg = (some e, t1))
    (hreach : Call.outboxAdd hash.B58String CafeRequestType.CafeStoreRequest ∈
      callsSince t t1) :
    ∃ id cs s stored p, (∀ c ∈ cs, Call.isLinkCall c = true) ∧
      (stored ++ [p]) <+: msg.Keys ∧
      t1 = { t with
        outbox := t.outbox ++
          (if (env.outboxAdd s hash.B58String CafeRequestType.CafeStoreRequest).isSome then []
           else [{ Target := hash.B58String, Typ := CafeRequestType.CafeStoreRequest }]),
        fileKeys := t.fileKeys ++ keyRows stored,
        trace := t.trace ++ Call.cidParse hash :: Call.cidNode id :: cs ++
          Call.outboxAdd hash.B58String CafeRequestType.CafeStoreRequest ::
            keyCalls (stored ++ [p]) } := by
  rcases applyFilesBlock_cases h with ⟨e1, _, _, h3⟩ | ⟨id, _, hrest⟩
  · subst h3
    simp [callsSince, Thread.log] at hreach
  · rcases hrest with ⟨e1, _, _, h3⟩ | ⟨node, cs, _, hall, hrest⟩
    · subst h3
      simp [callsSince] at hreach
    · rcases hrest with ⟨e1, _, _, h3⟩ | ⟨_, stored, tried, h3, hpre, _, hsome⟩
      · subst h3
        simp only [callsSince, List.drop_left, List.mem_cons] at hreach
        rcases hreach with hreach | hreach | hreach
        · simp at hreach
        · simp at hreach
        · have := hall _ hreach
          simp [Call.isLinkCall] at this
      · obtain ⟨p, hp⟩ := hsome (by simp)
        subst hp
        exact ⟨id, cs, _, stored, p, hall, hpre, h3⟩

theorem calls_head_split (A : List Call) (c : Call) (L : List Call) :
    ∃ next rest, A ++ c :: L = next :: rest ∧ (A ++ [c]).head? = some next := by
  cases A <;> simp

theorem keyCalls_prefix_head {tried keys : List (String × String)} (hpre : tried <+: keys)
    (hne : tried ≠ []) (c : Call) :
    ∃ next rest, keyCalls tried = next :: rest ∧ Call.isKeyAdd next = true ∧
      (keyCalls keys ++ [c]).head? = some next := by
  obtain ⟨suffix, rfl⟩ := hpre
  cases tried with
  | nil => exact absurd rfl hne
  | cons q qs =>
    exact ⟨Call.keyAdd { Hash := q.1, Key := q.2 }, keyCalls qs, by simp [keyCalls], rfl,
      by simp [keyCalls]⟩

theorem filter_isKeyAdd_of_isLinkCall {cs : List Call}
    (hall : ∀ c ∈ cs, Call.isLinkCall c = true) : cs.filter Call.isKeyAdd = [] := by
  rw [List.filter_eq_nil_iff]
  intro c hc
  have := hall c hc
  cases c <;> simp_all [Call.isLinkCall, Call.isKeyAdd]

theorem filter_isKeyAdd_keyCalls (keys : List (String × String)) :
    (keyCalls keys).filter Call.isKeyAdd = keyCalls keys := by
  rw [List.filter_eq_self]
  intro c hc
  simp only [keyCalls, List.mem_map] at hc
  obtain ⟨p, _, rfl⟩ := hc
  rfl

/-! ## C1: the suppression rule of `handleFilesBlock` -/

/-- C1 (as stated) fails: a tombstone dated 5 ns exists for block `QmIn` and
is earlier than the block's header date, yet the side effects are not applied,
because the header date is rejected by the timestamp conversion and the call
returns that error with the state untouched.  Likewise a block whose payload
does not decode is returned with an error and the state untouched although no
tombstone exists for it. -/
theorem handleFilesBlock_older_tombstone_not_applied :
    tombThread.schema = some { Name := "media" } ∧
    demoEnv.unmarshalAny badDateBlock.Payload =
      .ok { Target := "QmDir", Body := "caption", Keys := [("QmFile", "key1")] } ∧
    (∃ tomb d, GetByTarget tombThread ("ignore-" ++ "QmIn") = some tomb ∧
      badDateBlock.Header.Date = some d ∧ tomb.Date ≤ unixTime d) ∧
    (handleFilesBlock demoEnv tombThread { B58String := "QmIn" } badDateBlock).2 = tombThread ∧
    ¬ effectsApplied demoEnv { Name := "media" } tombThread { B58String := "QmIn" }
        { Target := "QmDir", Body := "caption", Keys := [("QmFile", "key1")] }
        (handleFilesBlock demoEnv tombThread { B58String := "QmIn" } badDateBlock).2 ∧
    GetByTarget demoThread ("ignore-" ++ "QmIn") = none ∧
    (handleFilesBlock demoEnv demoThread { B58String := "QmIn" } garbageBlock).2 = demoThread ∧
    callsSince demoThread
      (handleFilesBlock demoEnv demoThread { B58String := "QmIn" } garbageBlock).2 = [] := by
  have hst : (handleFilesBlock demoEnv tombThread { B58String := "QmIn" } badDateBlock).2 =
      tombThread := by rfl
  refine ⟨rfl, rfl, ⟨_, _, rfl, rfl, by decide⟩, hst, ?_, rfl, rfl, rfl⟩
  rw [hst]
  intro h
  have h1 := h.1
  rw [callsSince_self] at h1
  simp at h1

/-- C1 (amended): on a thread with a schema, for a block whose payload decodes
and whose header date converts whenever a tombstone exists, the side effects
are skipped if and only if a tombstone with target `ignore-<hash>` exists and
its date is strictly after the header date; when no tombstone exists or its
date is equal or earlier, the side effects are applied. -/
theorem handleFilesBlock_suppression_rule (env : Env) (t : Thread) (hash : Multihash)
    (block : ThreadBlock) (schema : Schema) (msg : ThreadFiles)
    (hs : t.schema = some schema) (hm : env.unmarshalAny block.Payload = .ok msg)
    (hdate : ∀ tomb, GetByTarget t ("ignore-" ++ hash.B58String) = some tomb →
      ∃ d, env.timestamp block.Header.Date = .ok d) :
    (effectsSkipped t (handleFilesBlock env t hash block).2 ↔
      tombstoneNewer env t hash block = true) ∧
    (tombstoneAbsentOrOlder env t hash block = true →
      effectsApplied env schema t hash msg (handleFilesBlock env t hash block).2) := by
  have happlied : checkIgnored env t hash block = .ok false →
      effectsApplied env schema t hash msg (handleFilesBlock env t hash block).2 := by
    intro hc
    cases hr : handleFilesBlock env t hash block with
    | mk r t' =>
      rcases handleFilesBlock_cases hm hs hr with ⟨e, h1, _, _⟩ | ⟨e, _, h2, _⟩ |
        ⟨ignore, t1, h1, h2, h3⟩
      · rw [hc] at h1; simp at h1
      · obtain ⟨cs, htr, _⟩ := applyFilesBlock_frame h2
        refine ⟨?_, ?_, ?_, ?_⟩
        · rw [callsSince_of_trace htr]; simp
        · rw [h2]
        · rw [h2]
        · rw [h2]
      · rw [hc] at h1
        simp only [Except.ok.injEq] at h1
        subst h1
        rcases h2 with ⟨h, _⟩ | ⟨_, h2⟩
        · simp at h
        · obtain ⟨cs, htr, _⟩ := applyFilesBlock_frame h2
          rcases h3 with ⟨e, _, _, h3⟩ | ⟨date, _, _, h3⟩
          · subst h3
            refine ⟨?_, ?_, ?_, ?_⟩
            · have : (t1.log (Call.indexBlock { hash := hash, header := block.Header }
                  BlockType.FilesBlock msg.Target msg.Body)).trace =
                  t.trace ++ (Call.cidParse hash :: cs ++ [Call.indexBlock
                    { hash := hash, header := block.Header }
                    BlockType.FilesBlock msg.Target msg.Body]) := by
                simp [Thread.log, htr]
              rw [callsSince_of_trace this]; simp
            · rw [h2]; simp [Thread.log]
            · rw [h2]; rfl
            · rw [h2]; rfl
          · subst h3
            refine ⟨?_, ?_, ?_, ?_⟩
            · have : ({ t1 with
                  blocks := t1.blocks ++ [filesRow hash date msg.Target msg.Body],
                  trace := t1.trace ++ [Call.indexBlock { hash := hash, header := block.Header }
                    BlockType.FilesBlock msg.Target msg.Body] } : Thread).trace =
                  t.trace ++ (Call.cidParse hash :: cs ++ [Call.indexBlock
                    { hash := hash, header := block.Header }
                    BlockType.FilesBlock msg.Target msg.Body]) := by
                simp [htr]
              rw [callsSince_of_trace this]; simp
            · rw [h2]; simp
            · rw [h2]
            · rw [h2]
  have hskipped : checkIgnored env t hash block = .ok true →
      effectsSkipped t (handleFilesBlock env t hash block).2 := by
    intro hc
    cases hr : handleFilesBlock env t hash block with
    | mk r t' =>
      rcases handleFilesBlock_cases hm hs hr with ⟨e, h1, _, _⟩ | ⟨e, h1, _, _⟩ |
        ⟨ignore, t1, h1, h2, h3⟩
      · rw [hc] at h1; simp at h1
      · rw [hc] at h1; simp at h1
      · rw [hc] at h1
        simp only [Except.ok.injEq] at h1
        subst h1
        rcases h2 with ⟨_, h2⟩ | ⟨h, _⟩
        · subst h2
          rcases h3 with ⟨e, _, _, h3⟩ | ⟨date, _, _, h3⟩
          · subst h3
            refine ⟨?_, rfl, rfl⟩
            simp [callsSince, Thread.log, Call.isBlockEffect, Call.isNodeLookup,
              Call.isLinkCall, Call.isOutboxAdd, Call.isKeyAdd]
          · subst h3
            refine ⟨?_, rfl, rfl⟩
            simp [callsSince, Call.isBlockEffect, Call.isNodeLookup,
              Call.isLinkCall, Call.isOutboxAdd, Call.isKeyAdd]
        · simp at h
  have hcases : checkIgnored env t hash block = .ok true ∨
      checkIgnored env t hash block = .ok false := by
    cases hc : checkIgnored env t hash block with
    | error e =>
      obtain ⟨tomb, h1, h2⟩ := (checkIgnored_error_iff env t hash block e).1 hc
      obtain ⟨d, hd⟩ := hdate tomb h1
      rw [hd] at h2
      simp at h2
    | ok b => cases b <;> simp
  refine ⟨⟨?_, fun h => hskipped ((checkIgnored_true_iff env t hash block).2 h)⟩,
    fun h => happlied ((checkIgnored_false_iff env t hash block).2 h)⟩
  intro hsk
  rcases hcases with hc | hc
  · exact (checkIgnored_true_iff env t hash block).1 hc
  · exfalso
    have ha := (happlied hc).1
    have := hsk.1 _ ha
    simp [Call.isBlockEffect, Call.isNodeLookup] at this

/-- Witness for `handleFilesBlock_suppression_rule`: the example block dated
50 s on the thread holding a tombstone dated 5 ns. -/
theorem handleFilesBlock_suppression_rule_witness :
    (effectsSkipped tombThread
        (handleFilesBlock demoEnv tombThread { B58String := "QmIn" } demoBlock).2 ↔
      tombstoneNewer demoEnv tombThread { B58String := "QmIn" } demoBlock = true) ∧
    (tombstoneAbsentOrOlder demoEnv tombThread { B58String := "QmIn" } demoBlock = true →
      effectsApplied demoEnv { Name := "media" } tombThread { B58String := "QmIn" }
        { Target := "QmDir", Body := "caption", Keys := [("QmFile", "key1")] }
        (handleFilesBlock demoEnv tombThread { B58String := "QmIn" } demoBlock).2) :=
  handleFilesBlock_suppression_rule demoEnv tombThread { B58String := "QmIn" } demoBlock
    { Name := "media" } { Target := "QmDir", Body := "caption", Keys := [("QmFile", "key1")] }
    rfl rfl (fun _ _ => ⟨50000000000, rfl⟩)

/-! ## C2: a handled block is indexed -/

/-- C2 (as stated) fails: the example block decodes, the thread has a schema
and no tombstone, but the schema processor rejects the linked node, so
`handleFilesBlock` returns that error and the local index stays empty. -/
theorem handleFilesBlock_rejected_link_not_indexed :
    demoThread.schema = some { Name := "media" } ∧
    rejectingEnv.unmarshalAny demoBlock.Payload =
      .ok { Target := "QmDir", Body := "caption", Keys := [("QmFile", "key1")] } ∧
    (handleFilesBlock rejectingEnv demoThread { B58String := "QmIn" } demoBlock).1 =
      .error (Err.other "schema mismatch") ∧
    (handleFilesBlock rejectingEnv demoThread { B58String := "QmIn" } demoBlock).2.blocks = [] :=
  ⟨rfl, rfl, rfl, rfl⟩

/-- C2 (amended): whenever `handleFilesBlock` returns without error, whether a
tombstone suppressed the block or not, the result is the decoded payload, the
thread has a schema, the last call made is the indexing of the block's hash
and header as a files block with the payload's target and caption, and the
local index has gained exactly that row. -/
theorem handleFilesBlock_ok_indexed (env : Env) (t t' : Thread) (hash : Multihash)
    (block : ThreadBlock) (r : ThreadFiles)
    (hr : handleFilesBlock env t hash block = (.ok r, t')) :
    env.unmarshalAny block.Payload = .ok r ∧ t.schema ≠ none ∧
    lastCall t t' = some (Call.indexBlock { hash := hash, header := block.Header }
      BlockType.FilesBlock r.Target r.Body) ∧
    ∃ date, t'.blocks = t.blocks ++
      [{ Id := hash.B58String, Typ := BlockType.FilesBlock, Date := date, Target := r.Target,
         Body := r.Body }] := by
  cases hm : env.unmarshalAny block.Payload with
  | error e =>
    unfold handleFilesBlock at hr
    simp [hm] at hr
  | ok msg =>
    cases hs : t.schema with
    | none =>
      unfold handleFilesBlock at hr
      simp [hm, hs] at hr
    | some schema =>
      rcases handleFilesBlock_cases hm hs hr with ⟨e, _, h2, _⟩ | ⟨e, _, _, h3⟩ |
        ⟨ignore, t1, _, h2, h3⟩
      · simp at h2
      · simp at h3
      · have ht1 : ∃ cs, t1.trace = t.trace ++ cs ∧ t1.blocks = t.blocks := by
          rcases h2 with ⟨_, h2⟩ | ⟨_, h2⟩
          · exact ⟨[], by simp [h2], by rw [h2]⟩
          · obtain ⟨cs, htr, _, _, _, _, hb⟩ := applyFilesBlock_frame h2
            exact ⟨_, htr, hb⟩
        obtain ⟨cs, htr, hb⟩ := ht1
        rcases h3 with ⟨e, h3, _, _⟩ | ⟨date, h3, _, h5⟩
        · simp at h3
        · simp only [Except.ok.injEq] at h3
          subst h3 h5
          refine ⟨rfl, by simp, ?_, date, by simp [hb, filesRow]⟩
          simp [lastCall, callsSince, htr]

/-- Witness for `handleFilesBlock_ok_indexed`: the example block on the example
thread, where every collaborator succeeds. -/
theorem handleFilesBlock_ok_indexed_witness :
    demoEnv.unmarshalAny demoBlock.Payload =
      .ok { Target := "QmDir", Body := "caption", Keys := [("QmFile", "key1")] } ∧
    demoThread.schema ≠ none ∧
    lastCall demoThread (handleFilesBlock demoEnv demoThread { B58String := "QmIn" } demoBlock).2 =
      some (Call.indexBlock { hash := { B58String := "QmIn" }, header := demoBlock.Header }
        BlockType.FilesBlock "QmDir" "caption") ∧
    ∃ date, (handleFilesBlock demoEnv demoThread { B58String := "QmIn" } demoBlock).2.blocks =
      demoThread.blocks ++
        [{ Id := "QmIn", Typ := BlockType.FilesBlock, Date := date, Target := "QmDir",
           Body := "caption" }] :=
  handleFilesBlock_ok_indexed demoEnv demoThread _ { B58String := "QmIn" } demoBlock
    { Target := "QmDir", Body := "caption", Keys := [("QmFile", "key1")] } rfl

/-! ## C3: a schema is required -/

/-- C3: on a thread whose schema is nil, `AddFiles` fails with the
schema-required error for every node, caption and key map, and
`handleFilesBlock` fails with it for every block whose payload decodes; the
state is returned unchanged, so no call was made to any collaborator, nothing
was enqueued, stored, committed or indexed, and the head is as before. -/
theorem schema_required (env : Env) (t : Thread) (hs : t.schema = none) :
    (∀ node caption keys,
      AddFiles env t node caption keys = (.error Err.dagSchemaRequired, t) ∧
      callsSince t (AddFiles env t node caption keys).2 = []) ∧
    (∀ hash block msg, env.unmarshalAny block.Payload = .ok msg →
      handleFilesBlock env t hash block = (.error Err.dagSchemaRequired, t) ∧
      callsSince t (handleFilesBlock env t hash block).2 = []) := by
  constructor
  · intro node caption keys
    have h : AddFiles env t node caption keys = (.error Err.dagSchemaRequired, t) := by
      unfold AddFiles
      simp [hs]
    exact ⟨h, by rw [h]; exact callsSince_self t⟩
  · intro hash block msg hm
    have h : handleFilesBlock env t hash block = (.error Err.dagSchemaRequired, t) := by
      unfold handleFilesBlock
      simp [hm, hs]
    exact ⟨h, by rw [h]; exact callsSince_self t⟩

/-- Witness for `schema_required`: the example node and the example block on
the example thread without its schema. -/
theorem schema_required_witness :
    (AddFiles demoEnv noSchemaThread demoNode "hi" [("QmFile0", "k0")] =
        (.error Err.dagSchemaRequired, noSchemaThread) ∧
      callsSince noSchemaThread
        (AddFiles demoEnv noSchemaThread demoNode "hi" [("QmFile0", "k0")]).2 = []) ∧
    (handleFilesBlock demoEnv noSchemaThread incomingHash demoBlock =
        (.error Err.dagSchemaRequired, noSchemaThread) ∧
      callsSince noSchemaThread
        (handleFilesBlock demoEnv noSchemaThread incomingHash demoBlock).2 = []) :=
  ⟨(schema_required demoEnv noSchemaThread rfl).1 demoNode "hi" [("QmFile0", "k0")],
   (schema_required demoEnv noSchemaThread rfl).2 incomingHash demoBlock
      { Target := "QmDir", Body := "caption", Keys := [("QmFile", "key1")] } rfl⟩

/-! ## C4: a successful `AddFiles` -/

/-- C4: when `AddFiles` returns a hash without error, its last four calls are
the commit of the payload `{target = root hash, body = caption, keys}` as a
FILES block, the indexing of the commit result as a files block with that
target and caption, the head update to the commit result's hash and the post;
no earlier call is a commit, an indexing, a head update or a post; the index
has gained the row of the committed block; the head is the committed block's
hash; and the returned hash is that hash. -/
theorem AddFiles_ok (env : Env) (t t' : Thread) (node : IpldNode) (caption : String)
    (keys : List (String × String)) (h : Multihash)
    (hr : AddFiles env t node caption keys = (.ok h, t')) :
    ∃ (res : CommitResult) (date : Time) (pre : List Call),
      callsSince t t' = pre ++
        [Call.commitBlock { Target := node.Cid.Hash.B58String, Body := caption, Keys := keys }
           ThreadBlockType.FILES,
         Call.indexBlock res BlockType.FilesBlock node.Cid.Hash.B58String caption,
         Call.updateHead res.hash,
         Call.post res t.peers] ∧
      (∀ c ∈ pre, Call.isCommit c = false ∧ Call.isIndex c = false ∧
        Call.isUpdateHead c = false ∧ Call.isPost c = false) ∧
      (∃ s, env.commitBlock s
        { Target := node.Cid.Hash.B58String, Body := caption, Keys := keys }
        ThreadBlockType.FILES = .ok res) ∧
      t'.blocks = t.blocks ++
        [{ Id := res.hash.B58String, Typ := BlockType.FilesBlock, Date := date,
           Target := node.Cid.Hash.B58String, Body := caption }] ∧
      t'.head = res.hash ∧ h = res.hash := by
  cases hs : t.schema with
  | none =>
    unfold AddFiles at hr
    simp [hs] at hr
  | some schema =>
    obtain ⟨cs, hall, _, hcases⟩ := AddFiles_summary hs hr
    rcases hcases with ⟨e, h1, _⟩ | ⟨_, _, _, hrest⟩
    · simp at h1
    · rcases hrest with ⟨e, _, _, h1, _⟩ | ⟨_, hrest⟩
      · simp at h1
      · rcases hrest with ⟨e, h1, _⟩ | ⟨res, hc, hrest⟩
        · simp at h1
        · rcases hrest with ⟨e, h1, _⟩ | ⟨date, hb, hrest⟩
          · simp at h1
          · rcases hrest with ⟨e, h1, _⟩ | ⟨h3, h4, h5⟩
            · simp at h1
            · rcases h5 with ⟨e, h1, _⟩ | ⟨h1, _⟩
              · simp at h1
              · simp only [Except.ok.injEq] at h1
                refine ⟨res, date, addFilesPrefix cs node.Cid.Hash.B58String keys,
                  h3, ?_, hc, hb, h4, h1⟩
                intro c hc
                simp only [addFilesPrefix, List.mem_append, List.mem_cons, keyCalls,
                  List.mem_map] at hc
                rcases hc with hc | rfl | ⟨p, _, rfl⟩
                · have := hall c hc
                  cases c <;> simp_all [Call.isLinkCall, Call.isCommit, Call.isIndex,
                    Call.isUpdateHead, Call.isPost]
                · simp [Call.isCommit, Call.isIndex, Call.isUpdateHead, Call.isPost]
                · simp [Call.isCommit, Call.isIndex, Call.isUpdateHead, Call.isPost]

/-- Witness for `AddFiles_ok`: the example node added to the example thread,
where every collaborator succeeds. -/
theorem AddFiles_ok_witness :
    ∃ (res : CommitResult) (date : Time) (pre : List Call),
      callsSince demoThread
          (AddFiles demoEnv demoThread demoNode "hi" [("QmFile0", "k0")]).2 = pre ++
        [Call.commitBlock { Target := "QmDir", Body := "hi", Keys := [("QmFile0", "k0")] }
           ThreadBlockType.FILES,
         Call.indexBlock res BlockType.FilesBlock "QmDir" "hi",
         Call.updateHead res.hash,
         Call.post res ["peer1"]] ∧
      (∀ c ∈ pre, Call.isCommit c = false ∧ Call.isIndex c = false ∧
        Call.isUpdateHead c = false ∧ Call.isPost c = false) ∧
      (∃ s, demoEnv.commitBlock s
        { Target := "QmDir", Body := "hi", Keys := [("QmFile0", "k0")] }
        ThreadBlockType.FILES = .ok res) ∧
      (AddFiles demoEnv demoThread demoNode "hi" [("QmFile0", "k0")]).2.blocks =
        [] ++ [{ Id := res.hash.B58String, Typ := BlockType.FilesBlock, Date := date,
                 Target := "QmDir", Body := "hi" }] ∧
      (AddFiles demoEnv demoThread demoNode "hi" [("QmFile0", "k0")]).2.head = res.hash ∧
      ({ B58String := "QmBlock" } : Multihash) = res.hash :=
  AddFiles_ok demoEnv demoThread _ demoNode "hi" [("QmFile0", "k0")] { B58String := "QmBlock" }
    rfl

/-! ## C5: head and index after a failed `AddFiles` -/

/-- C5 (as stated) fails: when the head update itself fails, `AddFiles` returns
that error with the head unchanged, but the local index is not the same as
before the call: the new block's row has already been written. -/
theorem AddFiles_head_failure_keeps_index_row :
    (AddFiles headFailEnv demoThread demoNode "hi" [("QmFile0", "k0")]).1 =
      .error (Err.other "database is locked") ∧
    lastCall demoThread (AddFiles headFailEnv demoThread demoNode "hi" [("QmFile0", "k0")]).2 =
      some (Call.updateHead { B58String := "QmBlock" }) ∧
    (AddFiles headFailEnv demoThread demoNode "hi" [("QmFile0", "k0")]).2.head =
      demoThread.head ∧
    (AddFiles headFailEnv demoThread demoNode "hi" [("QmFile0", "k0")]).2.blocks ≠
      demoThread.blocks := by
  refine ⟨rfl, rfl, rfl, ?_⟩
  decide

/-- C5 (amended): for every `AddFiles` call that fails at a step other than the
propagation to peers, the head is the same as before the call; when the
failing step is also not the head update (link resolution, schema validation,
key persistence, commit or indexing), the local index is the same as before
too; when the failing step is the head update, the local index already holds
the new block's row. -/
theorem AddFiles_failure_head_and_index (env : Env) (t t' : Thread) (node : IpldNode)
    (caption : String) (keys : List (String × String)) (e : Err)
    (hr : AddFiles env t node caption keys = (.error e, t'))
    (hnp : ∀ res peers, lastCall t t' ≠ some (Call.post res peers)) :
    t'.head = t.head ∧
    ((∀ h, lastCall t t' ≠ some (Call.updateHead h)) → t'.blocks = t.blocks) ∧
    (∀ h, lastCall t t' = some (Call.updateHead h) →
      ∃ date, t'.blocks = t.blocks ++
        [{ Id := h.B58String, Typ := BlockType.FilesBlock, Date := date,
           Target := node.Cid.Hash.B58String, Body := caption }]) := by
  cases hs : t.schema with
  | none =>
    unfold AddFiles at hr
    simp only [hs, Prod.mk.injEq] at hr
    obtain ⟨_, rfl⟩ := hr
    refine ⟨rfl, fun _ => rfl, ?_⟩
    intro h hl
    simp [lastCall, callsSince_self] at hl
  | some schema =>
    rcases AddFiles_last_call hs hr with ⟨hl, _, hh, hb⟩ | ⟨⟨k, hl⟩, _, hh, hb⟩ |
      ⟨hl, _, hh, hb⟩ | ⟨res, hl, _, hh, hb⟩ | ⟨res, date, hl, _, hh, hb⟩ |
      ⟨res, date, hl, _⟩
    · refine ⟨hh, fun _ => hb, ?_⟩
      intro h hl2
      have := hl _ hl2
      simp [Call.isLinkCall] at this
    · refine ⟨hh, fun _ => hb, ?_⟩
      intro h hl2
      rw [hl] at hl2
      simp at hl2
    · refine ⟨hh, fun _ => hb, ?_⟩
      intro h hl2
      rw [hl] at hl2
      simp at hl2
    · refine ⟨hh, fun _ => hb, ?_⟩
      intro h hl2
      rw [hl] at hl2
      simp at hl2
    · refine ⟨hh, fun hn => absurd hl (hn _), ?_⟩
      intro h hl2
      rw [hl] at hl2
      simp only [Option.some.injEq, Call.updateHead.injEq] at hl2
      subst hl2
      exact ⟨date, hb⟩
    · exact absurd hl (hnp _ _)

/-- Witness for `AddFiles_failure_head_and_index`: the example node added where
the schema processor rejects every node. -/
theorem AddFiles_failure_head_and_index_witness :
    (AddFiles rejectingEnv demoThread demoNode "hi" [("QmFile0", "k0")]).2.head =
      demoThread.head ∧
    ((∀ h, lastCall demoThread
        (AddFiles rejectingEnv demoThread demoNode "hi" [("QmFile0", "k0")]).2 ≠
          some (Call.updateHead h)) →
      (AddFiles rejectingEnv demoThread demoNode "hi" [("QmFile0", "k0")]).2.blocks =
        demoThread.blocks) ∧
    (∀ h, lastCall demoThread
        (AddFiles rejectingEnv demoThread demoNode "hi" [("QmFile0", "k0")]).2 =
          some (Call.updateHead h) →
      ∃ date, (AddFiles rejectingEnv demoThread demoNode "hi" [("QmFile0", "k0")]).2.blocks =
        demoThread.blocks ++
          [{ Id := h.B58String, Typ := BlockType.FilesBlock, Date := date,
             Target := demoNode.Cid.Hash.B58String, Body := "hi" }]) :=
  AddFiles_failure_head_and_index rejectingEnv demoThread _ demoNode "hi" [("QmFile0", "k0")]
    (Err.other "schema mismatch") rfl (by
      intro res peers
      have h : lastCall demoThread
          (AddFiles rejectingEnv demoThread demoNode "hi" [("QmFile0", "k0")]).2 =
          some (Call.process { Name := "media" }
            { Cid := { Hash := { B58String := "QmFile0" } }, Links := [] }) := rfl
      rw [h]
      simp)

/-! ## C6: a failed propagation -/

/-- C6: when `AddFiles` got as far as posting the block (so link validation,
key persistence, commit, indexing and head update succeeded) and the post
fails with an error, the call returns that error and no hash, while the head
is already the new block's hash and the new block's row is in the local
index. -/
theorem AddFiles_post_failure (env : Env) (t t' : Thread) (node : IpldNode)
    (caption : String) (keys : List (String × String)) (r : Except Err Multihash)
    (res : CommitResult) (peers : List String) (e : Err)
    (hr : AddFiles env t node caption keys = (r, t'))
    (hlast : lastCall t t' = some (Call.post res peers))
    (hfail : env.post t'.beforeLastCall res peers = some e) :
    r = .error e ∧ t'.head = res.hash ∧
    ∃ date, t'.blocks = t.blocks ++
      [{ Id := res.hash.B58String, Typ := BlockType.FilesBlock, Date := date,
         Target := node.Cid.Hash.B58String, Body := caption }] := by
  cases hs : t.schema with
  | none =>
    unfold AddFiles at hr
    simp only [hs, Prod.mk.injEq] at hr
    obtain ⟨_, rfl⟩ := hr
    simp [lastCall, callsSince_self] at hlast
  | some schema =>
    rcases AddFiles_last_call hs hr with ⟨hl, _⟩ | ⟨⟨k, hl⟩, _⟩ | ⟨hl, _⟩ | ⟨res1, hl, _⟩ |
      ⟨res1, date, hl, _⟩ | ⟨res1, date, hl, hh, hb, hpost⟩
    · have := hl _ hlast
      simp [Call.isLinkCall] at this
    · rw [hl] at hlast; simp at hlast
    · rw [hl] at hlast; simp at hlast
    · rw [hl] at hlast; simp at hlast
    · rw [hl] at hlast; simp at hlast
    · rw [hl] at hlast
      simp only [Option.some.injEq, Call.post.injEq] at hlast
      obtain ⟨rfl, rfl⟩ := hlast
      refine ⟨?_, hh, date, hb⟩
      rcases hpost with ⟨e1, h1, h2⟩ | ⟨_, h2⟩
      · rw [hfail] at h2
        simp only [Option.some.injEq] at h2
        rw [h1, h2]
      · rw [hfail] at h2
        simp at h2

/-- Witness for `AddFiles_post_failure`: the example node added where only the
post fails. -/
theorem AddFiles_post_failure_witness :
    (AddFiles postFailEnv demoThread demoNode "hi" [("QmFile0", "k0")]).1 =
      .error (Err.other "no route to peer") ∧
    (AddFiles postFailEnv demoThread demoNode "hi" [("QmFile0", "k0")]).2.head =
      { B58String := "QmBlock" } ∧
    ∃ date, (AddFiles postFailEnv demoThread demoNode "hi" [("QmFile0", "k0")]).2.blocks =
      demoThread.blocks ++
        [{ Id := "QmBlock", Typ := BlockType.FilesBlock, Date := date,
           Target := "QmDir", Body := "hi" }] :=
  AddFiles_post_failure postFailEnv demoThread _ demoNode "hi" [("QmFile0", "k0")] _
    { hash := { B58String := "QmBlock" },
      header := { Date := some { Seconds := 100, Nanos := 0 }, Author := "me" } }
    ["peer1"] (Err.other "no route to peer") rfl rfl rfl

/-! ## C7: a failing link aborts the call -/

/-- C7: on a thread with a schema, when some direct child link of the node
fails to resolve or to validate (in whatever state it is tried, and at
whatever position among the links), `AddFiles` returns the error of a failing
link, having made only link resolution and validation calls: the outbox, the
key store, the local index and the head are as before and nothing was
committed.  The same holds for `handleFilesBlock` on an unsuppressed block
whose node is found, where the only other calls are the node lookup. -/
theorem failing_link_aborts (env : Env) (t : Thread) (schema : Schema)
    (hs : t.schema = some schema) :
    (∀ (node : IpldNode) (caption : String) (keys : List (String × String)),
      (∃ link ∈ node.Links, ∀ s, linkError env schema s link ≠ none) →
      ∃ e, (AddFiles env t node caption keys).1 = .error e ∧
        (∃ link ∈ node.Links, ∃ s, linkError env schema s link = some e) ∧
        (∀ c ∈ callsSince t (AddFiles env t node caption keys).2, Call.isLinkCall c = true) ∧
        (AddFiles env t node caption keys).2.outbox = t.outbox ∧
        (AddFiles env t node caption keys).2.fileKeys = t.fileKeys ∧
        (AddFiles env t node caption keys).2.blocks = t.blocks ∧
        (AddFiles env t node caption keys).2.head = t.head) ∧
    (∀ (hash : Multihash) (block : ThreadBlock) (msg : ThreadFiles) (id : Cid)
        (node : IpldNode),
      env.unmarshalAny block.Payload = .ok msg →
      tombstoneAbsentOrOlder env t hash block = true →
      env.cidParse hash = .ok id →
      env.cidNode (t.log (Call.cidParse hash)) id = .ok node →
      (∃ link ∈ node.Links, ∀ s, linkError env schema s link ≠ none) →
      ∃ e, (handleFilesBlock env t hash block).1 = .error e ∧
        (∃ link ∈ node.Links, ∃ s, linkError env schema s link = some e) ∧
        (∀ c ∈ callsSince t (handleFilesBlock env t hash block).2,
          Call.isNodeLookup c = true ∨ Call.isLinkCall c = true) ∧
        (handleFilesBlock env t hash block).2.outbox = t.outbox ∧
        (handleFilesBlock env t hash block).2.fileKeys = t.fileKeys ∧
        (handleFilesBlock env t hash block).2.blocks = t.blocks ∧
        (handleFilesBlock env t hash block).2.head = t.head) := by
  constructor
  · intro node caption keys hbad
    cases hr : AddFiles env t node caption keys with
    | mk r t' =>
      obtain ⟨cs, hall, _, hcases⟩ := AddFiles_summary hs hr
      rcases hcases with ⟨e, h1, h2, h3, h4, h5, h6, h7⟩ | ⟨hpl, _⟩
      · refine ⟨e, h1, processLinks_error_source env schema _ _ _ _ h2, ?_, h7, h6, h5, h4⟩
        rw [h3]
        exact hall
      · have := processLinks_fails env schema node.Links hbad t
        rw [hpl] at this
        exact absurd rfl this
  · intro hash block msg id node hm hun hparse hnode hbad
    have hc := (checkIgnored_false_iff env t hash block).2 hun
    have hlog : (t.log (Call.cidParse hash)).log (Call.cidNode id) =
        { t with trace := t.trace ++ [Call.cidParse hash, Call.cidNode id] } := by
      simp [Thread.log]
    have happ : ∀ r1 t1, applyFilesBlock env schema t hash msg = (r1, t1) →
        ∃ e cs, r1 = some e ∧
          (∃ link ∈ node.Links, ∃ s, linkError env schema s link = some e) ∧
          (∀ c ∈ cs, Call.isLinkCall c = true) ∧
          t1 = { t with trace := t.trace ++ Call.cidParse hash :: Call.cidNode id :: cs } := by
      intro r1 t1 ha
      rcases applyFilesBlock_cases ha with ⟨e, h1, _⟩ | ⟨id1, h1, hrest⟩
      · rw [hparse] at h1; simp at h1
      · rw [hparse] at h1
        simp only [Except.ok.injEq] at h1
        subst h1
        rcases hrest with ⟨e, h1, _⟩ | ⟨node1, cs, h1, hall, hrest⟩
        · rw [hnode] at h1; simp at h1
        · rw [hnode] at h1
          simp only [Except.ok.injEq] at h1
          subst h1
          rcases hrest with ⟨e, h1, h2, h3⟩ | ⟨hpl, _⟩
          · exact ⟨e, cs, h1, processLinks_error_source env schema _ _ _ _ h2, hall, h3⟩
          · have := processLinks_fails env schema node.Links hbad
              { t with trace := t.trace ++ [Call.cidParse hash, Call.cidNode id] }
            rw [hpl] at this
            exact absurd rfl this
    cases hr : handleFilesBlock env t hash block with
    | mk r t' =>
      rcases handleFilesBlock_cases hm hs hr with ⟨e, h1, _⟩ | ⟨e, _, h2, h3⟩ |
        ⟨ignore, t1, h1, h2, _⟩
      · rw [hc] at h1; simp at h1
      · obtain ⟨e1, cs, h4, h5, h6, h7⟩ := happ _ _ h2
        simp only [Option.some.injEq] at h4
        subst h4
        refine ⟨e, h3, h5, ?_, ?_, ?_, ?_, ?_⟩
        · have htr : t'.trace = t.trace ++ Call.cidParse hash :: Call.cidNode id :: cs := by
            rw [h7]
          dsimp only
          rw [callsSince_of_trace htr]
          intro c hcm
          simp only [List.mem_cons] at hcm
          rcases hcm with rfl | rfl | hcm
          · exact Or.inl rfl
          · exact Or.inl rfl
          · exact Or.inr (h6 c hcm)
        · rw [h7]
        · rw [h7]
        · rw [h7]
        · rw [h7]
      · rw [hc] at h1
        simp only [Except.ok.injEq] at h1
        subst h1
        rcases h2 with ⟨h, _⟩ | ⟨_, h2⟩
        · simp at h
        · obtain ⟨e1, cs, h4, _⟩ := happ _ _ h2
          simp at h4

/-- Witness for `failing_link_aborts`: `AddFiles` on the example node where the
second link cannot be resolved, and `handleFilesBlock` on the example block
where the schema processor rejects the linked node. -/
theorem failing_link_aborts_witness :
    (∃ e, (AddFiles missingLinkEnv demoThread demoNode "hi" [("QmFile0", "k0")]).1 = .error e ∧
      (∃ link ∈ demoNode.Links, ∃ s,
        linkError missingLinkEnv { Name := "media" } s link = some e) ∧
      (∀ c ∈ callsSince demoThread
          (AddFiles missingLinkEnv demoThread demoNode "hi" [("QmFile0", "k0")]).2,
        Call.isLinkCall c = true) ∧
      (AddFiles missingLinkEnv demoThread demoNode "hi" [("QmFile0", "k0")]).2.outbox =
        demoThread.outbox ∧
      (AddFiles missingLinkEnv demoThread demoNode "hi" [("QmFile0", "k0")]).2.fileKeys =
        demoThread.fileKeys ∧
      (AddFiles missingLinkEnv demoThread demoNode "hi" [("QmFile0", "k0")]).2.blocks =
        demoThread.blocks ∧
      (AddFiles missingLinkEnv demoThread demoNode "hi" [("QmFile0", "k0")]).2.head =
        demoThread.head) ∧
    (∃ e, (handleFilesBlock rejectingEnv demoThread { B58String := "QmIn" } demoBlock).1 =
        .error e ∧
      (∃ link ∈ [({ Name := "0", Size := 10,
                    Cid := { Hash := { B58String := "QmFile" } } } : Link)], ∃ s,
        linkError rejectingEnv { Name := "media" } s link = some e) ∧
      (∀ c ∈ callsSince demoThread
          (handleFilesBlock rejectingEnv demoThread { B58String := "QmIn" } demoBlock).2,
        Call.isNodeLookup c = true ∨ Call.isLinkCall c = true) ∧
      (handleFilesBlock rejectingEnv demoThread { B58String := "QmIn" } demoBlock).2.outbox =
        demoThread.outbox ∧
      (handleFilesBlock rejectingEnv demoThread { B58String := "QmIn" } demoBlock).2.fileKeys =
        demoThread.fileKeys ∧
      (handleFilesBlock rejectingEnv demoThread { B58String := "QmIn" } demoBlock).2.blocks =
        demoThread.blocks ∧
      (handleFilesBlock rejectingEnv demoThread { B58String := "QmIn" } demoBlock).2.head =
        demoThread.head) :=
  ⟨(failing_link_aborts missingLinkEnv demoThread { Name := "media" } rfl).1
      demoNode "hi" [("QmFile0", "k0")]
      ⟨{ Name := "1", Size := 20, Cid := { Hash := { B58String := "QmFile1" } } },
        by simp [demoNode], fun s => by simp [linkError, missingLinkEnv]⟩,
   (failing_link_aborts rejectingEnv demoThread { Name := "media" } rfl).2
      { B58String := "QmIn" } demoBlock
      { Target := "QmDir", Body := "caption", Keys := [("QmFile", "key1")] }
      { Hash := { B58String := "QmIn" } }
      { Cid := { Hash := { B58String := "QmIn" } },
        Links := [{ Name := "0", Size := 10, Cid := { Hash := { B58String := "QmFile" } } }] }
      rfl rfl rfl rfl
      ⟨{ Name := "0", Size := 10, Cid := { Hash := { B58String := "QmFile" } } },
        by simp, fun s => by simp [linkError, rejectingEnv, demoEnv]⟩⟩

/-! ## C8: a failed outbox enqueue -/

/-- C8 (as stated) fails: with an enqueue that fails, `AddFiles` still returns
the new hash without error, having persisted the key, indexed the block and
moved the head; `handleFilesBlock` still returns the payload, having persisted
the key and indexed the block. -/
theorem failed_enqueue_does_not_abort :
    outboxFailEnv.outboxAdd demoThread "QmDir" CafeRequestType.CafeStoreRequest ≠ none ∧
    AddFiles outboxFailEnv demoThread demoNode "hi" [("QmFile0", "k0")] =
      (.ok { B58String := "QmBlock" },
       { demoThread with
         head := { B58String := "QmBlock" },
         blocks := [{ Id := "QmBlock", Typ := BlockType.FilesBlock, Date := 100000000000,
                      Target := "QmDir", Body := "hi" }],
         fileKeys := [{ Hash := "QmFile0", Key := "k0" }],
         outbox := [],
         trace := (AddFiles demoEnv demoThread demoNode "hi" [("QmFile0", "k0")]).2.trace }) ∧
    (handleFilesBlock outboxFailEnv demoThread { B58String := "QmIn" } demoBlock).1 =
      .ok { Target := "QmDir", Body := "caption", Keys := [("QmFile", "key1")] } ∧
    (handleFilesBlock outboxFailEnv demoThread { B58String := "QmIn" } demoBlock).2.fileKeys =
      [{ Hash := "QmFile", Key := "key1" }] ∧
    (handleFilesBlock outboxFailEnv demoThread { B58String := "QmIn" } demoBlock).2.outbox = [] :=
  ⟨by simp [outboxFailEnv], rfl, rfl, rfl, rfl⟩

/-- C8 (amended): on a thread with a schema and an outbox whose enqueue fails,
every `AddFiles` call and every unsuppressed `handleFilesBlock` call that
reaches the enqueue of the store request is not aborted by the failure: the
result of the enqueue is not inspected, nothing is added to the outbox, and
the enqueue is followed by the next step of the call, which is the `Add` of
the first key or, for an empty key map, the commit (`AddFiles`) or the
indexing (`handleFilesBlock`). -/
theorem failed_enqueue_not_inspected (env : Env) (t : Thread) (schema : Schema)
    (hs : t.schema = some schema)
    (hfail : ∀ s target rtype, env.outboxAdd s target rtype ≠ none) :
    (∀ (node : IpldNode) (caption : String) (keys : List (String × String)),
      Call.outboxAdd node.Cid.Hash.B58String CafeRequestType.CafeStoreRequest ∈
        callsSince t (AddFiles env t node caption keys).2 →
      (AddFiles env t node caption keys).2.outbox = t.outbox ∧
      ∃ pre next rest,
        callsSince t (AddFiles env t node caption keys).2 =
          pre ++ Call.outboxAdd node.Cid.Hash.B58String CafeRequestType.CafeStoreRequest ::
            next :: rest ∧
        (keyCalls keys ++
          [Call.commitBlock { Target := node.Cid.Hash.B58String, Body := caption, Keys := keys }
            ThreadBlockType.FILES]).head? = some next) ∧
    (∀ (hash : Multihash) (block : ThreadBlock) (msg : ThreadFiles),
      env.unmarshalAny block.Payload = .ok msg →
      tombstoneAbsentOrOlder env t hash block = true →
      Call.outboxAdd hash.B58String CafeRequestType.CafeStoreRequest ∈
        callsSince t (handleFilesBlock env t hash block).2 →
      (handleFilesBlock env t hash block).2.outbox = t.outbox ∧
      ∃ pre next rest,
        callsSince t (handleFilesBlock env t hash block).2 =
          pre ++ Call.outboxAdd hash.B58String CafeRequestType.CafeStoreRequest ::
            next :: rest ∧
        (keyCalls msg.Keys ++
          [Call.indexBlock { hash := hash, header := block.Header } BlockType.FilesBlock
            msg.Target msg.Body]).head? = some next) := by
  constructor
  · intro node caption keys hreach
    cases hr : AddFiles env t node caption keys with
    | mk r t' =>
      rw [hr] at hreach
      dsimp only at hreach ⊢
      obtain ⟨cs, hall, _, hcases⟩ := AddFiles_summary hs hr
      rcases hcases with ⟨e, _, _, h3, _⟩ | ⟨_, _, hob, hrest⟩
      · rw [h3] at hreach
        have := hall _ hreach
        simp [Call.isLinkCall] at this
      · refine ⟨hob (hfail _ _ _), ?_⟩
        rcases hrest with ⟨e, stored, p, _, hpre, h3, _⟩ | ⟨_, hrest⟩
        · obtain ⟨next, rest, h4, _, h5⟩ := keyCalls_prefix_head hpre (by simp)
            (Call.commitBlock (filesMsg node caption keys) ThreadBlockType.FILES)
          exact ⟨cs, next, rest, by rw [h3, addFilesPrefix, h4], h5⟩
        · have key : ∀ L, callsSince t t' = addFilesPrefix cs node.Cid.Hash.B58String keys ++
              Call.commitBlock (filesMsg node caption keys) ThreadBlockType.FILES :: L →
              ∃ pre next rest, callsSince t t' = pre ++
                Call.outboxAdd node.Cid.Hash.B58String CafeRequestType.CafeStoreRequest ::
                  next :: rest ∧
                (keyCalls keys ++ [Call.commitBlock (filesMsg node caption keys)
                  ThreadBlockType.FILES]).head? = some next := by
            intro L hL
            obtain ⟨next, rest, h4, h5⟩ := calls_head_split (keyCalls keys)
              (Call.commitBlock (filesMsg node caption keys) ThreadBlockType.FILES) L
            refine ⟨cs, next, rest, ?_, h5⟩
            rw [hL, addFilesPrefix, ← h4]
            simp
          rcases hrest with ⟨e, _, h3, _⟩ | ⟨res, _, hrest⟩
          · exact key _ h3
          · rcases hrest with ⟨e, _, h3, _⟩ | ⟨date, _, hrest⟩
            · exact key _ h3
            · rcases hrest with ⟨e, _, h3, _⟩ | ⟨h3, _⟩
              · exact key _ h3
              · exact key _ h3
  · intro hash block msg hm hun hreach
    have hc := (checkIgnored_false_iff env t hash block).2 hun
    cases hr : handleFilesBlock env t hash block with
    | mk r t' =>
      rw [hr] at hreach
      dsimp only at hreach ⊢
      rcases handleFilesBlock_cases hm hs hr with ⟨e, h1, _⟩ | ⟨e, _, h2, _⟩ |
        ⟨ignore, t1, h1, h2, h3⟩
      · rw [hc] at h1; simp at h1
      · obtain ⟨id, cs, s, stored, p, _, hpre, ht'⟩ :=
          applyFilesBlock_some_after_enqueue h2 hreach
        obtain ⟨next, rest, h4, _, h5⟩ := keyCalls_prefix_head hpre (by simp)
          (Call.indexBlock { hash := hash, header := block.Header } BlockType.FilesBlock
            msg.Target msg.Body)
        subst ht'
        have hf := hfail s hash.B58String CafeRequestType.CafeStoreRequest
        refine ⟨?_, Call.cidParse hash :: Call.cidNode id :: cs, next, rest, ?_, h5⟩
        · cases ho : env.outboxAdd s hash.B58String CafeRequestType.CafeStoreRequest with
          | none => exact absurd ho hf
          | some e1 => simp
        · simp [callsSince, h4]
      · rw [hc] at h1
        simp only [Except.ok.injEq] at h1
        subst h1
        rcases h2 with ⟨h, _⟩ | ⟨_, h2⟩
        · simp at h
        · obtain ⟨id, cs, s, _, ht1⟩ := applyFilesBlock_none h2
          obtain ⟨next, rest, h4, h5⟩ := calls_head_split (keyCalls msg.Keys)
            (Call.indexBlock { hash := hash, header := block.Header } BlockType.FilesBlock
              msg.Target msg.Body) []
          have hf := hfail s hash.B58String CafeRequestType.CafeStoreRequest
          have ho : t1.outbox = t.outbox := by
            rw [ht1]
            cases ho : env.outboxAdd s hash.B58String CafeRequestType.CafeStoreRequest with
            | none => exact absurd ho hf
            | some e1 => simp
          have htr : ∀ t2 : Thread, t2.trace = t1.trace ++ [Call.indexBlock
              { hash := hash, header := block.Header } BlockType.FilesBlock
              msg.Target msg.Body] →
              callsSince t t2 = (Call.cidParse hash :: Call.cidNode id :: cs) ++
                Call.outboxAdd hash.B58String CafeRequestType.CafeStoreRequest ::
                  next :: rest := by
            intro t2 h2
            rw [← h4]
            apply callsSince_of_trace
            rw [h2, ht1]
            simp
          rcases h3 with ⟨e, _, _, h3⟩ | ⟨date, _, _, h3⟩
          · subst h3
            exact ⟨ho, _, next, rest, htr _ rfl, h5⟩
          · subst h3
            exact ⟨ho, _, next, rest, htr _ rfl, h5⟩

/-- Witness for `failed_enqueue_not_inspected`: the example node and the
example block on the example thread, with the failing outbox. -/
theorem failed_enqueue_not_inspected_witness :
    ((AddFiles outboxFailEnv demoThread demoNode "hi" [("QmFile0", "k0")]).2.outbox =
        demoThread.outbox ∧
      ∃ pre next rest,
        callsSince demoThread
            (AddFiles outboxFailEnv demoThread demoNode "hi" [("QmFile0", "k0")]).2 =
          pre ++ Call.outboxAdd "QmDir" CafeRequestType.CafeStoreRequest :: next :: rest ∧
        (keyCalls [("QmFile0", "k0")] ++
          [Call.commitBlock { Target := "QmDir", Body := "hi", Keys := [("QmFile0", "k0")] }
            ThreadBlockType.FILES]).head? = some next) ∧
    ((handleFilesBlock outboxFailEnv demoThread { B58String := "QmIn" } demoBlock).2.outbox =
        demoThread.outbox ∧
      ∃ pre next rest,
        callsSince demoThread
            (handleFilesBlock outboxFailEnv demoThread { B58String := "QmIn" } demoBlock).2 =
          pre ++ Call.outboxAdd "QmIn" CafeRequestType.CafeStoreRequest :: next :: rest ∧
        (keyCalls [("QmFile", "key1")] ++
          [Call.indexBlock { hash := { B58String := "QmIn" }, header := demoBlock.Header }
            BlockType.FilesBlock "QmDir" "caption"]).head? = some next) :=
  ⟨(failed_enqueue_not_inspected outboxFailEnv demoThread { Name := "media" } rfl
      (fun _ _ _ => by simp [outboxFailEnv])).1 demoNode "hi" [("QmFile0", "k0")]
      (by decide),
   (failed_enqueue_not_inspected outboxFailEnv demoThread { Name := "media" } rfl
      (fun _ _ _ => by simp [outboxFailEnv])).2 { B58String := "QmIn" } demoBlock
      { Target := "QmDir", Body := "caption", Keys := [("QmFile", "key1")] } rfl rfl
      (by decide)⟩

/-! ## C9: the mirror obligation of a received block -/

/-- C9 (code evaluated at the failing input): for the unsuppressed example
block with hash `QmIn` and payload target `QmDir`, `handleFilesBlock` looks up
the node behind the block hash `QmIn` and enqueues a store request for
`QmIn`; no call is made for the payload's target `QmDir`, and the outbox ends
up with a request for `QmIn` only.  `AddFiles` on the directory `QmDir`
enqueues a store request for `QmDir`. -/
theorem handleFilesBlock_enqueues_block_hash :
    demoEnv.unmarshalAny demoBlock.Payload =
      .ok { Target := "QmDir", Body := "caption", Keys := [("QmFile", "key1")] } ∧
    GetByTarget demoThread ("ignore-" ++ incomingHash.B58String) = none ∧
    callsSince demoThread (handleFilesBlock demoEnv demoThread incomingHash demoBlock).2 =
      [Call.cidParse { B58String := "QmIn" },
       Call.cidNode { Hash := { B58String := "QmIn" } },
       Call.linkNode { Name := "0", Size := 10, Cid := { Hash := { B58String := "QmFile" } } },
       Call.process { Name := "media" }
         { Cid := { Hash := { B58String := "QmFile" } }, Links := [] },
       Call.outboxAdd "QmIn" CafeRequestType.CafeStoreRequest,
       Call.keyAdd { Hash := "QmFile", Key := "key1" },
       Call.indexBlock { hash := { B58String := "QmIn" }, header := demoBlock.Header }
         BlockType.FilesBlock "QmDir" "caption"] ∧
    (handleFilesBlock demoEnv demoThread incomingHash demoBlock).2.outbox =
      [{ Target := "QmIn", Typ := CafeRequestType.CafeStoreRequest }] ∧
    (AddFiles demoEnv demoThread demoNode "caption" [("QmFile", "key1")]).2.outbox =
      [{ Target := "QmDir", Typ := CafeRequestType.CafeStoreRequest }] :=
  ⟨rfl, rfl, rfl, rfl, rfl⟩

/-! ## C10: the keys handed to the key store -/

/-- C10: when `AddFiles` returns without error, the `Add` calls received by the
key store are exactly those of the supplied key map, one per pair and in
iteration order, and the key store has gained exactly those pairs; likewise
for an unsuppressed `handleFilesBlock` call that returns without error and the
key map of the decoded payload. -/
theorem keys_persisted (env : Env) (t t' : Thread) :
    (∀ (node : IpldNode) (caption : String) (keys : List (String × String)) (h : Multihash),
      AddFiles env t node caption keys = (.ok h, t') →
      (callsSince t t').filter Call.isKeyAdd =
        keys.map (fun p => Call.keyAdd { Hash := p.1, Key := p.2 }) ∧
      t'.fileKeys = t.fileKeys ++ keys.map (fun p => { Hash := p.1, Key := p.2 })) ∧
    (∀ (hash : Multihash) (block : ThreadBlock) (msg : ThreadFiles),
      handleFilesBlock env t hash block = (.ok msg, t') →
      tombstoneAbsentOrOlder env t hash block = true →
      (callsSince t t').filter Call.isKeyAdd =
        msg.Keys.map (fun p => Call.keyAdd { Hash := p.1, Key := p.2 }) ∧
      t'.fileKeys = t.fileKeys ++ msg.Keys.map (fun p => { Hash := p.1, Key := p.2 })) := by
  constructor
  · intro node caption keys h hr
    cases hs : t.schema with
    | none =>
      unfold AddFiles at hr
      simp [hs] at hr
    | some schema =>
      obtain ⟨cs, hall, _, hcases⟩ := AddFiles_summary hs hr
      rcases hcases with ⟨e, h1, _⟩ | ⟨_, _, _, hrest⟩
      · simp at h1
      · rcases hrest with ⟨e, _, _, h1, _⟩ | ⟨hk, hrest⟩
        · simp at h1
        · rcases hrest with ⟨e, h1, _⟩ | ⟨res, hc, hrest⟩
          · simp at h1
          · rcases hrest with ⟨e, h1, _⟩ | ⟨date, hb, hrest⟩
            · simp at h1
            · rcases hrest with ⟨e, h1, _⟩ | ⟨h3, _⟩
              · simp at h1
              · refine ⟨?_, hk⟩
                rw [h3, addFilesPrefix]
                simp only [List.filter_append, List.filter_cons,
                  filter_isKeyAdd_of_isLinkCall hall, filter_isKeyAdd_keyCalls]
                simp [Call.isKeyAdd, keyCalls]
  · intro hash block msg hr hun
    have hc := (checkIgnored_false_iff env t hash block).2 hun
    cases hm : env.unmarshalAny block.Payload with
    | error e =>
      unfold handleFilesBlock at hr
      simp [hm] at hr
    | ok msg1 =>
      cases hs : t.schema with
      | none =>
        unfold handleFilesBlock at hr
        simp [hm, hs] at hr
      | some schema =>
        rcases handleFilesBlock_cases hm hs hr with ⟨e, _, h2, _⟩ | ⟨e, _, _, h3⟩ |
          ⟨ignore, t1, h1, h2, h3⟩
        · simp at h2
        · simp at h3
        · rw [hc] at h1
          simp only [Except.ok.injEq] at h1
          subst h1
          rcases h2 with ⟨h, _⟩ | ⟨_, h2⟩
          · simp at h
          · obtain ⟨id, cs, s, hall, ht1⟩ := applyFilesBlock_none h2
            rcases h3 with ⟨e, h3, _⟩ | ⟨date, h3, _, h5⟩
            · simp at h3
            · simp only [Except.ok.injEq] at h3
              subst h3 h5 ht1
              refine ⟨?_, rfl⟩
              simp only [callsSince, List.append_assoc, List.drop_left, List.cons_append,
                List.filter_append, List.filter_cons,
                filter_isKeyAdd_of_isLinkCall hall, filter_isKeyAdd_keyCalls]
              simp [Call.isKeyAdd, keyCalls]

/-- Witness for `keys_persisted`: the example node added with two keys, and
the example block received, where every collaborator succeeds. -/
theorem keys_persisted_witness :
    ((callsSince demoThread
        (AddFiles demoEnv demoThread demoNode "hi" [("QmFile0", "k0"), ("QmFile1", "k1")]).2).filter
          Call.isKeyAdd =
        [Call.keyAdd { Hash := "QmFile0", Key := "k0" },
         Call.keyAdd { Hash := "QmFile1", Key := "k1" }] ∧
      (AddFiles demoEnv demoThread demoNode "hi" [("QmFile0", "k0"), ("QmFile1", "k1")]).2.fileKeys =
        demoThread.fileKeys ++
          [{ Hash := "QmFile0", Key := "k0" }, { Hash := "QmFile1", Key := "k1" }]) ∧
    ((callsSince demoThread
        (handleFilesBlock demoEnv demoThread incomingHash demoBlock).2).filter Call.isKeyAdd =
        [Call.keyAdd { Hash := "QmFile", Key := "key1" }] ∧
      (handleFilesBlock demoEnv demoThread incomingHash demoBlock).2.fileKeys =
        demoThread.fileKeys ++ [{ Hash := "QmFile", Key := "key1" }]) :=
  ⟨(keys_persisted demoEnv demoThread _).1 demoNode "hi"
      [("QmFile0", "k0"), ("QmFile1", "k1")] { B58String := "QmBlock" } rfl,
   (keys_persisted demoEnv demoThread _).2 incomingHash demoBlock
      { Target := "QmDir", Body := "caption", Keys := [("QmFile", "key1")] } rfl
      rfl⟩

/-! ## Lemmas on `util/main.go` -/

/-- Truncated division by 1e9, with its remainder: the remainder is smaller
than 1e9 in absolute value and has the sign of the dividend. -/
theorem tdiv_nanos_bounds (a : Int) :
    ∃ q r : Int, Int.tdiv a 1000000000 = q ∧ a = 1000000000 * q + r ∧
      -1000000000 < r ∧ r < 1000000000 ∧ (0 ≤ a → 0 ≤ r) ∧ (a ≤ 0 → r ≤ 0) := by
  rcases Int.le_total 0 a with h | h
  · refine ⟨a / 1000000000, a % 1000000000, Int.tdiv_eq_ediv h (by decide),
      ?_, ?_, ?_, ?_, ?_⟩ <;> omega
  · have h1 : Int.tdiv a 1000000000 = -((-a) / 1000000000) := by
      have : a = -(-a) := by omega
      conv_lhs => rw [this, Int.neg_tdiv]
      rw [Int.tdiv_eq_ediv (by omega) (by decide)]
    refine ⟨-((-a) / 1000000000), -((-a) % 1000000000), h1, ?_, ?_, ?_, ?_, ?_⟩ <;> omega

/-! ## C13: the dispatch table of `getMill` -/

/-- C13: `getMill` is a closed dispatch table.  For every options map it
returns the blob transformer for `/blob`, the exif transformer for
`/image/exif`, the JSON transformer for `/json`, a resize transformer for
`/image/resize` when the options carry a non-empty width, and for every
identifier outside these four it returns no transformer and no error; no
transformer and no error is returned for no other identifier. -/
theorem getMill_dispatch (opts : List (String × String)) :
    getMill "/blob" opts = .ok (some Mill.Blob) ∧
    getMill "/image/exif" opts = .ok (some Mill.ImageExif) ∧
    getMill "/json" opts = .ok (some Mill.Json) ∧
    (optsGet opts "width" ≠ "" →
      ∃ o, getMill "/image/resize" opts = .ok (some (Mill.ImageResize o))) ∧
    (∀ id, id ≠ "/blob" → id ≠ "/image/resize" → id ≠ "/image/exif" → id ≠ "/json" →
      getMill id opts = .ok none) ∧
    (∀ id, getMill id opts = .ok none →
      id ≠ "/blob" ∧ id ≠ "/image/resize" ∧ id ≠ "/image/exif" ∧ id ≠ "/json") := by
  refine ⟨by simp [getMill], by simp [getMill], by simp [getMill], ?_, ?_, ?_⟩
  · intro hw
    refine ⟨{ Width := optsGet opts "width",
              Quality := if optsGet opts "quality" = "" then "75"
                         else optsGet opts "quality" }, ?_⟩
    simp [getMill, hw]
  · intro id h1 h2 h3 h4
    simp [getMill, h1, h2, h3, h4]
  · intro id h
    unfold getMill at h
    split at h
    · simp at h
    · split at h
      · exfalso
        revert h
        dsimp only
        split <;> simp
      · split at h
        · simp at h
        · split at h
          · simp at h
          · exact ⟨by assumption, by assumption, by assumption, by assumption⟩

/-- Witness for `getMill_dispatch`: the options `width = 100` and the
identifier `/video`. -/
theorem getMill_dispatch_witness :
    (∃ o, getMill "/image/resize" [("width", "100")] = .ok (some (Mill.ImageResize o))) ∧
    getMill "/video" [("width", "100")] = .ok none :=
  ⟨(getMill_dispatch [("width", "100")]).2.2.2.1 (by decide),
   (getMill_dispatch [("width", "100")]).2.2.2.2.1 "/video" (by decide) (by decide)
     (by decide) (by decide)⟩

/-! ## C14: the options of the resize transformer -/

/-- C14: for the identifier `/image/resize` and every options map, `getMill`
fails if and only if the options carry no non-empty `width`, and the error is
then `missing width`; otherwise it returns the resize transformer whose
`Width` is the given width and whose `Quality` is the given `quality` when
that is non-empty and `75` when it is absent or empty. -/
theorem getMill_resize (opts : List (String × String)) :
    ((∃ e, getMill "/image/resize" opts = .error e) ↔ optsGet opts "width" = "") ∧
    (optsGet opts "width" = "" →
      getMill "/image/resize" opts = .error (Err.other "missing width")) ∧
    (optsGet opts "width" ≠ "" →
      getMill "/image/resize" opts = .ok (some (Mill.ImageResize
        { Width := optsGet opts "width",
          Quality := if optsGet opts "quality" = "" then "75"
                     else optsGet opts "quality" }))) := by
  have h1 : optsGet opts "width" = "" →
      getMill "/image/resize" opts = .error (Err.other "missing width") := by
    intro hw
    simp [getMill, hw]
  have h2 : optsGet opts "width" ≠ "" →
      getMill "/image/resize" opts = .ok (some (Mill.ImageResize
        { Width := optsGet opts "width",
          Quality := if optsGet opts "quality" = "" then "75"
                     else optsGet opts "quality" })) := by
    intro hw
    simp [getMill, hw]
  refine ⟨⟨?_, fun hw => ⟨_, h1 hw⟩⟩, h1, h2⟩
  rintro ⟨e, he⟩
  by_contra hw
  rw [h2 hw] at he
  simp at he

/-- Witness for `getMill_resize`: no options at all, and the options
`width = 100` with an empty `quality`. -/
theorem getMill_resize_witness :
    getMill "/image/resize" [] = .error (Err.other "missing width") ∧
    getMill "/image/resize" [("width", "100"), ("quality", "")] =
      .ok (some (Mill.ImageResize { Width := "100", Quality := "75" })) :=
  ⟨(getMill_resize []).2.1 (by decide),
   (getMill_resize [("width", "100"), ("quality", "")]).2.2 (by decide)⟩

/-! ## C20: `ProtoNanos` undoes `ProtoTs` -/

/-- C20: for every 64-bit signed nanosecond count `n`, negative ones and the
extremes of the range included, `ProtoNanos (ProtoTs n) = n` under Go's
wrapping arithmetic. -/
theorem ProtoNanos_ProtoTs (now : PbTimestamp) (n : Int)
    (hlo : -9223372036854775808 ≤ n) (hhi : n < 9223372036854775808) :
    ProtoNanos now (some (ProtoTs n)) = n := by
  obtain ⟨q, r, hq, hn, h1, h2, h3, h4⟩ := tdiv_nanos_bounds n
  unfold ProtoNanos ProtoTs
  simp only [hq]
  split <;> simp only [wrap64, wrap32] at * <;> omega

/-- Witness for `ProtoNanos_ProtoTs`: the least `int64`, whose seconds times
1e9 wrap around. -/
theorem ProtoNanos_ProtoTs_witness :
    ProtoTs (-9223372036854775808) = { Seconds := -9223372037, Nanos := 145224192 } ∧
    ProtoNanos { Seconds := 0, Nanos := 0 } (some (ProtoTs (-9223372036854775808))) =
      -9223372036854775808 :=
  ⟨by decide, ProtoNanos_ProtoTs { Seconds := 0, Nanos := 0 } (-9223372036854775808)
    (by decide) (by decide)⟩

/-! ## Lemmas on `mobile/files.go` -/

theorem getMill_none_of_ne (id : String) (opts : List (String × String))
    (h1 : id ≠ "/blob") (h2 : id ≠ "/image/resize") (h3 : id ≠ "/image/exif")
    (h4 : id ≠ "/json") : getMill id opts = .ok none := by
  simp [getMill, h1, h2, h3, h4]

theorem getMill_none_ne {id : String} {opts : List (String × String)}
    (h : getMill id opts = .ok none) :
    id ≠ "/blob" ∧ id ≠ "/image/resize" ∧ id ≠ "/image/exif" ∧ id ≠ "/json" := by
  unfold getMill at h
  split at h
  · simp at h
  · split at h
    · exfalso
      revert h
      dsimp only
      split <;> simp
    · split at h
      · simp at h
      · split at h
        · simp at h
        · exact ⟨by assumption, by assumption, by assumption, by assumption⟩

theorem getMill_some_ID {id : String} {opts : List (String × String)} {mil : Mill}
    (h : getMill id opts = .ok (some mil)) : mil.ID = id := by
  unfold getMill at h
  split at h
  · simp only [Except.ok.injEq, Option.some.injEq] at h
    subst h
    simp [Mill.ID, *]
  · split at h
    · revert h
      dsimp only
      split
      · simp
      · intro h
        simp only [Except.ok.injEq, Option.some.injEq] at h
        subst h
        simp [Mill.ID, *]
    · split at h
      · simp only [Except.ok.injEq, Option.some.injEq] at h
        subst h
        simp [Mill.ID, *]
      · split at h
        · simp only [Except.ok.injEq, Option.some.injEq] at h
          subst h
          simp [Mill.ID, *]
        · simp at h

/-- The loop of `addFiles` stops at the first path when `buildDirectory` fails
for every path without touching the state. -/
theorem buildDirectories_first_error (env : MobileEnv) (m : Mobile) (threadId : String)
    (e : Err) (h : ∀ pth, buildDirectory env m none pth threadId = (.err e, m))
    (dirs : List Directory) (pth : String) (rest : List String) :
    buildDirectories env threadId m dirs (pth :: rest) = (.err e, m) := by
  simp [buildDirectories, h pth]

/-! ## C12: an empty schema -/

/-- The only error of `getMill` is "missing width", for the identifier
`/image/resize` without a width. -/
theorem getMill_error {id : String} {opts : List (String × String)} {e : Err}
    (h : getMill id opts = .error e) :
    e = Err.other "missing width" ∧ id = "/image/resize" ∧ optsGet opts "width" = "" := by
  unfold getMill at h
  split at h
  · simp at h
  · split at h
    · rename_i hid
      simp only at h
      split at h
      · rename_i hw
        simp only [Except.error.injEq] at h
        exact ⟨h.symm, hid, hw⟩
      · simp at h
    · split at h
      · simp at h
      · split at h
        · simp at h
        · simp at h

/-- C12 (as stated) fails for a schema without links whose mill is
`/image/resize` without a width: `getMill` selects no transformer for it, yet
`buildDirectory`, `addData` and `addFiles` fail with the error "missing width"
of `getMill`, not with the empty-schema error. -/
theorem resize_without_width_not_empty_schema :
    getMill (schemaOf "/image/resize" [] []).Mill (schemaOf "/image/resize" [] []).Opts
      = .error (Err.other "missing width") ∧
    (schemaOf "/image/resize" [] []).Links = [] ∧
    buildDirectory demoMobileEnv (mobileWith (schemaOf "/image/resize" [] []))
        (some [1, 2, 3]) "" "thread1"
      = (.err (Err.other "missing width"), mobileWith (schemaOf "/image/resize" [] [])) ∧
    addData demoMobileEnv (mobileWith (schemaOf "/image/resize" [] []))
        (some [1, 2, 3]) "thread1" "hi"
      = (.err (Err.other "missing width"), mobileWith (schemaOf "/image/resize" [] [])) ∧
    addFiles demoMobileEnv (mobileWith (schemaOf "/image/resize" [] []))
        ["/tmp/cat.png"] "thread1" "hi"
      = (.err (Err.other "missing width"), mobileWith (schemaOf "/image/resize" [] [])) ∧
    Err.other "missing width" ≠ Err.emptySchema :=
  ⟨rfl, rfl, rfl, rfl, rfl, by decide⟩

/-- C12 (amended): on a started node, for a thread with a schema.  When the
schema has no links and its top-level mill identifier is outside the dispatch
table of `getMill`, `buildDirectory` fails with the empty-schema error for
every input; `addData` for any data and `addFiles` for any list of at least
one path fail with that error, and the node is returned unchanged:
`Thread.AddFiles` was not invoked, no transformer was run, and every thread
(its blocks, outbox and head) is as before.  When `getMill` rejects the
top-level mill, which it does exactly for `/image/resize` without a width, the
three functions fail with the error "missing width" of `getMill` instead,
again with the node unchanged.  These are the two ways in which a schema
selects no transformer. -/
theorem empty_schema_fails (env : MobileEnv) (m : Mobile) (threadId : String)
    (thrd : Thread) (schema : Schema)
    (hstart : m.started = true)
    (hthr : m.threads.lookup threadId = some thrd)
    (hs : thrd.schema = some schema) :
    (schema.Mill ≠ "/blob" → schema.Mill ≠ "/image/resize" →
      schema.Mill ≠ "/image/exif" → schema.Mill ≠ "/json" → schema.Links = [] →
      (∀ data path, buildDirectory env m data path threadId = (.err Err.emptySchema, m)) ∧
      (∀ data caption, addData env m data threadId caption = (.err Err.emptySchema, m)) ∧
      (∀ pth paths caption,
        addFiles env m (pth :: paths) threadId caption = (.err Err.emptySchema, m))) ∧
    (∀ e, getMill schema.Mill schema.Opts = .error e →
      e = Err.other "missing width" ∧ schema.Mill = "/image/resize" ∧
      optsGet schema.Opts "width" = "" ∧
      (∀ data path, buildDirectory env m data path threadId = (.err e, m)) ∧
      (∀ data caption, addData env m data threadId caption = (.err e, m)) ∧
      (∀ pth paths caption, addFiles env m (pth :: paths) threadId caption = (.err e, m))) ∧
    ((∀ mil, getMill schema.Mill schema.Opts ≠ .ok (some mil)) ↔
      ((schema.Mill ≠ "/blob" ∧ schema.Mill ≠ "/image/resize" ∧
          schema.Mill ≠ "/image/exif" ∧ schema.Mill ≠ "/json") ∨
        ∃ e, getMill schema.Mill schema.Opts = .error e)) := by
  have hall : ∀ e, (∀ data path, buildDirectory env m data path threadId = (.err e, m)) →
      (∀ data caption, addData env m data threadId caption = (.err e, m)) ∧
      (∀ pth paths caption, addFiles env m (pth :: paths) threadId caption = (.err e, m)) := by
    intro e hb
    constructor
    · intro data caption
      simp [addData, hb]
    · intro pth paths caption
      simp [addFiles, buildDirectories_first_error env m threadId e (fun p => hb none p)]
  refine ⟨?_, ?_, ?_⟩
  · intro h1 h2 h3 h4 hlinks
    have hb : ∀ data path, buildDirectory env m data path threadId =
        (.err Err.emptySchema, m) := by
      intro data path
      simp [buildDirectory, hstart, hthr, hs, getMill_none_of_ne _ _ h1 h2 h3 h4, hlinks]
    exact ⟨hb, hall _ hb⟩
  · intro e he
    obtain ⟨h1, h2, h3⟩ := getMill_error he
    have hb : ∀ data path, buildDirectory env m data path threadId = (.err e, m) := by
      intro data path
      simp [buildDirectory, hstart, hthr, hs, he]
    exact ⟨h1, h2, h3, hb, hall _ hb⟩
  · constructor
    · intro hno
      cases hg : getMill schema.Mill schema.Opts with
      | error e => exact Or.inr ⟨e, rfl⟩
      | ok r =>
        cases r with
        | some mil => exact absurd hg (hno mil)
        | none =>
          left
          refine ⟨?_, ?_, ?_, ?_⟩ <;>
          · intro hid
            unfold getMill at hg
            simp only [hid] at hg
            revert hg
            simp only [String.reduceEq, if_true, if_false]
            try split
            all_goals simp
    · rintro (⟨h1, h2, h3, h4⟩ | ⟨e, he⟩) mil hg
      · rw [getMill_none_of_ne _ _ h1 h2 h3 h4] at hg
        simp at hg
      · rw [he] at hg
        simp at hg

/-- Witness for `empty_schema_fails`: the example node whose thread has a
schema with no mill and no links. -/
theorem empty_schema_fails_witness :
    (∀ data path, buildDirectory demoMobileEnv (mobileWith (schemaOf "" [] [])) data path
      "thread1" = (.err Err.emptySchema, mobileWith (schemaOf "" [] []))) ∧
    (∀ data caption, addData demoMobileEnv (mobileWith (schemaOf "" [] [])) data "thread1"
      caption = (.err Err.emptySchema, mobileWith (schemaOf "" [] []))) ∧
    (∀ pth paths caption, addFiles demoMobileEnv (mobileWith (schemaOf "" [] []))
      (pth :: paths) "thread1" caption =
        (.err Err.emptySchema, mobileWith (schemaOf "" [] []))) :=
  (empty_schema_fails demoMobileEnv (mobileWith (schemaOf "" [] [])) "thread1"
    { demoThread with schema := some (schemaOf "" [] []) } (schemaOf "" [] [])
    rfl rfl rfl).1 (by decide) (by decide) (by decide) (by decide) rfl

/-! ## C15: a single mill is one implicit step -/

/-- C15: for a thread schema whose top-level mill identifier selects a
transformer, whatever links the schema also declares, a successful
`buildDirectory` has requested one configuration and run that transformer
once, and returns a directory with exactly one entry, stored under the
single-file tag and equal to the file the transformer produced. -/
theorem single_mill_one_entry (env : MobileEnv) (m m' : Mobile) (data : Option Bytes)
    (path threadId : String) (thrd : Thread) (schema : Schema) (dir : Directory)
    (hthr : m.threads.lookup threadId = some thrd)
    (hs : thrd.schema = some schema)
    (hmill : schema.Mill = "/blob" ∨ schema.Mill = "/image/resize" ∨
      schema.Mill = "/image/exif" ∨ schema.Mill = "/json")
    (hr : buildDirectory env m data path threadId = (.ok dir, m')) :
    ∃ mil settings conf added,
      getMill schema.Mill schema.Opts = .ok (some mil) ∧ mil.ID = schema.Mill ∧
      m'.calls = m.calls ++
        [MCall.getFileConfig (some mil) settings, MCall.addFileIndex (some mil) conf] ∧
      env.AddFileIndex (m.log (MCall.getFileConfig (some mil) settings)) (some mil) conf =
        .ok added ∧
      dir.Files = [(env.SingleFileTag, added)] := by
  unfold buildDirectory at hr
  split at hr
  · simp at hr
  · simp only [hthr, hs] at hr
    cases hg : getMill schema.Mill schema.Opts with
    | error e => simp [hg] at hr
    | ok mil =>
      cases mil with
      | none =>
        exfalso
        have := getMill_none_ne hg
        rcases hmill with h | h | h | h
        · exact this.1 h
        · exact this.2.1 h
        · exact this.2.2.1 h
        · exact this.2.2.2 h
      | some ml =>
        simp only [hg] at hr
        split at hr
        · simp at hr
        · simp at hr
        · rename_i conf hconf
          split at hr
          · simp at hr
          · rename_i added hadd
            simp only [Prod.mk.injEq, Result.ok.injEq] at hr
            obtain ⟨hdir, hm'⟩ := hr
            refine ⟨ml, _, conf, added, rfl, getMill_some_ID hg, ?_, hadd, ?_⟩
            · rw [← hm']; simp [Mobile.log]
            · rw [← hdir]; simp [Directory.set]

/-- Witness for `single_mill_one_entry`: the example node whose thread has the
blob mill and, besides, the two links of the two-step schema. -/
theorem single_mill_one_entry_witness :
    ∃ mil settings conf added,
      getMill "/blob" [] = .ok (some mil) ∧ mil.ID = "/blob" ∧
      (buildDirectory demoMobileEnv (mobileWith (schemaOf "/blob" [] twoStepSchema.Links))
          (some [1, 2, 3]) "" "thread1").2.calls =
        [] ++ [MCall.getFileConfig (some mil) settings, MCall.addFileIndex (some mil) conf] ∧
      demoMobileEnv.AddFileIndex
        ((mobileWith (schemaOf "/blob" [] twoStepSchema.Links)).log
          (MCall.getFileConfig (some mil) settings)) (some mil) conf = .ok added ∧
      (Directory.mk [(":single",
        { Mill := "/blob", Checksum := "sum-original", Hash := "QmOriginal",
          Media := "image/png", Name := "cat.png", Meta := none })]).Files =
        [(demoMobileEnv.SingleFileTag, added)] :=
  single_mill_one_entry demoMobileEnv (mobileWith (schemaOf "/blob" [] twoStepSchema.Links)) _
    (some [1, 2, 3]) "" "thread1" _ (schemaOf "/blob" [] twoStepSchema.Links) _
    rfl rfl (Or.inl rfl) rfl

/-! ## Lemmas on `getFileConfig` and the step loop -/

/-- A configuration is returned only for a transformer that is not nil, from a
reader that can be read to the end; its input, name and `Use` are those of the
source. -/
theorem getFileConfig_ok {env : MobileEnv} {m : Mobile} {mil : Option Mill}
    {settings : fileConfigSettings} {conf : AddFileConfig}
    (h : getFileConfig env m mil settings = .ok conf) :
    ∃ reader name use ml,
      configSource env m settings = .ok (reader, name, use) ∧ mil = some ml ∧
      conf.Input = reader.data ∧ conf.Use = use ∧ conf.Name = name ∧
      conf.Plaintext = settings.Plaintext := by
  unfold getFileConfig at h
  split at h
  · simp at h
  · rename_i reader name use hsrc
    split at h
    · simp at h
    · rename_i ml
      split at h
      · simp at h
      · split at h
        · simp at h
        · rename_i input hread
          simp only [Result.ok.injEq] at h
          subst h
          refine ⟨reader, name, use, ml, hsrc, rfl, ?_, rfl, rfl, rfl⟩
          unfold ReadAll at hread
          split at hread
          · simp at hread
          · simp only [Except.ok.injEq] at hread
            exact hread.symm

/-- A nil transformer never yields a configuration. -/
theorem getFileConfig_nil (env : MobileEnv) (m : Mobile) (settings : fileConfigSettings) :
    (∃ e, getFileConfig env m none settings = .err e) ∨
    (∃ s, getFileConfig env m none settings = .panic s) := by
  unfold getFileConfig
  split
  · exact Or.inl ⟨_, rfl⟩
  · exact Or.inr ⟨_, rfl⟩

/-- The step loop only appends to the call log. -/
theorem buildSteps_calls (env : MobileEnv) (data : Option Bytes) (path use : String)
    (steps : List Step) :
    ∀ (m : Mobile) (dir : Directory),
      ∃ cs, (buildSteps env data path use m dir steps).2.calls = m.calls ++ cs ∧
        (buildSteps env data path use m dir steps).2.started = m.started ∧
        (buildSteps env data path use m dir steps).2.threads = m.threads := by
  induction steps with
  | nil =>
    intro m dir
    exact ⟨[], by simp [buildSteps]⟩
  | cons step rest ih =>
    intro m dir
    simp only [buildSteps]
    split
    · exact ⟨[], by simp⟩
    · rename_i mil _
      split
      · exact ⟨[], by simp⟩
      · rename_i settings _
        split
        · exact ⟨[MCall.getFileConfig mil settings], by simp [Mobile.log]⟩
        · exact ⟨[MCall.getFileConfig mil settings], by simp [Mobile.log]⟩
        · rename_i conf _
          split
          · exact ⟨[MCall.getFileConfig mil settings, MCall.addFileIndex mil conf],
              by simp [Mobile.log]⟩
          · rename_i added _
            obtain ⟨cs, h1, h2, h3⟩ := ih
              ((m.log (MCall.getFileConfig mil settings)).log (MCall.addFileIndex mil conf))
              (dir.set step.Name added)
            refine ⟨MCall.getFileConfig mil settings :: MCall.addFileIndex mil conf :: cs,
              ?_, ?_, ?_⟩
            · rw [h1]; simp [Mobile.log]
            · rw [h2]; rfl
            · rw [h3]; rfl

/-- The step loop over `pre ++ rest` is the loop over `pre` followed, when
that succeeds, by the loop over `rest` from the state and directory it left. -/
theorem buildSteps_append (env : MobileEnv) (data : Option Bytes) (path use : String)
    (pre rest : List Step) :
    ∀ (m m1 : Mobile) (dir dir1 : Directory),
      buildSteps env data path use m dir pre = (.ok dir1, m1) →
      buildSteps env data path use m dir (pre ++ rest) =
        buildSteps env data path use m1 dir1 rest := by
  induction pre with
  | nil =>
    intro m m1 dir dir1 h
    simp only [buildSteps, Prod.mk.injEq, Result.ok.injEq] at h
    obtain ⟨rfl, rfl⟩ := h
    rfl
  | cons step pre ih =>
    intro m m1 dir dir1 h
    simp only [buildSteps, List.cons_append] at h ⊢
    cases hg : getMill step.Link.Mill step.Link.Opts with
    | error e => simp [hg] at h
    | ok mil =>
      simp only [hg] at h ⊢
      cases hset : stepSettings env dir data path use step with
      | error e => simp [hset] at h
      | ok settings =>
        simp only [hset] at h ⊢
        cases hconf : getFileConfig env m mil settings with
        | err e => simp [hconf] at h
        | panic s => simp [hconf] at h
        | ok conf =>
          simp only [hconf] at h ⊢
          cases hadd : env.AddFileIndex (m.log (MCall.getFileConfig mil settings)) mil conf with
          | error e => simp [hadd] at h
          | ok added =>
            simp only [hadd] at h ⊢
            exact ih _ _ _ _ h

/-- What the step loop does at its first step once the step's mill and
settings are accepted: it requests the configuration, and once the
configuration is built it runs the transformer on it. -/
theorem buildSteps_first_calls (env : MobileEnv) (data : Option Bytes) (path use : String)
    (m : Mobile) (dir : Directory) (step : Step) (rest : List Step) (mil : Option Mill)
    (settings : fileConfigSettings)
    (hmil : getMill step.Link.Mill step.Link.Opts = .ok mil)
    (hset : stepSettings env dir data path use step = .ok settings) :
    (∃ cs, (buildSteps env data path use m dir (step :: rest)).2.calls =
      m.calls ++ MCall.getFileConfig mil settings :: cs) ∧
    (∀ conf, getFileConfig env m mil settings = .ok conf →
      ∃ cs, (buildSteps env data path use m dir (step :: rest)).2.calls =
        m.calls ++ MCall.getFileConfig mil settings :: MCall.addFileIndex mil conf :: cs) := by
  have key : ∀ conf, getFileConfig env m mil settings = .ok conf →
      ∃ cs, (buildSteps env data path use m dir (step :: rest)).2.calls =
        m.calls ++ MCall.getFileConfig mil settings :: MCall.addFileIndex mil conf :: cs := by
    intro conf hconf
    simp only [buildSteps, hmil, hset, hconf]
    split
    · exact ⟨[], by simp [Mobile.log]⟩
    · rename_i added _
      obtain ⟨cs, h1, _⟩ := buildSteps_calls env data path use rest
        ((m.log (MCall.getFileConfig mil settings)).log (MCall.addFileIndex mil conf))
        (dir.set step.Name added)
      exact ⟨cs, by rw [h1]; simp [Mobile.log]⟩
  refine ⟨?_, key⟩
  cases hconf : getFileConfig env m mil settings with
  | ok conf =>
    obtain ⟨cs, h⟩ := key conf hconf
    exact ⟨_, h⟩
  | err e =>
    simp only [buildSteps, hmil, hset, hconf]
    exact ⟨[], by simp [Mobile.log]⟩
  | panic s =>
    simp only [buildSteps, hmil, hset, hconf]
    exact ⟨[], by simp [Mobile.log]⟩

/-- A configuration is built whenever the source is found, the media type is
determined and the reader can be read to the end: it carries the bytes of the
reader and the name and `Use` of the source. -/
theorem getFileConfig_build {env : MobileEnv} {m : Mobile} {ml : Mill}
    {settings : fileConfigSettings} {reader : Reader} {name use media : String}
    (hsrc : configSource env m settings = .ok (reader, name, use))
    (hmedia : (if ml.ID = "/json" then Except.ok "application/json"
      else env.GetMedia m reader ml) = .ok media)
    (hread : reader.fails = none) :
    getFileConfig env m (some ml) settings =
      .ok { Input := reader.data, Use := use, Media := media, Name := name,
            Plaintext := settings.Plaintext } := by
  unfold getFileConfig
  simp only [hsrc, hmedia, ReadAll, hread]

/-! ## C16: the effective input of a step -/

/-- C16: at a step of the step loop whose mill is accepted by `getMill`.  When
the step's `use` names another step whose produced file is stored in the
directory (with a content hash, which is never empty), `buildDirectory`
requests the configuration with that file's hash as `Use`, next to the
caller's data and path; a configuration built for it comes from the file
stored under that hash: its input bytes are that file's data, its `Use` is
that file's checksum and its name is that file's name, and it is what the
transformer is run on.  When the step's `use` is the file tag, the
configuration is requested with the `use` of the caller's input, and its input
bytes are the caller's data, or the content of the file at the caller's path,
or the file stored under the hash the path refers to.  The configuration is
built: for a step that uses another step, whenever the file store returns the
file under that hash, its reader can be read to the end and the media type is
determined, `getFileConfig` returns the configuration with that file's data,
checksum and name, and the transformer is run on it; for a step that uses the
file tag with caller's data, it returns the configuration with that data, no
`Use` and no name. -/
theorem step_effective_input (env : MobileEnv) (m : Mobile) (dir : Directory)
    (data : Option Bytes) (path : String) (step : Step) (rest : List Step)
    (mil : Option Mill) (hmil : getMill step.Link.Mill step.Link.Opts = .ok mil) :
    (∀ f, step.Link.Use ≠ env.FileTag → dir.get step.Link.Use = some f → f.Hash ≠ "" →
      (∃ cs, (buildSteps env data path (inputUse env data path) m dir (step :: rest)).2.calls =
        m.calls ++ MCall.getFileConfig mil
          { Use := f.Hash, Data := data, Path := path, Plaintext := step.Link.Plaintext } ::
            cs) ∧
      ∀ conf, getFileConfig env m mil
          { Use := f.Hash, Data := data, Path := path, Plaintext := step.Link.Plaintext } =
            .ok conf →
        (∃ cs,
          (buildSteps env data path (inputUse env data path) m dir (step :: rest)).2.calls =
            m.calls ++ MCall.getFileConfig mil
              { Use := f.Hash, Data := data, Path := path,
                Plaintext := step.Link.Plaintext } ::
              MCall.addFileIndex mil conf :: cs) ∧
        ∃ reader file, env.FileData m f.Hash = .ok (reader, file) ∧
          conf.Input = reader.data ∧ conf.Use = file.Checksum ∧ conf.Name = file.Name) ∧
    (step.Link.Use = env.FileTag →
      (∃ cs, (buildSteps env data path (inputUse env data path) m dir (step :: rest)).2.calls =
        m.calls ++ MCall.getFileConfig mil
          { Use := inputUse env data path, Data := data, Path := path,
            Plaintext := step.Link.Plaintext } :: cs) ∧
      ∀ conf, getFileConfig env m mil
          { Use := inputUse env data path, Data := data, Path := path,
            Plaintext := step.Link.Plaintext } = .ok conf →
        (∀ d, data = some d → conf.Input = d) ∧
        (data = none → inputUse env data path = "" →
          ∃ f, env.Open m path = .ok f ∧ conf.Input = f.data ∧ conf.Name = lastPart path) ∧
        (data = none → inputUse env data path ≠ "" →
          ∃ reader file, env.FileData m (inputUse env data path) = .ok (reader, file) ∧
            conf.Input = reader.data)) ∧
    (∀ f ml reader file media, step.Link.Use ≠ env.FileTag →
      dir.get step.Link.Use = some f → f.Hash ≠ "" → mil = some ml →
      env.FileData m f.Hash = .ok (reader, file) → reader.fails = none →
      (if ml.ID = "/json" then Except.ok "application/json"
        else env.GetMedia m reader ml) = .ok media →
      getFileConfig env m mil
          { Use := f.Hash, Data := data, Path := path, Plaintext := step.Link.Plaintext } =
        .ok { Input := reader.data, Use := file.Checksum, Media := media, Name := file.Name,
              Plaintext := step.Link.Plaintext } ∧
      ∃ cs, (buildSteps env data path (inputUse env data path) m dir (step :: rest)).2.calls =
        m.calls ++ MCall.getFileConfig mil
          { Use := f.Hash, Data := data, Path := path, Plaintext := step.Link.Plaintext } ::
          MCall.addFileIndex mil
            { Input := reader.data, Use := file.Checksum, Media := media, Name := file.Name,
              Plaintext := step.Link.Plaintext } :: cs) ∧
    (∀ d ml media, step.Link.Use = env.FileTag → data = some d → mil = some ml →
      (if ml.ID = "/json" then Except.ok "application/json"
        else env.GetMedia m { data := d, fails := none } ml) = .ok media →
      getFileConfig env m mil
          { Use := inputUse env data path, Data := data, Path := path,
            Plaintext := step.Link.Plaintext } =
        .ok { Input := d, Use := "", Media := media, Name := "",
              Plaintext := step.Link.Plaintext } ∧
      ∃ cs, (buildSteps env data path (inputUse env data path) m dir (step :: rest)).2.calls =
        m.calls ++ MCall.getFileConfig mil
          { Use := inputUse env data path, Data := data, Path := path,
            Plaintext := step.Link.Plaintext } ::
          MCall.addFileIndex mil
            { Input := d, Use := "", Media := media, Name := "",
              Plaintext := step.Link.Plaintext } :: cs) := by
  refine ⟨?_, ?_, ?_, ?_⟩
  · intro f huse hget hhash
    have hset : stepSettings env dir data path (inputUse env data path) step =
        .ok { Use := f.Hash, Data := data, Path := path,
              Plaintext := step.Link.Plaintext } := by
      simp [stepSettings, huse, hget]
    obtain ⟨h1, h2⟩ := buildSteps_first_calls env data path (inputUse env data path) m dir
      step rest mil _ hmil hset
    refine ⟨h1, ?_⟩
    intro conf hconf
    refine ⟨h2 conf hconf, ?_⟩
    obtain ⟨reader, name, use, ml, hsrc, _, hin, huse2, hname, _⟩ := getFileConfig_ok hconf
    simp only [configSource, hhash, if_false] at hsrc
    cases hfd : env.FileData m f.Hash with
    | error e => simp [hfd] at hsrc
    | ok p =>
      obtain ⟨reader1, file⟩ := p
      simp only [hfd, Except.ok.injEq, Prod.mk.injEq] at hsrc
      obtain ⟨rfl, rfl, rfl⟩ := hsrc
      exact ⟨reader1, file, rfl, hin, huse2, hname⟩
  · intro huse
    have hset : stepSettings env dir data path (inputUse env data path) step =
        .ok { Use := inputUse env data path, Data := data, Path := path,
              Plaintext := step.Link.Plaintext } := by
      simp [stepSettings, huse]
    obtain ⟨h1, _⟩ := buildSteps_first_calls env data path (inputUse env data path) m dir
      step rest mil _ hmil hset
    refine ⟨h1, ?_⟩
    intro conf hconf
    obtain ⟨reader, name, use, ml, hsrc, _, hin, _, hname, _⟩ := getFileConfig_ok hconf
    refine ⟨?_, ?_, ?_⟩
    · intro d hd
      subst hd
      simp only [configSource, inputUse, if_true, Except.ok.injEq, Prod.mk.injEq] at hsrc
      rw [hin, ← hsrc.1]
    · intro hd hu
      subst hd
      simp only [configSource, hu, if_true] at hsrc
      cases hop : env.Open m path with
      | error e => simp [hop] at hsrc
      | ok f =>
        simp only [hop, Except.ok.injEq, Prod.mk.injEq] at hsrc
        obtain ⟨rfl, rfl, _⟩ := hsrc
        exact ⟨f, rfl, hin, hname⟩
    · intro _ hu
      simp only [configSource, hu, if_false] at hsrc
      cases hfd : env.FileData m (inputUse env data path) with
      | error e => simp [hfd] at hsrc
      | ok p =>
        obtain ⟨reader1, file⟩ := p
        simp only [hfd, Except.ok.injEq, Prod.mk.injEq] at hsrc
        obtain ⟨rfl, _, _⟩ := hsrc
        exact ⟨reader1, file, rfl, hin⟩
  · intro f ml reader file media huse hget hhash hml hfd hread hmedia
    subst hml
    have hset : stepSettings env dir data path (inputUse env data path) step =
        .ok { Use := f.Hash, Data := data, Path := path,
              Plaintext := step.Link.Plaintext } := by
      simp [stepSettings, huse, hget]
    have hsrc : configSource env m
        { Use := f.Hash, Data := data, Path := path, Plaintext := step.Link.Plaintext } =
        .ok (reader, file.Name, file.Checksum) := by
      simp [configSource, hhash, hfd]
    have hconf := getFileConfig_build hsrc hmedia hread
    exact ⟨hconf, (buildSteps_first_calls env data path (inputUse env data path) m dir
      step rest (some ml) _ hmil hset).2 _ hconf⟩
  · intro d ml media huse hd hml hmedia
    subst hml hd
    have hset : stepSettings env dir (some d) path (inputUse env (some d) path) step =
        .ok { Use := inputUse env (some d) path, Data := some d, Path := path,
              Plaintext := step.Link.Plaintext } := by
      simp [stepSettings, huse]
    have hsrc : configSource env m
        { Use := inputUse env (some d) path, Data := some d, Path := path,
          Plaintext := step.Link.Plaintext } =
        .ok ({ data := d, fails := none }, "", "") := by
      simp [configSource, inputUse]
    have hconf := getFileConfig_build hsrc hmedia rfl
    exact ⟨hconf, (buildSteps_first_calls env (some d) path (inputUse env (some d) path) m dir
      step rest (some ml) _ hmil hset).2 _ hconf⟩

/-- Witness for `step_effective_input`: the step `thumb` of the two-step
schema, reached with the file `QmOriginal` stored under `original` and the
caller's data `[1, 2, 3]`.  The configuration built for it holds the bytes
`[7, 8, 9]` stored under `QmOriginal`, that file's checksum and its name, and
the transformer is run on it. -/
theorem step_effective_input_witness :
    getFileConfig demoMobileEnv (mobileWith twoStepSchema)
        (some (Mill.ImageResize { Width := "50", Quality := "75" }))
        { Use := "QmOriginal", Data := some [1, 2, 3], Path := "", Plaintext := false } =
      .ok { Input := [7, 8, 9], Use := "sum-original", Media := "image/png",
            Name := "cat.png", Plaintext := false } ∧
    ∃ cs, (buildSteps demoMobileEnv (some [1, 2, 3]) ""
        (inputUse demoMobileEnv (some [1, 2, 3]) "") (mobileWith twoStepSchema)
        { Files := [("original",
            { Mill := "/blob", Checksum := "sum-original", Hash := "QmOriginal",
              Media := "image/png", Name := "cat.png", Meta := none })] }
        [{ Name := "thumb",
           Link := { Use := "original", Plaintext := false, Mill := "/image/resize",
                     Opts := [("width", "50")] } }]).2.calls =
      (mobileWith twoStepSchema).calls ++ MCall.getFileConfig
        (some (Mill.ImageResize { Width := "50", Quality := "75" }))
        { Use := "QmOriginal", Data := some [1, 2, 3], Path := "", Plaintext := false } ::
        MCall.addFileIndex (some (Mill.ImageResize { Width := "50", Quality := "75" }))
          { Input := [7, 8, 9], Use := "sum-original", Media := "image/png",
            Name := "cat.png", Plaintext := false } :: cs :=
  (step_effective_input demoMobileEnv (mobileWith twoStepSchema)
    { Files := [("original",
        { Mill := "/blob", Checksum := "sum-original", Hash := "QmOriginal",
          Media := "image/png", Name := "cat.png", Meta := none })] }
    (some [1, 2, 3]) ""
    { Name := "thumb",
      Link := { Use := "original", Plaintext := false, Mill := "/image/resize",
                Opts := [("width", "50")] } }
    [] (some (Mill.ImageResize { Width := "50", Quality := "75" })) rfl).2.2.1
    { Mill := "/blob", Checksum := "sum-original", Hash := "QmOriginal",
      Media := "image/png", Name := "cat.png", Meta := none }
    (Mill.ImageResize { Width := "50", Quality := "75" })
    { data := [7, 8, 9], fails := none }
    { Mill := "/blob", Checksum := "sum-original", Hash := "QmOriginal",
      Media := "image/png", Name := "cat.png", Meta := none }
    "image/png" (by decide) rfl (by decide) rfl rfl rfl rfl

/-! ## C17: a step whose input was not produced -/

/-- C17 (as stated) fails: the only step of the schema uses the step
`original`, for which no file is stored, and is not the file tag, yet
`buildDirectory` does not fail with `original not found`: the step's mill is
`/image/resize` without a width, and the error of `getMill`, which is checked
first, is returned. -/
theorem buildDirectory_orphan_step_missing_width :
    demoMobileEnv.Steps orphanStepSchema.Links =
      .ok [{ Name := "thumb",
             Link := { Use := "original", Plaintext := false, Mill := "/image/resize",
                       Opts := [] } }] ∧
    "original" ≠ demoMobileEnv.FileTag ∧
    (Directory.mk []).get "original" = none ∧
    buildDirectory demoMobileEnv (mobileWith orphanStepSchema) (some [1, 2, 3]) "" "thread1" =
      (.err (Err.other "missing width"), mobileWith orphanStepSchema) ∧
    Err.other "missing width" ≠ Err.other (demoMobileEnv.Sprintf ("original" ++ " not found")) :=
  ⟨rfl, by decide, rfl, rfl, by decide⟩

/-- C17 (amended): for every ordered step list returned by step resolution,
when `buildDirectory` reaches a step whose `use` is not the file tag and names
a step for which no file is stored in the directory, it returns no directory
and runs no transformer for that step or any later one: the node is left as
it was when the step was reached.  The error is `<name> not found` (the text
`fmt.Errorf` renders for it) when `getMill` accepts the step's mill and
options, and the error of `getMill` otherwise, which is checked first. -/
theorem missing_step_output (env : MobileEnv) (m m1 : Mobile) (data : Option Bytes)
    (path threadId : String) (thrd : Thread) (schema : Schema)
    (pre : List Step) (step : Step) (rest : List Step) (dir1 : Directory)
    (hstart : m.started = true)
    (hthr : m.threads.lookup threadId = some thrd)
    (hs : thrd.schema = some schema)
    (hnomill : getMill schema.Mill schema.Opts = .ok none)
    (hlinks : schema.Links.length > 0)
    (hsteps : env.Steps schema.Links = .ok (pre ++ step :: rest))
    (hpre : buildSteps env data path (inputUse env data path) m { Files := [] } pre =
      (.ok dir1, m1))
    (huse : step.Link.Use ≠ env.FileTag)
    (hmissing : dir1.get step.Link.Use = none) :
    (∀ mil, getMill step.Link.Mill step.Link.Opts = .ok mil →
      buildDirectory env m data path threadId =
        (.err (Err.other (env.Sprintf (step.Link.Use ++ " not found"))), m1)) ∧
    (∀ e, getMill step.Link.Mill step.Link.Opts = .error e →
      buildDirectory env m data path threadId = (.err e, m1)) := by
  have hb : buildDirectory env m data path threadId =
      buildSteps env data path (inputUse env data path) m1 dir1 (step :: rest) := by
    simp only [buildDirectory, hstart, hthr, hs, hnomill, hlinks, hsteps]
    simp only [Bool.true_eq_false, if_false, if_true]
    exact buildSteps_append env data path _ pre (step :: rest) _ _ _ _ hpre
  constructor
  · intro mil hmil
    rw [hb]
    simp [buildSteps, hmil, stepSettings, huse, hmissing]
  · intro e hmil
    rw [hb]
    simp [buildSteps, hmil]

/-- Witness for `missing_step_output`: a schema whose only step resizes, with
a width, the output of a step that does not exist. -/
theorem missing_step_output_witness :
    buildDirectory demoMobileEnv (mobileWith orphanResizeSchema) (some [1, 2, 3]) ""
        "thread1" =
      (.err (Err.other "original not found"), mobileWith orphanResizeSchema) :=
  (missing_step_output demoMobileEnv (mobileWith orphanResizeSchema)
    (mobileWith orphanResizeSchema) (some [1, 2, 3]) "" "thread1"
    { demoThread with schema := some orphanResizeSchema } orphanResizeSchema
    [] { Name := "thumb",
         Link := { Use := "original", Plaintext := false, Mill := "/image/resize",
                   Opts := [("width", "50")] } } [] { Files := [] }
    rfl rfl rfl rfl (by decide) rfl rfl (by decide) rfl).1
    (some (Mill.ImageResize { Width := "50", Quality := "75" })) rfl

/-! ## C18: a step with an unknown mill -/

/-- C18 (code evaluated at the failing input): the only step of the schema has
the mill `/video`, for which `getMill` returns no transformer and no error.
`buildDirectory` on three bytes of data does not return an error: it hands the
nil transformer to `getFileConfig`, where the method call `mil.ID()` on it
ends the call in a run-time panic. -/
theorem buildDirectory_unknown_step_mill_panics :
    getMill "/video" [] = .ok none ∧
    buildDirectory demoMobileEnv (mobileWith unknownMillSchema) (some [1, 2, 3]) ""
        "thread1" =
      (.panic "invalid memory address or nil pointer dereference",
        (mobileWith unknownMillSchema).log (MCall.getFileConfig none
          { Use := "", Data := some [1, 2, 3], Path := "", Plaintext := false })) :=
  ⟨rfl, rfl⟩

/-! ## Lemmas on the image selection -/

/-- When the collecting loop runs to its end, the images are those behind the
links, in link order, after the ones it started with. -/
theorem collectImages_ok (env : MobileEnv) (m : Mobile) (links : List Link) :
    ∀ (acc imgs : List img), collectImages env m acc links = .ok imgs →
      imgs = acc ++ links.filterMap (linkImage env m) := by
  induction links with
  | nil =>
    intro acc imgs h
    simp only [collectImages, Except.ok.injEq] at h
    simp [h]
  | cons link rest ih =>
    intro acc imgs h
    simp only [collectImages] at h
    simp only [List.filterMap_cons, linkImage]
    cases hn : env.NodeAtLink m link with
    | error e =>
      simp only [hn] at h
      split at h <;> simp at h
    | ok nd =>
      simp only [hn] at h ⊢
      cases hl : env.LinkByName nd.Links with
      | none =>
        simp only [hl] at h ⊢
        exact ih _ _ h
      | some dlink =>
        simp only [hl] at h ⊢
        cases hf : env.FileIndex m dlink.Cid.Hash.B58String with
        | error e =>
          simp only [hf] at h
          split at h <;> simp at h
        | ok file =>
          simp only [hf] at h ⊢
          by_cases hm : file.Mill = "/image/resize"
          · simp only [hm, if_true] at h ⊢
            cases hmeta : file.Meta with
            | none => simp [hmeta] at h
            | some fields =>
              simp only [hmeta] at h ⊢
              cases hw : fields.lookup "width" with
              | none =>
                simp only [hw] at h
                simp only [Option.map_none']
                exact ih _ _ h
              | some w =>
                simp only [hw] at h
                simp only [Option.map_some']
                rw [ih _ _ h]
                simp
          · simp only [hm, if_false] at h ⊢
            exact ih _ _ h

theorem sorted_imgs (imgs : List img) :
    (imgs.insertionSort (fun a b => a.width ≤ b.width)).Pairwise
      (fun a b => a.width ≤ b.width) := by
  haveI : IsTotal img (fun a b => a.width ≤ b.width) := ⟨fun a b => Int.le_total _ _⟩
  haveI : IsTrans img (fun a b => a.width ≤ b.width) := ⟨fun a b c => Int.le_trans⟩
  exact List.sorted_insertionSort (fun a b : img => a.width ≤ b.width) imgs

theorem filter_width_sorted (imgs : List img) (w : Int) :
    (imgs.insertionSort (fun a b => a.width ≤ b.width)).filter (fun i => decide (i.width = w)) =
      imgs.filter (fun i => decide (i.width = w)) := by
  have hsub : List.Sublist (imgs.filter (fun i => decide (i.width = w)))
      (imgs.insertionSort (fun a b => a.width ≤ b.width)) := by
    apply List.sublist_insertionSort
    · rw [List.pairwise_iff_forall_sublist]
      intro a b hab
      have ha := hab.subset (List.mem_cons_self a [b])
      have hb := hab.subset (List.mem_cons_of_mem a (List.mem_singleton_self b))
      simp only [List.mem_filter, decide_eq_true_eq] at ha hb
      rw [ha.2, hb.2]
    · exact List.filter_sublist _
  have hsub2 := hsub.filter (fun i => decide (i.width = w))
  rw [List.filter_filter] at hsub2
  simp only [Bool.and_self] at hsub2
  have hlen := ((List.perm_insertionSort (fun a b : img => a.width ≤ b.width) imgs).filter
    (fun i => decide (i.width = w))).length_eq
  exact (hsub2.eq_of_length hlen.symm).symm

theorem selectHash_at_least (imgs : List img) (minWidth : Int)
    (hne : ∀ i ∈ imgs, i.hash ≠ "") (hex : ∃ i ∈ imgs, i.width ≥ minWidth) :
    ∃ x ∈ imgs, selectHash imgs minWidth = x.hash ∧ x.width ≥ minWidth ∧
      (∀ y ∈ imgs, y.width ≥ minWidth → x.width ≤ y.width) ∧
      imgs.find? (fun i => decide (i.width = x.width)) = some x := by
  obtain ⟨i, hi, hiw⟩ := hex
  have hmem : ∀ a, a ∈ imgs.insertionSort (fun a b => a.width ≤ b.width) ↔ a ∈ imgs :=
    fun a => (List.perm_insertionSort _ imgs).mem_iff
  cases hf : (imgs.insertionSort (fun a b => a.width ≤ b.width)).find?
      (fun i => decide (i.width ≥ minWidth)) with
  | none =>
    rw [List.find?_eq_none] at hf
    have := hf i ((hmem i).2 hi)
    simp at this
    omega
  | some x =>
    obtain ⟨hpx, l1, l2, hs, hl1⟩ := List.find?_eq_some.1 hf
    simp only [decide_eq_true_eq] at hpx
    have hxin : x ∈ imgs := (hmem x).1 (by rw [hs]; simp)
    have hsorted := sorted_imgs imgs
    rw [hs, List.pairwise_append] at hsorted
    obtain ⟨_, hx2, _⟩ := hsorted
    rw [List.pairwise_cons] at hx2
    refine ⟨x, hxin, ?_, hpx, ?_, ?_⟩
    · simp [selectHash, hf, hne x hxin]
    · intro y hy hyw
      have hy' := (hmem y).2 hy
      rw [hs] at hy'
      simp only [List.mem_append, List.mem_cons] at hy'
      rcases hy' with h | rfl | h
      · have := hl1 y h
        simp at this
        omega
      · exact Int.le_refl _
      · exact hx2.1 y h
    · have hfil := filter_width_sorted imgs x.width
      rw [hs] at hfil
      have h1 : l1.filter (fun i => decide (i.width = x.width)) = [] := by
        rw [List.filter_eq_nil_iff]
        intro a ha
        have := hl1 a ha
        simp at this
        simp
        omega
      rw [List.filter_append, h1, List.filter_cons] at hfil
      simp only [decide_True, if_true, List.nil_append] at hfil
      have : (imgs.filter (fun i => decide (i.width = x.width))).head? = some x := by
        rw [← hfil]; rfl
      rw [List.filter_head?] at this
      exact this

theorem selectHash_below (imgs : List img) (minWidth : Int)
    (hnil : imgs ≠ []) (hall : ∀ i ∈ imgs, i.width < minWidth) :
    ∃ x ∈ imgs, selectHash imgs minWidth = x.hash ∧ ∀ y ∈ imgs, y.width ≤ x.width := by
  have hmem : ∀ a, a ∈ imgs.insertionSort (fun a b => a.width ≤ b.width) ↔ a ∈ imgs :=
    fun a => (List.perm_insertionSort _ imgs).mem_iff
  have hf : (imgs.insertionSort (fun a b => a.width ≤ b.width)).find?
      (fun i => decide (i.width ≥ minWidth)) = none := by
    rw [List.find?_eq_none]
    intro a ha
    have := hall a ((hmem a).1 ha)
    simp
    omega
  have hsne : imgs.insertionSort (fun a b => a.width ≤ b.width) ≠ [] := by
    intro h
    have := (List.perm_insertionSort (fun a b : img => a.width ≤ b.width) imgs).length_eq
    rw [h] at this
    exact hnil (List.length_eq_zero.1 this.symm)
  cases hl : (imgs.insertionSort (fun a b => a.width ≤ b.width)).getLast? with
  | none => exact absurd (List.getLast?_eq_none_iff.1 hl) hsne
  | some x =>
    obtain ⟨ys, hs⟩ := List.getLast?_eq_some_iff.1 hl
    have hxin : x ∈ imgs := (hmem x).1 (by rw [hs]; simp)
    have hsorted := sorted_imgs imgs
    rw [hs, List.pairwise_append] at hsorted
    refine ⟨x, hxin, by simp [selectHash, hf, hl], ?_⟩
    intro y hy
    have hy' := (hmem y).2 hy
    rw [hs] at hy'
    simp only [List.mem_append, List.mem_singleton] at hy'
    rcases hy' with h | rfl
    · exact hsorted.2.2 y h x (by simp)
    · exact Int.le_refl _

/-! ## C19: the image chosen for a minimal width -/

/-- C19: on a started node, when the node at the path is found and the loop
over its links runs to its end, the images considered are the resize images
behind the links, in link order (content hashes are never empty).  If there is
none the result is the empty string with no error.  If some image is at least
`minWidth` wide, the result is the data url of one of those with the smallest
width, the first in link order among the images of that width.  If none is,
the result is the data url of an image of the largest width of all. -/
theorem ImageFileDataForMinWidth_selects (env : MobileEnv) (m : Mobile) (pth : String)
    (minWidth : Int) (node : IpldNode) (imgs : List img)
    (hstart : m.started = true)
    (hnode : env.NodeAtPath m pth = .ok node)
    (himgs : collectImages env m [] node.Links = .ok imgs)
    (hne : ∀ i ∈ imgs, i.hash ≠ "") :
    imgs = node.Links.filterMap (linkImage env m) ∧
    (imgs = [] → ImageFileDataForMinWidth env m pth minWidth = .ok "") ∧
    ((∃ i ∈ imgs, i.width ≥ minWidth) →
      ∃ x ∈ imgs, x.width ≥ minWidth ∧
        (∀ y ∈ imgs, y.width ≥ minWidth → x.width ≤ y.width) ∧
        imgs.find? (fun i => decide (i.width = x.width)) = some x ∧
        ImageFileDataForMinWidth env m pth minWidth = Mobile.FileData env m x.hash) ∧
    (imgs ≠ [] → (∀ i ∈ imgs, i.width < minWidth) →
      ∃ x ∈ imgs, (∀ y ∈ imgs, y.width ≤ x.width) ∧
        ImageFileDataForMinWidth env m pth minWidth = Mobile.FileData env m x.hash) := by
  have hrun : imgs ≠ [] → ImageFileDataForMinWidth env m pth minWidth =
      Mobile.FileData env m (selectHash imgs minWidth) := by
    intro hnil
    have : imgs.length ≠ 0 := fun h => hnil (List.length_eq_zero.1 h)
    simp [ImageFileDataForMinWidth, hstart, hnode, himgs, this]
  refine ⟨?_, ?_, ?_, ?_⟩
  · simpa using collectImages_ok env m node.Links [] imgs himgs
  · intro hnil
    simp [ImageFileDataForMinWidth, hstart, hnode, himgs, hnil]
  · intro hex
    obtain ⟨x, hx, hsel, hw, hmin, hfirst⟩ := selectHash_at_least imgs minWidth hne hex
    have hnil : imgs ≠ [] := by
      intro h
      rw [h] at hx
      simp at hx
    exact ⟨x, hx, hw, hmin, hfirst, by rw [hrun hnil, hsel]⟩
  · intro hnil hall
    obtain ⟨x, hx, hsel, hmax⟩ := selectHash_below imgs minWidth hnil hall
    exact ⟨x, hx, hmax, by rw [hrun hnil, hsel]⟩

/-- Witness for `ImageFileDataForMinWidth_selects`: the example node, whose
two links lead to resize images 100 and 800 wide, asked for width 200. -/
theorem ImageFileDataForMinWidth_selects_witness :
    ∃ x ∈ [({ hash := "QmSmall", width := 100 } : img), { hash := "QmLarge", width := 800 }],
      x.width ≥ 200 ∧
      (∀ y ∈ [({ hash := "QmSmall", width := 100 } : img), { hash := "QmLarge", width := 800 }],
        y.width ≥ 200 → x.width ≤ y.width) ∧
      [({ hash := "QmSmall", width := 100 } : img), { hash := "QmLarge", width := 800 }].find?
        (fun i => decide (i.width = x.width)) = some x ∧
      ImageFileDataForMinWidth demoMobileEnv (mobileWith twoStepSchema) "QmDir" 200 =
        Mobile.FileData demoMobileEnv (mobileWith twoStepSchema) x.hash :=
  (ImageFileDataForMinWidth_selects demoMobileEnv (mobileWith twoStepSchema) "QmDir" 200
    demoNode [{ hash := "QmSmall", width := 100 }, { hash := "QmLarge", width := 800 }]
    rfl rfl rfl (by decide)).2.2.1
    ⟨{ hash := "QmLarge", width := 800 }, by simp, by decide⟩

/-! ## Lemmas on the guard -/

/-- `AddFiles` only appends to the trace. -/
theorem AddFiles_trace_prefix (env : Env) (t : Thread) (node : IpldNode) (caption : String)
    (keys : List (String × String)) :
    t.trace <+: (AddFiles env t node caption keys).2.trace := by
  cases hs : t.schema with
  | none => simp [AddFiles, hs]
  | some schema =>
    cases hr : AddFiles env t node caption keys with
    | mk r t' =>
      obtain ⟨cs, _, hcases⟩ := AddFiles_cases hs hr
      dsimp only
      rcases hcases with ⟨e, _, _, h3⟩ | ⟨_, stored, tried, t3, ht3, _, hrest⟩
      · rw [h3]; simp
      · have h3 : t.trace <+: t3.trace := by rw [ht3]; simp [List.append_assoc]
        rcases hrest with ⟨e, p, _, _, h⟩ | ⟨_, _, hrest⟩
        · rw [h]; exact h3
        · rcases hrest with ⟨e, _, _, h⟩ | ⟨res, _, hrest⟩
          · rw [h]
            exact h3.trans (by simp [Thread.log])
          · rcases hrest with ⟨e, _, h⟩ | ⟨date, t5, ht5, hrest⟩
            · rw [h]
              exact h3.trans (by simp)
            · have h5 : t.trace <+: t5.trace := by
                rw [ht5]
                exact h3.trans (by simp)
              rcases hrest with ⟨e, _, _, h⟩ | ⟨_, t6, ht6, h, _⟩
              · rw [h]
                exact h5.trans (by simp [Thread.log])
              · rw [h, ht6]
                exact h5.trans (by simp [Thread.log])

/-- `handleFilesBlock` only appends side-effect calls and the indexing to the
trace, and leaves the head alone. -/
theorem handleFilesBlock_frame (env : Env) (t : Thread) (hash : Multihash)
    (block : ThreadBlock) :
    ∃ cs, (handleFilesBlock env t hash block).2.trace = t.trace ++ cs ∧
      (∀ c ∈ cs, Call.isBlockEffect c = true ∨ Call.isIndex c = true) ∧
      (handleFilesBlock env t hash block).2.head = t.head := by
  cases hm : env.unmarshalAny block.Payload with
  | error e => exact ⟨[], by simp [handleFilesBlock, hm]⟩
  | ok msg =>
    cases hs : t.schema with
    | none => exact ⟨[], by simp [handleFilesBlock, hm, hs]⟩
    | some schema =>
      cases hr : handleFilesBlock env t hash block with
      | mk r t' =>
        dsimp only
        rcases handleFilesBlock_cases hm hs hr with ⟨e, _, _, h⟩ | ⟨e, _, h2, _⟩ |
          ⟨ignore, t1, _, h2, h3⟩
        · exact ⟨[], by simp [h]⟩
        · obtain ⟨cs, htr, hall, _, hh, _⟩ := applyFilesBlock_frame h2
          refine ⟨Call.cidParse hash :: cs, htr, ?_, hh⟩
          intro c hc
          simp only [List.mem_cons] at hc
          rcases hc with rfl | hc
          · exact Or.inl rfl
          · exact Or.inl (hall c hc)
        · have ht1 : ∃ cs, t1.trace = t.trace ++ cs ∧
              (∀ c ∈ cs, Call.isBlockEffect c = true) ∧ t1.head = t.head := by
            rcases h2 with ⟨_, h2⟩ | ⟨_, h2⟩
            · exact ⟨[], by simp [h2]⟩
            · obtain ⟨cs, htr, hall, _, hh, _⟩ := applyFilesBlock_frame h2
              refine ⟨Call.cidParse hash :: cs, htr, ?_, hh⟩
              intro c hc
              simp only [List.mem_cons] at hc
              rcases hc with rfl | hc
              · rfl
              · exact hall c hc
          obtain ⟨cs, htr, hall, hh⟩ := ht1
          have hidx : ∀ c ∈ cs ++ [Call.indexBlock { hash := hash, header := block.Header }
              BlockType.FilesBlock msg.Target msg.Body],
              Call.isBlockEffect c = true ∨ Call.isIndex c = true := by
            intro c hc
            simp only [List.mem_append, List.mem_singleton] at hc
            rcases hc with hc | rfl
            · exact Or.inl (hall c hc)
            · exact Or.inr rfl
          rcases h3 with ⟨e, _, _, h⟩ | ⟨date, _, _, h⟩
          · exact ⟨_, by rw [h]; simp [Thread.log, htr], hidx, by rw [h]; exact hh⟩
          · exact ⟨_, by rw [h]; simp [htr], hidx, by rw [h]; exact hh⟩

/-! ## C11: the guard of the thread -/

/-- C11 (as stated) fails for `handleFilesBlock`: on the example thread whose
mutex is held by another operation, `handleFilesBlock` runs to its end and
returns the payload, having written the outbox, the key store and the index,
without any operation on the mutex. -/
theorem handleFilesBlock_takes_no_guard :
    heldThread.held = true ∧
    (handleFilesBlockGuarded demoEnv heldThread incomingHash demoBlock).1 =
      .ok { Target := "QmDir", Body := "caption", Keys := [("QmFile", "key1")] } ∧
    (handleFilesBlockGuarded demoEnv heldThread incomingHash demoBlock).2.muxLog = [] ∧
    (handleFilesBlockGuarded demoEnv heldThread incomingHash demoBlock).2.thread.blocks =
      [{ Id := "QmIn", Typ := BlockType.FilesBlock, Date := 50000000000, Target := "QmDir",
         Body := "caption" }] :=
  ⟨rfl, rfl, rfl, rfl⟩

/-- C11 (amended): the guard is held for the full duration of `AddFiles`.  On a
free mutex the call locks it before any collaborator call, runs the body, and
unlocks it after the last call, whatever the result, error returns included;
the mutex is free afterwards and the trace of the body extends the one at the
lock, so every commit and head update of the body lies between the lock and
the unlock.  On a held mutex the call does not get past `Lock`.
`handleFilesBlock` itself makes no operation on the mutex, whether it is held
or not, and makes no commit and no head update: the head is as before. -/
theorem guard_held_by_AddFiles (env : Env) (g : Guarded) :
    (∀ node caption keys, g.held = false →
      ∃ r g', AddFilesLocked env g node caption keys = some (r, g') ∧
        (r, g'.thread) = AddFiles env g.thread node caption keys ∧
        g'.held = false ∧
        g'.muxLog = g.muxLog ++
          [(MuxOp.Lock, g.thread.trace.length), (MuxOp.Unlock, g'.thread.trace.length)] ∧
        g.thread.trace <+: g'.thread.trace) ∧
    (∀ node caption keys, g.held = true → AddFilesLocked env g node caption keys = none) ∧
    (∀ hash block,
      (handleFilesBlockGuarded env g hash block).2.muxLog = g.muxLog ∧
      (handleFilesBlockGuarded env g hash block).2.held = g.held ∧
      (handleFilesBlockGuarded env g hash block).2.thread.head = g.thread.head ∧
      ∀ c ∈ callsSince g.thread (handleFilesBlockGuarded env g hash block).2.thread,
        Call.isCommit c = false ∧ Call.isUpdateHead c = false) := by
  refine ⟨?_, ?_, ?_⟩
  · intro node caption keys hfree
    refine ⟨_, _, by simp [AddFilesLocked, hfree]; exact ⟨rfl, rfl⟩, rfl, rfl, rfl, ?_⟩
    exact AddFiles_trace_prefix env g.thread node caption keys
  · intro node caption keys hheld
    simp [AddFilesLocked, hheld]
  · intro hash block
    obtain ⟨cs, htr, hall, hh⟩ := handleFilesBlock_frame env g.thread hash block
    refine ⟨rfl, rfl, hh, ?_⟩
    intro c hc
    have hcs : callsSince g.thread (handleFilesBlockGuarded env g hash block).2.thread = cs :=
      callsSince_of_trace htr
    rw [hcs] at hc
    rcases hall c hc with h | h
    · cases c <;> simp_all [Call.isBlockEffect, Call.isNodeLookup, Call.isLinkCall,
        Call.isOutboxAdd, Call.isKeyAdd, Call.isCommit, Call.isUpdateHead]
    · cases c <;> simp_all [Call.isIndex, Call.isCommit, Call.isUpdateHead]

/-- Witness for `guard_held_by_AddFiles`: the example node added to the example
thread with a free mutex, and with a held one. -/
theorem guard_held_by_AddFiles_witness :
    (∃ r g', AddFilesLocked demoEnv freeThread demoNode "hi" [("QmFile0", "k0")] =
        some (r, g') ∧
      (r, g'.thread) = AddFiles demoEnv freeThread.thread demoNode "hi" [("QmFile0", "k0")] ∧
      g'.held = false ∧
      g'.muxLog = freeThread.muxLog ++
        [(MuxOp.Lock, freeThread.thread.trace.length),
         (MuxOp.Unlock, g'.thread.trace.length)] ∧
      freeThread.thread.trace <+: g'.thread.trace) ∧
    AddFilesLocked demoEnv heldThread demoNode "hi" [("QmFile0", "k0")] = none :=
  ⟨(guard_held_by_AddFiles demoEnv freeThread).1 demoNode "hi" [("QmFile0", "k0")] rfl,
   (guard_held_by_AddFiles demoEnv heldThread).2.1 demoNode "hi" [("QmFile0", "k0")] rfl⟩

/-! ## C21: `ProtoTs` yields a normalised timestamp -/

/-- C21.  For every `int64` nanosecond count `n`, negative ones included,
`ProtoTs n` has `0 ≤ Nanos < 1000000000` and `Seconds` equal to the floor of
`n / 1000000000` (as a rational floor, and as the integer quotient that
rounds toward minus infinity); seconds and nanoseconds add up to `n`, and for
a negative `n` that is not a whole number of seconds the result is one less
than the quotient that rounds toward zero. -/
theorem ProtoTs_normalised (n : Int) (hlo : -9223372036854775808 ≤ n)
    (hhi : n ≤ 9223372036854775807) :
    0 ≤ (ProtoTs n).Nanos ∧ (ProtoTs n).Nanos < 1000000000 ∧
    (ProtoTs n).Seconds = ⌊(n : ℚ) / 1000000000⌋ ∧
    (ProtoTs n).Seconds = n / 1000000000 ∧
    n = (ProtoTs n).Seconds * 1000000000 + (ProtoTs n).Nanos ∧
    (n < 0 → n % 1000000000 ≠ 0 → (ProtoTs n).Seconds = Int.tdiv n 1000000000 - 1) := by
  have hfloor : ⌊(n : ℚ) / 1000000000⌋ = n / 1000000000 := by
    have := Rat.floor_intCast_div_natCast n 1000000000
    simpa using this
  rw [hfloor]
  obtain ⟨q, r, hq, hn, h1, h2, h3, h4⟩ := tdiv_nanos_bounds n
  unfold ProtoTs
  simp only [hq]
  split <;> simp only [wrap64, wrap32] at * <;> omega

/-- One nanosecond before the epoch is second `-1`, nanosecond `999999999`. -/
theorem ProtoTs_normalised_witness :
    (ProtoTs (-1)).Seconds = -1 ∧ (ProtoTs (-1)).Nanos = 999999999 ∧
    (ProtoTs (-1)).Seconds = (-1) / 1000000000 :=
  ⟨by decide, by decide, (ProtoTs_normalised (-1) (by decide) (by decide)).2.2.2.1⟩

/-! ## C23: `TrimQuotes` removes one enclosing pair of double quotes -/

theorem TrimQuotes_shape (s : String) :
    ∃ a b : Nat, a ≤ 1 ∧ b ≤ 1 ∧
      s.data = List.replicate a quote ++ (TrimQuotes s).data ++ List.replicate b quote ∧
      (a = 1 ↔ s.data.head? = some quote) ∧
      (b = 1 ↔ (s.data.drop a).getLast? = some quote) := by
  obtain ⟨l⟩ := s
  unfold TrimQuotes
  simp only
  by_cases h1 : l.length > 0 ∧ l.head? = some quote
  · obtain ⟨c, t, rfl⟩ : ∃ c t, l = c :: t := by
      cases l with
      | nil => simp at h1
      | cons c t => exact ⟨c, t, rfl⟩
    have hc : c = quote := by simpa using h1.2
    subst hc
    rw [if_pos h1]
    simp only [List.tail_cons]
    by_cases h2 : t.length > 0 ∧ t.getLast? = some quote
    · rw [if_pos h2]
      refine ⟨1, 1, le_refl _, le_refl _, ?_, by simp, by simpa using h2.2⟩
      have ht : t ≠ [] := by
        intro h
        simp [h] at h2
      have hl : t.getLast ht = quote := by
        have := h2.2
        rw [List.getLast?_eq_getLast _ ht] at this
        simpa using this
      simp only [List.replicate_one, List.singleton_append, List.cons.injEq, true_and]
      rw [← hl]
      simpa using (List.dropLast_append_getLast ht).symm
    · rw [if_neg h2]
      refine ⟨1, 0, le_refl _, Nat.zero_le _, by simp, by simp, ?_⟩
      constructor
      · intro h
        exact absurd h (by decide)
      · intro h
        exfalso
        apply h2
        simp only [List.drop_succ_cons, List.drop_zero] at h
        refine ⟨?_, h⟩
        cases t with
        | nil => simp at h
        | cons x xs => simp
  · rw [if_neg h1]
    have hhead : ¬ l.head? = some quote := by
      intro h
      apply h1
      refine ⟨?_, h⟩
      cases l with
      | nil => simp at h
      | cons x xs => simp
    by_cases h2 : l.length > 0 ∧ l.getLast? = some quote
    · rw [if_pos h2]
      refine ⟨0, 1, Nat.zero_le _, le_refl _, ?_, by simpa using hhead, by simpa using h2.2⟩
      have ht : l ≠ [] := by
        intro h
        simp [h] at h2
      have hl : l.getLast ht = quote := by
        have := h2.2
        rw [List.getLast?_eq_getLast _ ht] at this
        simpa using this
      simp only [List.replicate_zero, List.nil_append, List.replicate_one]
      rw [← hl]
      exact (List.dropLast_append_getLast ht).symm
    · rw [if_neg h2]
      refine ⟨0, 0, Nat.zero_le _, Nat.zero_le _, by simp, by simpa using hhead, ?_⟩
      constructor
      · intro h
        exact absurd h (by decide)
      · intro h
        exfalso
        apply h2
        simp only [List.drop_zero] at h
        refine ⟨?_, h⟩
        cases l with
        | nil => simp at h
        | cons x xs => simp

/-- C23.  `TrimQuotes` removes exactly one enclosing pair of double quotes.
For every string `s`, `TrimQuotes` of `s` put between two double quotes is
`s`.  For every `s`, the result is `s` without `a ≤ 1` leading and `b ≤ 1`
trailing double quotes, the leading one being removed exactly when `s` starts
with one and the trailing one exactly when what is left then ends with one.
A string that neither starts nor ends with a double quote comes back
unchanged, and so does the result through `UnmarshalString`.  The string
that is a single double quote is mapped to the empty string: the second
index expression is not evaluated on the empty rest. -/
theorem TrimQuotes_one_pair :
    (∀ s : String, TrimQuotes (String.mk (quote :: (s.data ++ [quote]))) = s) ∧
    (∀ s : String, ∃ a b : Nat, a ≤ 1 ∧ b ≤ 1 ∧
      s.data = List.replicate a quote ++ (TrimQuotes s).data ++ List.replicate b quote ∧
      (a = 1 ↔ s.data.head? = some quote) ∧
      (b = 1 ↔ (s.data.drop a).getLast? = some quote)) ∧
    (∀ s : String, s.data.head? ≠ some quote → s.data.getLast? ≠ some quote →
      TrimQuotes s = s ∧ UnmarshalString (.ok s) = .ok s) ∧
    TrimQuotes (String.mk [quote]) = "" ∧
    TrimQuotes (String.mk [quote, quote, 'a', quote, quote]) = String.mk [quote, 'a', quote] := by
  refine ⟨?_, TrimQuotes_shape, ?_, by decide, by decide⟩
  · intro s
    unfold TrimQuotes
    simp
  · intro s h1 h2
    have h : TrimQuotes s = s := by
      unfold TrimQuotes
      simp [h1, h2]
    exact ⟨h, by simp [UnmarshalString, h]⟩

/-- A plain word comes back unchanged. -/
theorem TrimQuotes_one_pair_witness :
    TrimQuotes "plain" = "plain" ∧ UnmarshalString (.ok "plain") = .ok "plain" :=
  TrimQuotes_one_pair.2.2.1 "plain" (by decide) (by decide)

/-! ## C22: `SplitString` -/

/-- A loop that appends the kept values is a filter of the mapped list. -/
theorem foldl_keep {α β : Type} (f : α → β) (p : β → Prop) [DecidablePred p]
    (l : List α) (acc : List β) :
    l.foldl (fun list s => if p (f s) then list ++ [f s] else list) acc
      = acc ++ (l.map f).filter (fun t => decide (p t)) := by
  induction l generalizing acc with
  | nil => simp
  | cons x xs ih =>
    simp only [List.foldl_cons, List.map_cons]
    rw [ih]
    by_cases h : p (f x)
    · simp [h, List.filter_cons]
    · simp [h, List.filter_cons]

/-- The loop of `SplitString` written as map and filter. -/
theorem SplitString_eq (input sep : String) :
    SplitString input sep = trimmedPieces input sep := by
  unfold SplitString trimmedPieces
  have := foldl_keep TrimSpace (fun t => t ≠ "") (Split input sep) []
  simpa using this

/-- What `dropWhile` leaves does not start with a dropped element. -/
theorem dropWhile_head_false {α : Type} (p : α → Bool) (l : List α) (c : α)
    (h : (l.dropWhile p).head? = some c) : p c = false := by
  induction l with
  | nil => simp at h
  | cons x xs ih =>
    by_cases hx : p x = true
    · rw [List.dropWhile_cons_of_pos hx] at h
      exact ih h
    · rw [List.dropWhile_cons_of_neg hx] at h
      simp at h
      subst h
      simpa using hx

/-- A trimmed text does not end with white space. -/
theorem trimSpaceChars_last (l : List Char) (c : Char)
    (h : (trimSpaceChars l).getLast? = some c) : isSpace c = false := by
  unfold trimSpaceChars at h
  rw [List.getLast?_reverse] at h
  exact dropWhile_head_false _ _ _ h

/-- A trimmed text does not start with white space. -/
theorem trimSpaceChars_head (l : List Char) (c : Char)
    (h : (trimSpaceChars l).head? = some c) : isSpace c = false := by
  unfold trimSpaceChars at h
  have hp : ((l.dropWhile isSpace).reverse.dropWhile isSpace).reverse <+: l.dropWhile isSpace := by
    have := List.dropWhile_suffix isSpace (l := (l.dropWhile isSpace).reverse)
    have := List.reverse_prefix.mpr this
    simpa using this
  obtain ⟨t, ht⟩ := hp
  apply dropWhile_head_false isSpace l c
  rw [← ht]
  cases hr : ((l.dropWhile isSpace).reverse.dropWhile isSpace).reverse with
  | nil => simp [hr] at h
  | cons x xs =>
    rw [hr] at h
    simpa using h

/-- White space alone is trimmed to nothing. -/
theorem trimSpaceChars_all_space (l : List Char) (h : ∀ c ∈ l, isSpace c = true) :
    trimSpaceChars l = [] := by
  unfold trimSpaceChars
  have : l.dropWhile isSpace = [] := by
    rw [List.dropWhile_eq_nil_iff]
    exact h
  simp [this]

/-- Every character of a piece comes from the piece in progress or from the
input. -/
theorem splitChars_mem (sep : List Char) (r : List Char) (skip : Nat) (piece : List Char) :
    ∀ p ∈ splitChars sep r skip piece, ∀ c ∈ p, c ∈ piece ∨ c ∈ r := by
  induction r generalizing skip piece with
  | nil =>
    intro p hp c hc
    simp only [splitChars, List.mem_singleton] at hp
    subst hp
    exact Or.inl hc
  | cons x xs ih =>
    intro p hp c hc
    cases skip with
    | succ k =>
      simp only [splitChars] at hp
      rcases ih k piece p hp c hc with h | h
      · exact Or.inl h
      · exact Or.inr (List.mem_cons_of_mem _ h)
    | zero =>
      simp only [splitChars] at hp
      split at hp
      · rcases List.mem_cons.mp hp with h | h
        · subst h
          exact Or.inl hc
        · rcases ih _ [] p h c hc with h | h
          · simp at h
          · exact Or.inr (List.mem_cons_of_mem _ h)
      · rcases ih _ _ p hp c hc with h | h
        · rcases List.mem_append.mp h with h | h
          · exact Or.inl h
          · simp only [List.mem_singleton] at h
            subst h
            exact Or.inr (List.mem_cons_self _ _)
        · exact Or.inr (List.mem_cons_of_mem _ h)

/-- A text of white space and separators is white space alone, or white space
followed by a separator and such a text. -/
theorem OnlySpaceAndSep_form (sep r : List Char) (h : OnlySpaceAndSep sep r) :
    (∀ c ∈ r, isSpace c = true) ∨
    ∃ w rest, (∀ c ∈ w, isSpace c = true) ∧ r = w ++ (sep ++ rest) ∧ OnlySpaceAndSep sep rest := by
  induction h with
  | done => exact Or.inl (by simp)
  | space c rest hc _ ih =>
    rcases ih with h | ⟨w, rest2, hw, hr, hrest⟩
    · left
      intro x hx
      rcases List.mem_cons.mp hx with h1 | h1
      · subst h1; exact hc
      · exact h x h1
    · right
      refine ⟨c :: w, rest2, ?_, by simp [hr], hrest⟩
      intro x hx
      rcases List.mem_cons.mp hx with h1 | h1
      · subst h1; exact hc
      · exact hw x h1
  | sep rest hrest _ => exact Or.inr ⟨[], rest, by simp, by simp, hrest⟩

/-- A text that starts again inside itself behind a non-empty run of `p`
characters consists of `p` characters. -/
theorem prefix_shift_all (p : Char → Prop) (w : List Char) (hw : w ≠ []) (hp : ∀ c ∈ w, p c) :
    ∀ (n : Nat) (s : List Char), s.length ≤ n → s <+: w ++ s → ∀ c ∈ s, p c := by
  intro n
  induction n with
  | zero =>
    intro s hn _ c hc
    have : s = [] := List.length_eq_zero.mp (Nat.le_zero.mp hn)
    simp [this] at hc
  | succ n ih =>
    intro s hn hpre c hc
    by_cases hlen : s.length ≤ w.length
    · have : s <+: w := List.prefix_of_prefix_length_le hpre (List.prefix_append w s) hlen
      exact hp c (this.subset hc)
    · have hws : w <+: s :=
        List.prefix_of_prefix_length_le (List.prefix_append w s) hpre (by omega)
      obtain ⟨s1, rfl⟩ := hws
      have h1 : s1 <+: w ++ s1 := by
        exact (List.prefix_append_right_inj w).mp hpre
      have hwl : 0 < w.length := List.length_pos.mpr hw
      have hlen1 : s1.length ≤ n := by
        simp only [List.length_append] at hn
        omega
      rcases List.mem_append.mp hc with h | h
      · exact hp c h
      · exact ih s1 hlen1 h1 c h

/-- Where the separator starts a text of white space and separators, what
follows it is such a text again (the separator not being white space alone). -/
theorem OnlySpaceAndSep_at_sep (sep r : List Char)
    (hns : ¬ ∀ c ∈ sep, isSpace c = true) (h : OnlySpaceAndSep sep r) (hpre : sep <+: r) :
    OnlySpaceAndSep sep (r.drop sep.length) := by
  rcases OnlySpaceAndSep_form sep r h with hall | ⟨w, rest, hw, hr, hrest⟩
  · exact absurd (fun c hc => hall c (hpre.subset hc)) hns
  · by_cases hwn : w = []
    · subst hwn
      simp only [List.nil_append] at hr
      rw [hr, List.drop_left]
      exact hrest
    · exfalso
      apply hns
      have h1 : sep <+: w ++ sep := by
        apply List.prefix_of_prefix_length_le hpre
        · rw [hr, ← List.append_assoc]
          exact List.prefix_append _ _
        · simp
      exact prefix_shift_all (fun c => isSpace c = true) w hwn hw sep.length sep (le_refl _) h1

/-- Where the separator does not start a text of white space and separators,
the text starts with white space. -/
theorem OnlySpaceAndSep_off_sep (sep : List Char) (c : Char) (cs : List Char)
    (h : OnlySpaceAndSep sep (c :: cs)) (hpre : ¬ sep <+: c :: cs) :
    isSpace c = true ∧ OnlySpaceAndSep sep cs := by
  generalize hr : c :: cs = r at h
  cases h with
  | done => simp at hr
  | space x rest hx hrest =>
    simp only [List.cons.injEq] at hr
    obtain ⟨rfl, rfl⟩ := hr
    exact ⟨hx, hrest⟩
  | sep rest hrest =>
    exfalso
    apply hpre
    rw [hr]
    exact List.prefix_append _ _

/-- The pieces of a text of white space and separators are white space. -/
theorem splitChars_only_space (sep : List Char) (hsep : sep ≠ [])
    (hns : ¬ ∀ c ∈ sep, isSpace c = true) (r : List Char) :
    ∀ (skip : Nat) (piece : List Char), skip ≤ r.length →
      OnlySpaceAndSep sep (r.drop skip) → (∀ c ∈ piece, isSpace c = true) →
      ∀ p ∈ splitChars sep r skip piece, ∀ c ∈ p, isSpace c = true := by
  induction r with
  | nil =>
    intro skip piece _ _ hpiece p hp
    simp only [splitChars, List.mem_singleton] at hp
    subst hp
    exact hpiece
  | cons x xs ih =>
    intro skip piece hskip hin hpiece p hp
    cases skip with
    | succ k =>
      simp only [splitChars] at hp
      simp only [List.drop_succ_cons] at hin
      simp only [List.length_cons] at hskip
      exact ih k piece (by omega) hin hpiece p hp
    | zero =>
      simp only [List.drop_zero] at hin
      simp only [splitChars] at hp
      split at hp
      · rename_i hpre
        have hpre1 : sep <+: x :: xs := List.isPrefixOf_iff_prefix.mp hpre
        have hdrop := OnlySpaceAndSep_at_sep sep (x :: xs) hns hin hpre1
        have hlen : 0 < sep.length := List.length_pos.mpr hsep
        have hle : sep.length ≤ (x :: xs).length := hpre1.length_le
        simp only [List.length_cons] at hle
        rcases List.mem_cons.mp hp with h | h
        · subst h
          exact hpiece
        · apply ih (sep.length - 1) [] (by omega) _ (by simp) p h
          have : sep.length = (sep.length - 1) + 1 := by omega
          rw [this, List.drop_succ_cons] at hdrop
          exact hdrop
      · rename_i hpre
        have hpre1 : ¬ sep <+: x :: xs := fun h => hpre (List.isPrefixOf_iff_prefix.mpr h)
        obtain ⟨hx, hrest⟩ := OnlySpaceAndSep_off_sep sep x xs hin hpre1
        apply ih 0 (piece ++ [x]) (Nat.zero_le _) (by simpa using hrest) _ p hp
        intro c hc
        rcases List.mem_append.mp hc with h | h
        · exact hpiece c h
        · simp only [List.mem_singleton] at h
          subst h
          exact hx

/-- With a separator of white space, such a text is white space. -/
theorem OnlySpaceAndSep_all_space (sep r : List Char) (hs : ∀ c ∈ sep, isSpace c = true)
    (h : OnlySpaceAndSep sep r) : ∀ c ∈ r, isSpace c = true := by
  induction h with
  | done => simp
  | space c rest hc _ ih =>
    intro x hx
    rcases List.mem_cons.mp hx with h1 | h1
    · subst h1; exact hc
    · exact ih x h1
  | sep rest _ ih =>
    intro x hx
    rcases List.mem_append.mp hx with h1 | h1
    · exact hs x h1
    · exact ih x h1

/-- Every piece of a text of white space and separators is trimmed to the
empty string. -/
theorem Split_only_space (input sep : String) (hsep : sep ≠ "")
    (h : OnlySpaceAndSep sep.data input.data) :
    ∀ s ∈ Split input sep, TrimSpace s = "" := by
  have hsep1 : sep.data ≠ [] := by
    intro h1
    apply hsep
    exact String.ext h1
  intro s hs
  unfold Split at hs
  rw [if_neg hsep1] at hs
  obtain ⟨p, hp, rfl⟩ := List.mem_map.mp hs
  have hall : ∀ c ∈ p, isSpace c = true := by
    by_cases hns : ∀ c ∈ sep.data, isSpace c = true
    · intro c hc
      rcases splitChars_mem sep.data input.data 0 [] p hp c hc with h1 | h1
      · simp at h1
      · exact OnlySpaceAndSep_all_space sep.data input.data hns h c h1
    · exact splitChars_only_space sep.data hsep1 hns input.data 0 [] (Nat.zero_le _)
        (by simpa using h) (by simp) p hp
  unfold TrimSpace
  rw [trimSpaceChars_all_space p hall]

/-- The loop of `strings.Split` returns at least one piece. -/
theorem splitChars_ne_nil (sep r : List Char) (skip : Nat) (piece : List Char) :
    splitChars sep r skip piece ≠ [] := by
  induction r generalizing skip piece with
  | nil => simp [splitChars]
  | cons x xs ih =>
    cases skip with
    | succ k => simpa [splitChars] using ih k piece
    | zero =>
      simp only [splitChars]
      split
      · simp
      · exact ih _ _

/-- The pieces joined by the separator are the piece in progress and the rest
of the input. -/
theorem splitChars_join (sep : List Char) (hsep : sep ≠ []) (r : List Char) (skip : Nat)
    (piece : List Char) :
    List.intercalate sep (splitChars sep r skip piece) = piece ++ r.drop skip := by
  induction r generalizing skip piece with
  | nil => simp [splitChars, List.intercalate]
  | cons x xs ih =>
    cases skip with
    | succ k => simpa [splitChars] using ih k piece
    | zero =>
      simp only [splitChars, List.drop_zero]
      split
      · rename_i hpre
        obtain ⟨t, ht⟩ := List.isPrefixOf_iff_prefix.mp hpre
        have hih := ih (sep.length - 1) []
        cases hrest : splitChars sep xs (sep.length - 1) [] with
        | nil => exact absurd hrest (splitChars_ne_nil _ _ _ _)
        | cons b l =>
          rw [hrest] at hih
          have hxs : xs.drop (sep.length - 1) = t := by
            cases sep with
            | nil => exact absurd rfl hsep
            | cons s0 stail =>
              simp only [List.cons_append, List.cons.injEq] at ht
              rw [← ht.2]
              simp
          rw [hxs] at hih
          have hcons : List.intercalate sep (piece :: b :: l)
              = piece ++ (sep ++ List.intercalate sep (b :: l)) := by
            simp [List.intercalate, List.intersperse]
          rw [hcons, hih, ← ht]
          simp
      · rw [ih]
        simp

/-- The pieces of `strings.Split` joined by the separator are the input. -/
theorem Split_join (input sep : String) (hsep : sep ≠ "") :
    List.intercalate sep.data ((Split input sep).map String.data) = input.data := by
  have hsep1 : sep.data ≠ [] := by
    intro h1
    apply hsep
    exact String.ext h1
  unfold Split
  rw [if_neg hsep1, List.map_map]
  have : (String.data ∘ String.mk) = id := by
    funext l
    rfl
  rw [this, List.map_id, splitChars_join sep.data hsep1]
  simp

/-- C22.  For every input and every non-empty separator, `SplitString`
returns the pieces of the input split on the separator (joined by the
separator they give the input back), each trimmed of surrounding white space,
the pieces that are empty after trimming removed and the order kept.  No
element of the result is empty, starts with a white space character or ends
with one.  An input that holds only white space and separators, and so the
empty input, gives the empty list. -/
theorem SplitString_pieces (input sep : String) (hsep : sep ≠ "") :
    SplitString input sep = trimmedPieces input sep ∧
    List.intercalate sep.data ((Split input sep).map String.data) = input.data ∧
    (∀ t ∈ SplitString input sep, t ≠ "" ∧
      (∀ c, t.data.head? = some c → isSpace c = false) ∧
      (∀ c, t.data.getLast? = some c → isSpace c = false)) ∧
    (OnlySpaceAndSep sep.data input.data → SplitString input sep = []) ∧
    (input = "" → SplitString input sep = []) := by
  have hfilter : ∀ l : List String, (∀ s ∈ l, TrimSpace s = "") →
      (l.map TrimSpace).filter (fun t => t ≠ "") = [] := by
    intro l hl
    rw [List.filter_eq_nil_iff]
    intro t ht
    obtain ⟨s, hs, rfl⟩ := List.mem_map.mp ht
    simp [hl s hs]
  refine ⟨SplitString_eq input sep, Split_join input sep hsep, ?_, ?_, ?_⟩
  · intro t ht
    rw [SplitString_eq] at ht
    unfold trimmedPieces at ht
    obtain ⟨hmem, hne⟩ := List.mem_filter.mp ht
    obtain ⟨s, _, rfl⟩ := List.mem_map.mp hmem
    refine ⟨by simpa using hne, ?_, ?_⟩
    · intro c hc
      exact trimSpaceChars_head s.data c hc
    · intro c hc
      exact trimSpaceChars_last s.data c hc
  · intro h
    rw [SplitString_eq]
    exact hfilter _ (Split_only_space input sep hsep h)
  · intro h
    subst h
    rw [SplitString_eq]
    exact hfilter _ (Split_only_space "" sep hsep OnlySpaceAndSep.done)

/-- A list with blanks around its entries and an empty entry keeps the two
entries that are not blank; an input of blanks and commas gives nothing. -/
theorem SplitString_pieces_witness :
    SplitString " a b ,, c , " "," = ["a b", "c"] ∧ SplitString " , ,, " "," = [] :=
  ⟨by decide,
   (SplitString_pieces " , ,, " "," (by decide)).2.2.2.1
     (.space (Char.ofNat 32) _ (by decide) (.sep _ (.space (Char.ofNat 32) _ (by decide)
       (.sep _ (.sep _ (.space (Char.ofNat 32) _ (by decide) .done))))))⟩

/-! ## C24: `writeFiles` decides by the first directory -/

/-- Under a single-mill schema a successful `buildDirectory` leaves the node
started as it was, with the same threads, and returns a directory whose only
entry is under the single-file tag. -/
theorem buildDirectory_single {env : MobileEnv} {m m1 : Mobile} {data : Option Bytes}
    {path threadId : String} {thrd : Thread} {schema : Schema} {mil : Mill} {dir : Directory}
    (hthrd : m.threads.lookup threadId = some thrd) (hschema : thrd.schema = some schema)
    (hmill : getMill schema.Mill schema.Opts = .ok (some mil))
    (h : buildDirectory env m data path threadId = (.ok dir, m1)) :
    m1.started = m.started ∧ m1.threads = m.threads ∧
    ∃ file, dir.Files = [(env.SingleFileTag, file)] := by
  unfold buildDirectory at h
  split at h
  · simp at h
  · simp only [hthrd, hschema, hmill] at h
    split at h
    · simp at h
    · simp at h
    · split at h
      · simp at h
      · simp only [Prod.mk.injEq, Result.ok.injEq] at h
        obtain ⟨hd, hm⟩ := h
        subst hd hm
        rename_i added _
        exact ⟨rfl, rfl, added, by simp [Directory.set]⟩

/-- Under a single-mill schema a successful loop of `addFiles` appends one
directory per path, each with its only entry under the single-file tag, and
leaves the node started as it was, with the same threads. -/
theorem buildDirectories_single (env : MobileEnv) (threadId : String) (thrd : Thread)
    (schema : Schema) (mil : Mill) (hschema : thrd.schema = some schema)
    (hmill : getMill schema.Mill schema.Opts = .ok (some mil)) :
    ∀ (paths : List String) (m m1 : Mobile) (dirs out : List Directory),
      m.threads.lookup threadId = some thrd →
      buildDirectories env threadId m dirs paths = (.ok out, m1) →
      m1.started = m.started ∧ m1.threads = m.threads ∧
      ∃ new, out = dirs ++ new ∧ new.length = paths.length ∧
        ∀ d ∈ new, ∃ file, d.Files = [(env.SingleFileTag, file)] := by
  intro paths
  induction paths with
  | nil =>
    intro m m1 dirs out _ h
    simp only [buildDirectories, Prod.mk.injEq, Result.ok.injEq] at h
    obtain ⟨hd, hm⟩ := h
    subst hd hm
    exact ⟨rfl, rfl, [], by simp, rfl, by simp⟩
  | cons pth rest ih =>
    intro m m1 dirs out hthrd h
    simp only [buildDirectories] at h
    cases hb : buildDirectory env m none pth threadId with
    | mk r m2 =>
      rw [hb] at h
      cases r with
      | err e => simp at h
      | panic s => simp at h
      | ok dir =>
        simp only at h
        obtain ⟨hs, ht, file, hfile⟩ := buildDirectory_single hthrd hschema hmill hb
        obtain ⟨hs2, ht2, new, hout, hlen, hall⟩ := ih m2 m1 (dirs ++ [dir]) out
          (by rw [ht]; exact hthrd) h
        refine ⟨hs2.trans hs, ht2.trans ht, dir :: new, by simp [hout], by simp [hlen], ?_⟩
        intro d hd
        rcases List.mem_cons.mp hd with h1 | h1
        · subst h1
          exact ⟨file, hfile⟩
        · exact hall d h1

/-- A directory with an entry under a key has files. -/
theorem Directory.get_some_length {dir : Directory} {key : String} {file : FileIndex}
    (h : dir.get key = some file) : ¬ dir.Files.length = 0 := by
  intro h0
  have : dir.Files = [] := List.length_eq_zero.mp h0
  simp [Directory.get, this] at h

/-- C24 (as stated) fails on a stopped node: with the empty directory list
`writeFiles` fails with `ErrStopped`, not with "no files found"; the check of
the node comes before the check of the directories. -/
theorem writeFiles_stopped_first :
    writeFiles demoMobileEnv stoppedNode [] "thread1" "hi" = (.err Err.stopped, stoppedNode) ∧
    writeFiles demoMobileEnv stoppedNode [{ Files := [] }, singleDir "QmA"] "thread1" "hi"
      = (.err Err.stopped, stoppedNode) ∧
    Err.stopped ≠ Err.other "no files found" :=
  ⟨rfl, rfl, by decide⟩

/-- C24 (amended).  On a started node `writeFiles` decides by the first
directory only.  It fails with "no files found" when the directory list is
empty or its first directory has no files, whatever the thread id, so before
the thread is looked up.  When the first directory has an entry under the
single-file tag, the outcome is the same as for the first directory alone,
and the node committed through `Thread.AddFiles` is the one built by
`AddNodeFromFiles` from exactly that one file.  Otherwise the node committed
is the one built by `AddNodeFromDirs` from the whole directory list.  For a
batch of more than one path added by `addFiles` under a single-mill schema,
every directory has its file under the single-file tag, and the outcome is
that of `writeFiles` on the first directory alone: the node committed is built
from the file of the first path only. -/
theorem writeFiles_first_directory (env : MobileEnv) (m : Mobile) (hstart : m.started = true)
    (threadId caption : String) :
    writeFiles env m [] threadId caption = (.err (Err.other "no files found"), m) ∧
    (∀ first rest, first.Files = [] →
      writeFiles env m (first :: rest) threadId caption
        = (.err (Err.other "no files found"), m)) ∧
    (∀ first rest file, first.get env.SingleFileTag = some file →
      writeFiles env m (first :: rest) threadId caption
        = writeFiles env m [first] threadId caption ∧
      ∀ thrd node keys, m.threads.lookup threadId = some thrd →
        env.AddNodeFromFiles m [file] = .ok (some node, some keys) →
        writeFiles env m (first :: rest) threadId caption
          = (Result.ofExcept (AddFiles env.core thrd node caption keys).1,
              (m.setThread threadId (AddFiles env.core thrd node caption keys).2).log
                (MCall.threadAddFiles threadId node caption keys))) ∧
    (∀ first rest, first.Files ≠ [] → first.get env.SingleFileTag = none →
      ∀ thrd node keys, m.threads.lookup threadId = some thrd →
        env.AddNodeFromDirs m (first :: rest) = .ok (some node, some keys) →
        writeFiles env m (first :: rest) threadId caption
          = (Result.ofExcept (AddFiles env.core thrd node caption keys).1,
              (m.setThread threadId (AddFiles env.core thrd node caption keys).2).log
                (MCall.threadAddFiles threadId node caption keys))) ∧
    (∀ paths thrd schema mil dirs m1, m.threads.lookup threadId = some thrd →
      thrd.schema = some schema → getMill schema.Mill schema.Opts = .ok (some mil) →
      1 < paths.length →
      buildDirectories env threadId m [] paths = (.ok dirs, m1) →
      dirs.length = paths.length ∧
      (∀ d ∈ dirs, ∃ file, d.Files = [(env.SingleFileTag, file)]) ∧
      ∃ first file rest, dirs = first :: rest ∧ first.Files = [(env.SingleFileTag, file)] ∧
        addFiles env m paths threadId caption = writeFiles env m1 [first] threadId caption ∧
        ∀ node keys, env.AddNodeFromFiles m1 [file] = .ok (some node, some keys) →
          addFiles env m paths threadId caption
            = (Result.ofExcept (AddFiles env.core thrd node caption keys).1,
                (m1.setThread threadId (AddFiles env.core thrd node caption keys).2).log
                  (MCall.threadAddFiles threadId node caption keys))) := by
  have hsingle : ∀ (m : Mobile), m.started = true → ∀ first rest file,
      first.get env.SingleFileTag = some file →
      writeFiles env m (first :: rest) threadId caption
        = writeFiles env m [first] threadId caption ∧
      ∀ thrd node keys, m.threads.lookup threadId = some thrd →
        env.AddNodeFromFiles m [file] = .ok (some node, some keys) →
        writeFiles env m (first :: rest) threadId caption
          = (Result.ofExcept (AddFiles env.core thrd node caption keys).1,
              (m.setThread threadId (AddFiles env.core thrd node caption keys).2).log
                (MCall.threadAddFiles threadId node caption keys)) := by
    intro m hstart first rest file hfile
    have hlen := Directory.get_some_length hfile
    constructor
    · simp only [writeFiles, hstart, hfile, hlen]
    · intro thrd node keys hthrd hnode
      simp [writeFiles, hstart, hfile, hlen, hthrd, hnode]
  refine ⟨by simp [writeFiles, hstart], ?_, hsingle m hstart, ?_, ?_⟩
  · intro first rest hfiles
    simp [writeFiles, hstart, hfiles]
  · intro first rest hfiles hnone thrd node keys hthrd hnode
    have hlen : ¬ first.Files.length = 0 := fun h => hfiles (List.length_eq_zero.mp h)
    simp [writeFiles, hstart, hnone, hlen, hthrd, hnode]
  · intro paths thrd schema mil dirs m1 hthrd hschema hmill hpaths hbuild
    obtain ⟨hs, ht, new, hout, hlen, hall⟩ :=
      buildDirectories_single env threadId thrd schema mil hschema hmill paths m m1 [] dirs
        hthrd hbuild
    simp only [List.nil_append] at hout
    subst hout
    refine ⟨hlen, hall, ?_⟩
    cases dirs with
    | nil =>
      simp only [List.length_nil] at hlen
      omega
    | cons first rest =>
      obtain ⟨file, hfile⟩ := hall first (List.mem_cons_self _ _)
      have hget : first.get env.SingleFileTag = some file := by
        simp [Directory.get, hfile]
      have hstart1 : m1.started = true := hs.trans hstart
      have hadd : addFiles env m paths threadId caption
          = writeFiles env m1 (first :: rest) threadId caption := by
        simp only [addFiles, hbuild]
      obtain ⟨hone, hcommit⟩ := hsingle m1 hstart1 first rest file hget
      refine ⟨first, file, rest, rfl, hfile, hadd.trans hone, ?_⟩
      intro node keys hnode
      rw [hadd]
      exact hcommit thrd node keys (by rw [ht]; exact hthrd) hnode

/-- On the example node a batch of two directories under the schema `/blob`
has the outcome of its first directory alone, and so has `addFiles` for two
paths. -/
theorem writeFiles_first_directory_witness :
    writeFiles demoMobileEnv (mobileWith (schemaOf "/blob" [] []))
        [singleDir "QmA", singleDir "QmB"] "thread1" "hi"
      = writeFiles demoMobileEnv (mobileWith (schemaOf "/blob" [] []))
        [singleDir "QmA"] "thread1" "hi" ∧
    ∃ first, addFiles demoMobileEnv (mobileWith (schemaOf "/blob" [] []))
        ["/tmp/cat.png", "/tmp/cat.png"] "thread1" "hi"
      = writeFiles demoMobileEnv
          (buildDirectories demoMobileEnv "thread1" (mobileWith (schemaOf "/blob" [] [])) []
            ["/tmp/cat.png", "/tmp/cat.png"]).2 [first] "thread1" "hi" := by
  refine ⟨((writeFiles_first_directory demoMobileEnv (mobileWith (schemaOf "/blob" [] [])) rfl
    "thread1" "hi").2.2.1 (singleDir "QmA") [singleDir "QmB"]
    { Mill := "/blob", Checksum := "sum", Hash := "QmA", Media := "image/png",
      Name := "cat.png", Meta := none } rfl).1, ?_⟩
  obtain ⟨_, _, first, _, _, _, _, h, _⟩ :=
    (writeFiles_first_directory demoMobileEnv (mobileWith (schemaOf "/blob" [] [])) rfl
      "thread1" "hi").2.2.2.2 ["/tmp/cat.png", "/tmp/cat.png"]
      { demoThread with schema := some (schemaOf "/blob" [] []) } (schemaOf "/blob" [] [])
      Mill.Blob _ _ rfl rfl rfl (by decide) rfl
  exact ⟨first, h⟩

end Textile
